import Mathlib

/-!
Verification of the wtfk schema-parsing core.

The embedded code comes from:
  * `src/scripts/step_01_extract_schema.py` (DDL extractor),
  * `src/scripts/02_compress_schema.py`     (DDL parser / compressor),
  * `src/scripts/03_generate_context.py`    (compact-notation re-parser and
    statistics engine; `step_03_generate_context.py` has an identical
    `_parse_column`).

Python strings are embedded as `List Char`.  `str.upper` / `str.lower` are
embedded as ASCII case maps (the DDL dumps handled by the scripts are ASCII).
Regular-expression searches from the source are embedded as explicit scanners
that try a match at each successive start position, exactly as `re.search`
does; for the patterns used here (literal text plus `\w+`, `\d+`, `[^)]+`,
`[^,\s]+` character classes followed by a literal), greedy matching never
backtracks into a shorter run, so the scanners implement the same function.
Python dict / Counter values are embedded as insertion-ordered association
lists; `d[k] = v` is replace-or-append, `d[k]` mutation keeps the position.
A lookup of a missing key (which would raise `KeyError`) cannot occur in the
embedded code paths - the callers establish presence first - so the update
helpers leave the state unchanged there, and theorems carry explicit
presence hypotheses where it matters.
-/

namespace Wtfk

/-- Python strings, embedded as character lists. -/
abbrev Str := List Char

/-- The whitespace characters recognised by Python `str.strip` / `str.split`. -/
def wsChars : Str := [' ', '\t', '\n', '\r', '\x0b', '\x0c']

def isWs (c : Char) : Bool := wsChars.contains c

/-- `str.lstrip()` for default whitespace. -/
def lstrip (xs : Str) : Str := xs.dropWhile isWs

/-- `str.rstrip()` for default whitespace. -/
def rstripWs (xs : Str) : Str := (xs.reverse.dropWhile isWs).reverse

/-- Python `str.strip()`. -/
def strip (xs : Str) : Str := rstripWs (lstrip xs)

/-- Python `sub in s` substring test. -/
def containsL (pat : Str) : Str → Bool
  | [] => pat.isEmpty
  | c :: t => pat.isPrefixOf (c :: t) || containsL pat t

/-- ASCII lower/upper case letter pairs, used to embed `str.upper` and
`str.lower` on the ASCII text these scripts process. -/
def azPairs : List (Char × Char) :=
  [('a', 'A'), ('b', 'B'), ('c', 'C'), ('d', 'D'), ('e', 'E'), ('f', 'F'),
   ('g', 'G'), ('h', 'H'), ('i', 'I'), ('j', 'J'), ('k', 'K'), ('l', 'L'),
   ('m', 'M'), ('n', 'N'), ('o', 'O'), ('p', 'P'), ('q', 'Q'), ('r', 'R'),
   ('s', 'S'), ('t', 'T'), ('u', 'U'), ('v', 'V'), ('w', 'W'), ('x', 'X'),
   ('y', 'Y'), ('z', 'Z')]

def upChar (c : Char) : Char := (azPairs.lookup c).getD c

def loChar (c : Char) : Char := ((azPairs.map (fun p => (p.2, p.1))).lookup c).getD c

/-- Python `str.upper()` (ASCII). -/
def upperL (xs : Str) : Str := xs.map upChar

/-- Python `str.lower()` (ASCII). -/
def lowerL (xs : Str) : Str := xs.map loChar

/-- Python `str.split(sep)` for a one-character separator: keeps empty parts. -/
def splitOn (sep : Char) : Str → List Str
  | [] => [[]]
  | c :: t =>
    if c = sep then [] :: splitOn sep t
    else
      match splitOn sep t with
      | l :: ls => (c :: l) :: ls
      | [] => [[c]]

/-- Python `str.split()` with no argument: splits on whitespace runs and
drops empty tokens.  Accumulator-style so that it is structurally recursive. -/
def splitWsAux : Str → Str → List Str
  | [], cur => if cur.isEmpty then [] else [cur.reverse]
  | c :: t, cur =>
    if isWs c then
      if cur.isEmpty then splitWsAux t [] else cur.reverse :: splitWsAux t []
    else splitWsAux t (c :: cur)

def splitWs (xs : Str) : List Str := splitWsAux xs []

/-- `', '.join(parts)` (the column-list joiner used by the compressor). -/
def joinCS : List Str → Str
  | [] => []
  | [w] => w
  | w :: ws => w ++ ',' :: ' ' :: joinCS (ws)

/-- `'\n'.join(lines)`. -/
def joinNl : List Str → Str
  | [] => []
  | [w] => w
  | w :: ws => w ++ '\n' :: joinNl (ws)

/-- Words joined by single spaces (a specification-side view of a line used
to reason about substring searches on emitted text). -/
def joinSp : List Str → Str
  | [] => []
  | [w] => w
  | w :: ws => w ++ ' ' :: joinSp (ws)

/-- Python `\w` word character, ASCII. -/
def isWordChar (c : Char) : Bool :=
  ('a' ≤ c && c ≤ 'z') || ('A' ≤ c && c ≤ 'Z') || ('0' ≤ c && c ≤ '9') || c = '_'

def isDigit (c : Char) : Bool := '0' ≤ c && c ≤ '9'

/-- First-occurrence update of an association list: `d[k]` mutation
(`d[k].append`, `d[k] += 1` on a present key). -/
def updA {β : Type} (k : Str) (f : β → β) : List (Str × β) → List (Str × β)
  | [] => []
  | (k', v) :: t => if k' = k then (k', f v) :: t else (k', v) :: updA k f t

/-- Python dict assignment `d[k] = v`: replaces in place, else appends. -/
def setA {β : Type} (k : Str) (v : β) : List (Str × β) → List (Str × β)
  | [] => [(k, v)]
  | (k', v') :: t => if k' = k then (k, v) :: t else (k', v') :: setA k v t

/-- `Counter[k] += 1`: bump a present key in place, else append with count 1. -/
def cinc (k : Str) : List (Str × Nat) → List (Str × Nat)
  | [] => [(k, 1)]
  | (k', n) :: t => if k' = k then (k', n + 1) :: t else (k', n) :: cinc k t

/-- `list.remove(x)`: drop the first element equal to `x`. -/
def removeFirst {α : Type} [DecidableEq α] : List α → α → List α
  | [], _ => []
  | x :: t, a => if x = a then t else x :: removeFirst t a

/-! ## DDL Extractor (`step_01_extract_schema.py`, `extract_schema`) -/

/-- `is_insert_statement` from `step_01_extract_schema.py`. -/
def isInsertStatementLine (line : Str) : Bool :=
  let ls := upperL (strip line)
  "INSERT INTO".toList.isPrefixOf ls ||
    ("COPY ".toList.isPrefixOf ls && containsL " FROM ".toList ls)

/-- One iteration of the filtering loop in `extract_schema`
(state: kept lines so far, `in_copy_block`, `in_insert_block`). -/
def extractStep : (List Str × Bool × Bool) → Str → (List Str × Bool × Bool)
  | (out, inCopy, inIns), line =>
    let ls := upperL (strip line)
    if "COPY ".toList.isPrefixOf ls then (out, true, inIns)
    else if inCopy then
      if ls = "\\.".toList then (out, false, inIns) else (out, inCopy, inIns)
    else if "INSERT INTO".toList.isPrefixOf ls then (out, inCopy, true)
    else if inIns then
      if ls.getLast? = some ';' then (out, inCopy, false) else (out, inCopy, inIns)
    else if isInsertStatementLine line then (out, inCopy, inIns)
    else (out ++ [line], inCopy, inIns)

/-- The line filter of `extract_schema`: the schema lines kept from the input. -/
def extractSchemaLines (lines : List Str) : List Str :=
  (lines.foldl extractStep ([], false, false)).1

/-! ## Schema model of the DDL Parser / Compressor (`02_compress_schema.py`)

`SchemaCompressor` stores tables in an `OrderedDict`; a table is a dict with
an `OrderedDict` of columns, a list of constraint dicts (tagged by `'type'`)
and a list of index dicts.  Sequences map a name to an optional owner pair. -/

structure ColumnInfo where
  type : Str
  not_null : Bool
  default : Option Str
  auto_pk : Bool
deriving DecidableEq, Repr

inductive Constraint where
  | primaryKey (columns : List Str)
  | foreignKey (columns : List Str) (ref_table : Str) (ref_columns : List Str)
      (deferrable : Bool)
  | unique (columns : List Str)
deriving DecidableEq, Repr

def Constraint.isPrimaryKey : Constraint → Bool
  | .primaryKey _ => true
  | _ => false

structure IndexInfo where
  name : Str
  columns : List Str
  unique : Bool
  like_ops : Bool
deriving DecidableEq, Repr

structure TableInfo where
  columns : List (Str × ColumnInfo)
  constraints : List Constraint
  indexes : List IndexInfo
deriving DecidableEq, Repr

structure SeqInfo where
  owned_by : Option (Str × Str)
deriving DecidableEq, Repr

/-- The mutable state of `SchemaCompressor` (the unread `current_table`
attribute is written but never consulted by the parsing logic, so it is not
carried). -/
structure CState where
  tables : List (Str × TableInfo)
  sequences : List (Str × SeqInfo)
  default_owner : Option Str
  default_schema : Str
deriving DecidableEq, Repr

def emptyTable : TableInfo := { columns := [], constraints := [], indexes := [] }

def initialCState : CState :=
  { tables := [], sequences := [], default_owner := none,
    default_schema := "public".toList }

/-! ### Regex scanners for the compressor

Each embeds one `re.search` pattern from `02_compress_schema.py` as a scan
that attempts the pattern at every start position in turn. -/

/-- Split off a maximal `\w+` run. -/
def takeWord (xs : Str) : Str × Str := (xs.takeWhile isWordChar, xs.dropWhile isWordChar)

/-- Match `(\w+\.)?(\w+)` at the head of `xs` and return group 2 (with the
regex fallback: a trailing `w.` with no second word yields the first word). -/
def matchDottedName (xs : Str) : Option Str :=
  let (w1, r1) := takeWord xs
  if w1.isEmpty then none
  else
    match r1 with
    | '.' :: r2 =>
      let (w2, _) := takeWord r2
      if w2.isEmpty then some w1 else some w2
    | _ => some w1

/-- `re.search(lit ++ r'(\w+\.)?(\w+)', line)`, returning group 2. -/
def scanNameAfter (lit : Str) : Str → Option Str
  | [] => none
  | c :: t =>
    if lit.isPrefixOf (c :: t) then
      match matchDottedName ((c :: t).drop lit.length) with
      | some n => some n
      | none => scanNameAfter lit t
    else scanNameAfter lit t

/-- `re.search(lit ++ r'(\w+)', line)`, returning the group. -/
def scanWordAfter (lit : Str) : Str → Option Str
  | [] => none
  | c :: t =>
    if lit.isPrefixOf (c :: t) then
      let (w, _) := takeWord ((c :: t).drop lit.length)
      if w.isEmpty then scanWordAfter lit t else some w
    else scanWordAfter lit t

/-- `re.search(lit ++ r'\(([^)]+)\)', line)` where `lit` ends just before the
opening parenthesis: returns the parenthesised capture. -/
def scanParenAfter (lit : Str) : Str → Option Str
  | [] => none
  | c :: t =>
    if lit.isPrefixOf (c :: t) then
      let rest := (c :: t).drop lit.length
      let a := rest.takeWhile (· != ')')
      if !a.isEmpty && !(rest.dropWhile (· != ')')).isEmpty then some a
      else scanParenAfter lit t
    else scanParenAfter lit t

/-- Match `(\w+\.)?(\w+)\(` at the head, returning the name (group) and the
residue after the `(`; backtracks over the optional dotted prefix exactly as
the regex engine does. -/
def matchNameParen (xs : Str) : Option (Str × Str) :=
  let (w1, r1) := takeWord xs
  if w1.isEmpty then none
  else
    match r1 with
    | '(' :: r2 => some (w1, r2)
    | '.' :: r2 =>
      let (w2, r3) := takeWord r2
      if w2.isEmpty then none
      else
        match r3 with
        | '(' :: r4 => some (w2, r4)
        | _ => none
    | _ => none

/-- `re.search(r'ALTER TABLE (?:ONLY )?(\w+\.)?(\w+)', line)`, group 2. -/
def scanAlterTableName : Str → Option Str
  | [] => none
  | c :: t =>
    if "ALTER TABLE ".toList.isPrefixOf (c :: t) then
      let rest := (c :: t).drop 12
      let attempt :=
        if "ONLY ".toList.isPrefixOf rest then
          match matchDottedName (rest.drop 5) with
          | some n => some n
          | none => matchDottedName rest
        else matchDottedName rest
      match attempt with
      | some n => some n
      | none => scanAlterTableName t
    else scanAlterTableName t

/-- `re.search(r'ALTER SEQUENCE (\w+\.)?(\w+) OWNED BY (\w+\.)?(\w+)\.(\w+)', line)`:
returns (sequence name, owner table, owner column). -/
def scanSequenceOwnedBy : Str → Option (Str × Str × Str)
  | [] => none
  | c :: t =>
    if "ALTER SEQUENCE ".toList.isPrefixOf (c :: t) then
      let rest := (c :: t).drop 15
      let res :=
        match matchDottedName rest with
        | none => none
        | some sq =>
          -- advance past the matched name part: the name part is a maximal
          -- `\w+(\.\w+)?` run starting `rest`
          let (w1, r1) := takeWord rest
          let after :=
            match r1 with
            | '.' :: r2 =>
              let (w2, r3) := takeWord r2
              if w2.isEmpty then r1 else r3
            | _ => r1
          let _ := w1
          if " OWNED BY ".toList.isPrefixOf after then
            let tgt := after.drop 10
            let (v1, s1) := takeWord tgt
            if v1.isEmpty then none
            else
              match s1 with
              | '.' :: s2 =>
                let (v2, s3) := takeWord s2
                if v2.isEmpty then none
                else
                  match s3 with
                  | '.' :: s4 =>
                    let (v3, _) := takeWord s4
                    if v3.isEmpty then some (sq, v1, v2) else some (sq, v2, v3)
                  | _ => some (sq, v1, v2)
              | _ => none
          else none
      match res with
      | some r => some r
      | none => scanSequenceOwnedBy t
    else scanSequenceOwnedBy t

/-- `re.search(r'FOREIGN KEY \(([^)]+)\) REFERENCES (\w+\.)?(\w+)\(([^)]+)\)', line)`:
returns (local column capture, referenced table, referenced column capture). -/
def scanForeignKey : Str → Option (Str × Str × Str)
  | [] => none
  | c :: t =>
    if "FOREIGN KEY (".toList.isPrefixOf (c :: t) then
      let rest := (c :: t).drop 13
      let a := rest.takeWhile (· != ')')
      let rest2 := rest.dropWhile (· != ')')
      let res :=
        if a.isEmpty || rest2.isEmpty then none
        else if ") REFERENCES ".toList.isPrefixOf rest2 then
          match matchNameParen (rest2.drop 13) with
          | none => none
          | some (rt, r4) =>
            let b := r4.takeWhile (· != ')')
            if !b.isEmpty && !(r4.dropWhile (· != ')')).isEmpty then some (a, rt, b)
            else none
        else none
      match res with
      | some r => some r
      | none => scanForeignKey t
    else scanForeignKey t

/-- `re.search(r'CREATE (?:UNIQUE )?INDEX (\w+) ON (\w+\.)?(\w+)', line)`:
returns (index name, table name). -/
def scanCreateIndex : Str → Option (Str × Str)
  | [] => none
  | c :: t =>
    if "CREATE ".toList.isPrefixOf (c :: t) then
      let rest := (c :: t).drop 7
      let afterOpt :=
        if "UNIQUE ".toList.isPrefixOf rest then rest.drop 7 else rest
      let res :=
        if "INDEX ".toList.isPrefixOf afterOpt then
          let r1 := afterOpt.drop 6
          let (iname, r2) := takeWord r1
          if iname.isEmpty then none
          else if " ON ".toList.isPrefixOf r2 then
            match matchDottedName (r2.drop 4) with
            | some tn => some (iname, tn)
            | none => none
          else none
        else none
      match res with
      | some r => some r
      | none => scanCreateIndex t
    else scanCreateIndex t

/-- `re.search(r'USING \w+ \(([^)]+)\)', line)`: the index column capture. -/
def scanUsingCols : Str → Option Str
  | [] => none
  | c :: t =>
    if "USING ".toList.isPrefixOf (c :: t) then
      let rest := (c :: t).drop 6
      let (m, r1) := takeWord rest
      let res :=
        if m.isEmpty then none
        else
          match r1 with
          | ' ' :: '(' :: r2 =>
            let a := r2.takeWhile (· != ')')
            if !a.isEmpty && !(r2.dropWhile (· != ')')).isEmpty then some a else none
          | _ => none
      match res with
      | some r => some r
      | none => scanUsingCols t
    else scanUsingCols t

/-- One attempt of `re.search(r'DEFAULT\s+([^,\s]+)', line)` at a fixed
start position: the literal, then at least one whitespace character, then at
least one token character. -/
def tryDefaultAt (xs : Str) : Option Str :=
  if "DEFAULT".toList.isPrefixOf xs then
    let rest := xs.drop 7
    let run := rest.takeWhile isWs
    let rest2 := rest.dropWhile isWs
    let tok := rest2.takeWhile (fun d => !isWs d && d != ',')
    if !run.isEmpty && !tok.isEmpty then some tok else none
  else none

/-- `re.search(r'DEFAULT\s+([^,\s]+)', line)`: the default-value token, by
attempting the pattern at each successive start position.  In
`_parse_column_definition` this is applied to `line.upper()`. -/
def findDefault : Str → Option Str
  | [] => none
  | c :: t =>
    match tryDefaultAt (c :: t) with
    | some r => some r
    | none => findDefault t

/-! ### `_simplify_type`: the ordered `re.sub` substitutions -/

/-- `re.sub(lit ++ r'\(\d+\)' … , repl, xs)` — strictly, the source patterns
are `character varying\(\d+\)` and `character\(\d+\)`, i.e. a literal ending
in `(`, then digits, then `)`.  Fuel-indexed to stay structurally recursive;
the caller passes the string length, which suffices since every step consumes
at least one character. -/
def subDigitParenF (lit repl : Str) : Nat → Str → Str
  | 0, xs => xs
  | _ + 1, [] => []
  | n + 1, c :: t =>
    if lit.isPrefixOf (c :: t) then
      let rest := (c :: t).drop lit.length
      let ds := rest.takeWhile isDigit
      let rest2 := rest.dropWhile isDigit
      if !ds.isEmpty && rest2.head? = some ')' then
        repl ++ subDigitParenF lit repl n rest2.tail
      else c :: subDigitParenF lit repl n t
    else c :: subDigitParenF lit repl n t

/-- `re.sub(lit, repl, xs)` for a plain literal pattern (fuel-indexed). -/
def subLitF (lit repl : Str) : Nat → Str → Str
  | 0, xs => xs
  | _ + 1, [] => []
  | n + 1, c :: t =>
    if lit.isPrefixOf (c :: t) then repl ++ subLitF lit repl n ((c :: t).drop lit.length)
    else c :: subLitF lit repl n t

/-- `SchemaCompressor._simplify_type`. -/
def simplifyType (ct0 : Str) : Str :=
  let ct1 := subDigitParenF "character varying(".toList "varchar".toList ct0.length ct0
  let ct2 := subDigitParenF "character(".toList "char".toList ct1.length ct1
  let ct3 := subLitF "timestamp with time zone".toList "timestamptz".toList ct2.length ct2
  subLitF "timestamp without time zone".toList "timestamp".toList ct3.length ct3

/-! ### `_parse_column_definition` -/

/-- `str.rstrip(',')`. -/
def rstripCommas (xs : Str) : Str := (xs.reverse.dropWhile (· == ',')).reverse

def constraintKeywords : List Str :=
  ["CONSTRAINT".toList, "PRIMARY KEY".toList, "FOREIGN KEY".toList,
   "UNIQUE".toList, "CHECK".toList]

/-- `SchemaCompressor._parse_column_definition`, as the column-info record it
stores (or `none` when the line is skipped). -/
def parseColumnDefinition (line0 : Str) : Option (Str × ColumnInfo) :=
  let line := rstripCommas line0
  if constraintKeywords.any (fun k => containsL k (upperL line)) then none
  else
    match splitWs line with
    | colName :: rawType :: _ =>
      let colType := simplifyType rawType
      let notNull := containsL "NOT NULL".toList (upperL line)
      let defaultValue :=
        if containsL "DEFAULT".toList (upperL line) then findDefault (upperL line)
        else none
      some (colName, { type := colType, not_null := notNull,
                       default := defaultValue, auto_pk := false })
    | _ => none

/-! ### `_parse_alter_table_constraint` and `_parse_create_index` -/

def addConstraint (tn : Str) (c : Constraint) (s : CState) : CState :=
  { s with tables := updA tn (fun t => { t with constraints := t.constraints ++ [c] }) s.tables }

def addIndex (tn : Str) (ix : IndexInfo) (s : CState) : CState :=
  { s with tables := updA tn (fun t => { t with indexes := t.indexes ++ [ix] }) s.tables }

/-- `SchemaCompressor._parse_alter_table_constraint`. -/
def parseAlterTableConstraint (line : Str) (s : CState) : CState :=
  match scanAlterTableName line with
  | none => s
  | some tableName =>
    if (s.tables.lookup tableName).isNone then s
    else
      let up := upperL line
      if containsL "PRIMARY KEY".toList up then
        match scanParenAfter "PRIMARY KEY (".toList line with
        | some grp =>
          addConstraint tableName (.primaryKey ((splitOn ',' grp).map strip)) s
        | none => s
      else if containsL "FOREIGN KEY".toList up then
        match scanForeignKey line with
        | some (lcs, refTable, rcs) =>
          addConstraint tableName
            (.foreignKey ((splitOn ',' lcs).map strip) refTable
              ((splitOn ',' rcs).map strip) (containsL "DEFERRABLE".toList up)) s
        | none => s
      else if containsL "UNIQUE".toList up then
        match scanParenAfter "UNIQUE (".toList line with
        | some grp =>
          addConstraint tableName (.unique ((splitOn ',' grp).map strip)) s
        | none => s
      else s

/-- `re.sub(r'\s+varchar_pattern_ops|\s+text_pattern_ops', '', col)`
(fuel-indexed; every step consumes at least one character). -/
def subPatternOpsF : Nat → Str → Str
  | 0, xs => xs
  | _ + 1, [] => []
  | n + 1, c :: t =>
    if isWs c then
      let after := (c :: t).dropWhile isWs
      if "varchar_pattern_ops".toList.isPrefixOf after then
        subPatternOpsF n (after.drop 19)
      else if "text_pattern_ops".toList.isPrefixOf after then
        subPatternOpsF n (after.drop 16)
      else c :: subPatternOpsF n t
    else c :: subPatternOpsF n t

def subPatternOps (xs : Str) : Str := subPatternOpsF xs.length xs

/-- `SchemaCompressor._parse_create_index`. -/
def parseCreateIndex (line : Str) (s : CState) : CState :=
  match scanCreateIndex line with
  | none => s
  | some (indexName, tableName) =>
    let uniq := containsL "UNIQUE".toList (upperL line)
    if (s.tables.lookup tableName).isNone then s
    else
      match scanUsingCols line with
      | some grp =>
        let columns := (splitOn ',' grp).map strip
        let likeOps := columns.any (fun col => containsL "_pattern_ops".toList col)
        let columns := if likeOps then columns.map subPatternOps else columns
        addIndex tableName
          { name := indexName, columns := columns, unique := uniq, like_ops := likeOps } s
      | none => s

/-! ### The `parse_schema` statement loop -/

/-- The body consumed by `_parse_create_table`: lines up to (excluding) the
first terminator line (stripped form equal to `);` or starting with `);`),
paired with the lines after the terminator.  When no terminator occurs the
whole remainder is body (the Python index runs off the end). -/
def tableBodySplit : List Str → List Str × List Str
  | [] => ([], [])
  | l :: t =>
    let sl := strip l
    if sl = ");".toList || ");".toList.isPrefixOf sl then ([], t)
    else
      let (b, r) := tableBodySplit t
      (l :: b, r)

/-- Store one parsed column (`self.tables[table]['columns'][name] = info`). -/
def addColumn (tn : Str) (line : Str) (s : CState) : CState :=
  match parseColumnDefinition line with
  | some (c, ci) =>
    { s with tables := updA tn (fun t => { t with columns := setA c ci t.columns }) s.tables }
  | none => s

/-- The `ALTER TABLE ... OWNER TO` side channel at the top of the loop. -/
def ownerUpdate (line : Str) (s : CState) : CState :=
  if "ALTER TABLE".toList.isPrefixOf line && containsL "OWNER TO".toList line then
    match scanWordAfter "OWNER TO ".toList line, s.default_owner with
    | some o, none => { s with default_owner := some o }
    | _, _ => s
  else s

/-- `SchemaCompressor.parse_schema`'s statement loop.  Fuel-indexed (the
Python loop advances an index); fuel equal to the number of lines suffices
because each step consumes at least one line. -/
def parseLoop : Nat → CState → List Str → CState
  | 0, s, _ => s
  | _ + 1, s, [] => s
  | n + 1, s0, l :: rest =>
    let line := strip l
    let s := ownerUpdate line s0
    if "CREATE TABLE".toList.isPrefixOf line then
      match scanNameAfter "CREATE TABLE ".toList line with
      | none => parseLoop n s rest
      | some tableName =>
        let s1 :=
          if (s.tables.lookup tableName).isSome then s
          else { s with tables := s.tables ++ [(tableName, emptyTable)] }
        let (body, rem) := tableBodySplit rest
        let s2 := body.foldl
          (fun acc bl =>
            let sbl := strip bl
            if !sbl.isEmpty && !("--".toList.isPrefixOf sbl) then addColumn tableName sbl acc
            else acc) s1
        parseLoop n s2 rem
    else if "CREATE SEQUENCE".toList.isPrefixOf line then
      let s' :=
        match scanNameAfter "CREATE SEQUENCE ".toList line with
        | some sq => { s with sequences := setA sq { owned_by := none } s.sequences }
        | none => s
      parseLoop n s' rest
    else if containsL "SEQUENCE".toList line && containsL "OWNED BY".toList line then
      let s' :=
        match scanSequenceOwnedBy line with
        | some (sq, tn, cn) =>
          if (s.sequences.lookup sq).isSome then
            { s with sequences := updA sq (fun _ => { owned_by := some (tn, cn) }) s.sequences }
          else s
        | none => s
      parseLoop n s' rest
    else if "ALTER TABLE".toList.isPrefixOf line && containsL "ADD CONSTRAINT".toList line then
      parseLoop n (parseAlterTableConstraint line s) rest
    else if "ALTER TABLE".toList.isPrefixOf line then
      match rest with
      | nextLine :: rest' =>
        if containsL "ADD CONSTRAINT".toList nextLine then
          parseLoop n (parseAlterTableConstraint (line ++ ' ' :: strip nextLine) s) rest'
        else parseLoop n s rest
      | [] => s
    else if "CREATE".toList.isPrefixOf line && containsL "INDEX".toList line then
      parseLoop n (parseCreateIndex line s) rest
    else parseLoop n s rest

/-! ### `_identify_auto_pk_columns` (the auto-PK post-pass) -/

/-- Is some parsed sequence owned by `(table, column)`? -/
def seqOwned (seqs : List (Str × SeqInfo)) (tn c : Str) : Bool :=
  seqs.any (fun p => p.2.owned_by = some (tn, c))

/-- One iteration of the inner loop of `_identify_auto_pk_columns`: for a
single-column primary-key constraint backed by a sequence, mark the column
(`auto_pk = True`, only if it exists) and remove the constraint. -/
def autoPkStep (seqs : List (Str × SeqInfo)) (tn : Str) (t : TableInfo)
    (pk : Constraint) : TableInfo :=
  match pk with
  | .primaryKey [c] =>
    if seqOwned seqs tn c then
      let t' :=
        if (t.columns.lookup c).isSome then
          { t with columns := updA c (fun ci => { ci with auto_pk := true }) t.columns }
        else t
      { t' with constraints := removeFirst t'.constraints pk }
    else t
  | _ => t

def identifyAutoPkTable (seqs : List (Str × SeqInfo)) (tn : Str) (t : TableInfo) :
    TableInfo :=
  (t.constraints.filter Constraint.isPrimaryKey).foldl (autoPkStep seqs tn) t

/-- `SchemaCompressor._identify_auto_pk_columns`. -/
def identifyAutoPk (s : CState) : CState :=
  { s with tables := s.tables.map (fun p => (p.1, identifyAutoPkTable s.sequences p.1 p.2)) }

/-- Run the statement loop on a line list (fuel = number of lines, which
always suffices because every iteration consumes at least one line). -/
def parseRun (s : CState) (lines : List Str) : CState :=
  parseLoop lines.length s lines

/-- `SchemaCompressor.parse_schema` on a list of input lines (the Python
caller passes `f.readlines()`; each element is stripped inside the loop). -/
def parseSchema (lines : List Str) : CState :=
  identifyAutoPk (parseRun initialCState lines)

/-! ## Compact-text serialization (`generate_compressed_schema`)

The FK reference column is `ref_columns[i] if i < len(ref_columns) else
ref_columns[0]`; the unguarded `[0]` raises `IndexError` on an empty list, so
the emission functions are `Option`-valued, with `none` for that failure. -/

/-- Python list indexing `l[i]` (out of range raises, modelled as `none`). -/
def pyGet {α : Type} (l : List α) (i : Nat) : Option α := l.get? i

/-- The reference column chosen for local column `i`:
`ref_columns[i] if i < len(ref_columns) else ref_columns[0]`. -/
def fkRef (refColumns : List Str) (i : Nat) : Option Str :=
  if i < refColumns.length then pyGet refColumns i else pyGet refColumns 0

/-- `f"  FK ({local_col}) > {ref_table}({ref_col})"` plus the optional
`" DEFERRABLE"` suffix. -/
def mkFkLine (localCol refTable refCol : Str) (dfr : Bool) : Str :=
  "  FK (".toList ++ localCol ++ ") > ".toList ++ refTable ++ '(' :: refCol ++ [')'] ++
    (if dfr then " DEFERRABLE".toList else [])

/-- The `for i, local_col in enumerate(constraint['columns'])` emission loop. -/
def fkLinesAux (refTable : Str) (refColumns : List Str) (dfr : Bool) :
    Nat → List Str → Option (List Str)
  | _, [] => some []
  | i, l :: ls =>
    match fkRef refColumns i with
    | none => none
    | some r =>
      match fkLinesAux refTable refColumns dfr (i + 1) ls with
      | none => none
      | some rest => some (mkFkLine l refTable r dfr :: rest)

/-- The lines emitted for one constraint. -/
def constraintLines : Constraint → Option (List Str)
  | .foreignKey lcs rt rcs dfr => fkLinesAux rt rcs dfr 0 lcs
  | .unique cols => some ["  UNIQUE (".toList ++ joinCS cols ++ [')']]
  | .primaryKey cols => some ["  PRIMARY KEY (".toList ++ joinCS cols ++ [')']]

/-- The line emitted for one column (auto-PK shorthand, else
`name: type [NOT NULL] [DEFAULT value]`; an absent or empty default token is
falsy in Python and is not emitted). -/
def colLine (c : Str) (ci : ColumnInfo) : Str :=
  if ci.auto_pk then "  ".toList ++ c ++ ": PK".toList
  else
    "  ".toList ++ c ++ ": ".toList ++ ci.type ++
      (if ci.not_null then " NOT NULL".toList else []) ++
      (match ci.default with
       | some d => if d.isEmpty then [] else " DEFAULT ".toList ++ d
       | none => [])

/-- The line emitted for one index. -/
def idxLine (ix : IndexInfo) : Str :=
  "  IDX (".toList ++ joinCS ix.columns ++ [')'] ++
    (if ix.like_ops then " (LIKE)".toList else []) ++
    (if ix.unique then " UNIQUE".toList else [])

/-- Concatenate `Option`-valued line blocks, failing if any fails. -/
def optConcatMap {α : Type} (f : α → Option (List Str)) : List α → Option (List Str)
  | [] => some []
  | a :: t =>
    match f a, optConcatMap f t with
    | some bs, some rest => some (bs ++ rest)
    | _, _ => none

/-- The output block for one table: header line, column lines, constraint
lines, index lines, then the blank separator line. -/
def tableLines (n : Str) (t : TableInfo) : Option (List Str) :=
  match optConcatMap constraintLines t.constraints with
  | none => none
  | some cons =>
    some ((n ++ [':']) :: (t.columns.map (fun p => colLine p.1 p.2) ++ cons ++
      t.indexes.map idxLine ++ [[]]))

/-- `f"-- Schema: {schema}"` with the optional `", Owner: {owner}"` suffix. -/
def headerLine (s : CState) : Str :=
  "-- Schema: ".toList ++ s.default_schema ++
    (match s.default_owner with
     | some o => ", Owner: ".toList ++ o
     | none => [])

/-- `generate_compressed_schema` as the list of output lines. -/
def generateLines (s : CState) : Option (List Str) :=
  match optConcatMap (fun p => tableLines p.1 p.2) s.tables with
  | none => none
  | some blocks => some (headerLine s :: [] :: blocks)

/-- `generate_compressed_schema`: the `'\n'.join(output)` text. -/
def generateCompressedSchema (s : CState) : Option Str :=
  (generateLines s).map joinNl

/-! ## Compact-Notation Parser (`03_generate_context.py`)

`SchemaContextGenerator.parse_compressed_schema` and its `_parse_*` helpers.
The per-table record mirrors the Python dict created for each table. -/

structure FkInfo where
  from_table : Str
  from_column : Str
  to_table : Str
  to_column : Str
  deferrable : Bool
deriving DecidableEq, Repr

structure GIndex where
  columns : List Str
  unique : Bool
  like_ops : Bool
deriving DecidableEq, Repr

structure GTable where
  columns : List Str
  primary_keys : List Str
  foreign_keys : List FkInfo
  unique_constraints : List (List Str)
  indexes : List GIndex
  column_types : List (Str × Nat)
  nullable_columns : Nat
  required_columns : Nat
deriving DecidableEq, Repr

structure GState where
  tables : List (Str × GTable)
  relationships : List FkInfo
deriving DecidableEq, Repr

def emptyGTable : GTable :=
  { columns := [], primary_keys := [], foreign_keys := [], unique_constraints := [],
    indexes := [], column_types := [], nullable_columns := 0, required_columns := 0 }

def emptyGState : GState := { tables := [], relationships := [] }

/-- `str.strip('"')`. -/
def stripQ (xs : Str) : Str :=
  ((xs.dropWhile (· == '"')).reverse.dropWhile (· == '"')).reverse

/-- `SchemaContextGenerator._parse_column` (identical in
`step_03_generate_context.py`). -/
def gParseColumn (line0 : Str) (tn : Str) (g : GState) : GState :=
  let line := strip line0
  if containsL ": PK".toList line then
    let colName := stripQ (strip (line.takeWhile (· != ':')))
    { g with tables := updA tn (fun t =>
        { t with columns := t.columns ++ [colName],
                 primary_keys := t.primary_keys ++ [colName],
                 column_types := cinc "integer".toList t.column_types,
                 required_columns := t.required_columns + 1 }) g.tables }
  else
    if containsL ":".toList line then
      let colName := stripQ (strip (line.takeWhile (· != ':')))
      let colDef := strip ((line.dropWhile (· != ':')).tail)
      { g with tables := updA tn (fun t =>
          let t := { t with columns := t.columns ++ [colName] }
          if colDef.isEmpty then t
          else
            let dataType := lowerL ((splitWs colDef).headD [])
            let t := { t with column_types := cinc dataType t.column_types }
            if containsL "NOT NULL".toList (upperL colDef) then
              { t with required_columns := t.required_columns + 1 }
            else
              { t with nullable_columns := t.nullable_columns + 1 }) g.tables }
    else g

/-- The `re.search(r'FK \(([^)]+)\) > (\w+)\(([^)]+)\)', line)` scanner. -/
def scanCompactFk : Str → Option (Str × Str × Str)
  | [] => none
  | c :: t =>
    if "FK (".toList.isPrefixOf (c :: t) then
      let rest := (c :: t).drop 4
      let a := rest.takeWhile (· != ')')
      let rest2 := rest.dropWhile (· != ')')
      let res :=
        if a.isEmpty || rest2.isEmpty then none
        else if ") > ".toList.isPrefixOf rest2 then
          match matchNameParen (rest2.drop 4) with
          | none => none
          | some (rt, r4) =>
            let b := r4.takeWhile (· != ')')
            if !b.isEmpty && !(r4.dropWhile (· != ')')).isEmpty then some (a, rt, b)
            else none
        else none
      match res with
      | some r => some r
      | none => scanCompactFk t
    else scanCompactFk t

/-- `SchemaContextGenerator._parse_foreign_key`. -/
def gParseFk (line : Str) (tn : Str) (g : GState) : GState :=
  match scanCompactFk line with
  | some (lc, rt, rc) =>
    let fk : FkInfo :=
      { from_table := tn, from_column := strip lc, to_table := strip rt,
        to_column := strip rc,
        deferrable := containsL "DEFERRABLE".toList (upperL line) }
    { g with
        tables := updA tn (fun t => { t with foreign_keys := t.foreign_keys ++ [fk] }) g.tables,
        relationships := g.relationships ++ [fk] }
  | none => g

/-- `SchemaContextGenerator._parse_unique_constraint`. -/
def gParseUnique (line : Str) (tn : Str) (g : GState) : GState :=
  match scanParenAfter "UNIQUE (".toList line with
  | some grp =>
    { g with tables := updA tn (fun t =>
        { t with unique_constraints := t.unique_constraints ++ [(splitOn ',' grp).map strip] }) g.tables }
  | none => g

/-- `SchemaContextGenerator._parse_primary_key`. -/
def gParsePk (line : Str) (tn : Str) (g : GState) : GState :=
  match scanParenAfter "PRIMARY KEY (".toList line with
  | some grp =>
    { g with tables := updA tn (fun t =>
        { t with primary_keys := t.primary_keys ++ (splitOn ',' grp).map strip }) g.tables }
  | none => g

/-- `SchemaContextGenerator._parse_index`. -/
def gParseIndex (line : Str) (tn : Str) (g : GState) : GState :=
  match scanParenAfter "IDX (".toList line with
  | some grp =>
    let ix : GIndex :=
      { columns := (splitOn ',' grp).map strip,
        unique := containsL "UNIQUE".toList (upperL line),
        like_ops := containsL "(LIKE)".toList (upperL line) }
    { g with tables := updA tn (fun t => { t with indexes := t.indexes ++ [ix] }) g.tables }
  | none => g

/-- One iteration of the `parse_compressed_schema` line loop, carrying the
`current_table` context. -/
def gstep : GState × Option Str → Str → GState × Option Str
  | (g, ct), originalLine =>
    let line := strip originalLine
    if line.isEmpty || "--".toList.isPrefixOf line then (g, ct)
    else if line.getLast? = some ':' && !(" ".toList.isPrefixOf originalLine) then
      (({ g with tables := setA line.dropLast emptyGTable g.tables }), some line.dropLast)
    else
      match ct with
      | none => (g, ct)
      | some tn =>
        if "  ".toList.isPrefixOf originalLine && containsL ":".toList line &&
            !("  FK".toList.isPrefixOf originalLine) &&
            !("  UNIQUE".toList.isPrefixOf originalLine) &&
            !("  IDX".toList.isPrefixOf originalLine) &&
            !("  PRIMARY".toList.isPrefixOf originalLine) then
          (gParseColumn line tn g, ct)
        else if "  FK (".toList.isPrefixOf originalLine then (gParseFk line tn g, ct)
        else if "  UNIQUE (".toList.isPrefixOf originalLine then (gParseUnique line tn g, ct)
        else if "  PRIMARY KEY (".toList.isPrefixOf originalLine then (gParsePk line tn g, ct)
        else if "  IDX (".toList.isPrefixOf originalLine then (gParseIndex line tn g, ct)
        else (g, ct)

/-- `parse_compressed_schema` on an already-split list of lines. -/
def parseCompactLines (lines : List Str) : GState :=
  (lines.foldl gstep (emptyGState, none)).1

/-- `parse_compressed_schema(schema_content)`:
`schema_content.strip().split('\n')` then the line loop. -/
def parseCompressedSchema (content : Str) : GState :=
  parseCompactLines (splitOn '\n' (strip content))

/-! ## Statistics Engine (`generate_statistics`)

The foreign-key degree analysis: one pass over `self.relationships`
incrementing two `defaultdict(int)` maps (`fk_counts` keyed by `from_table`,
`incoming_fk_counts` keyed by `to_table`). -/

/-- The degree-counting loop of `generate_statistics`:
`for fk in self.relationships: fk_counts[fk['from_table']] += 1;
incoming_fk_counts[fk['to_table']] += 1`. -/
def degMaps (rels : List FkInfo) : List (Str × Nat) × List (Str × Nat) :=
  rels.foldl (fun (m : List (Str × Nat) × List (Str × Nat)) fk =>
    (cinc fk.from_table m.1, cinc fk.to_table m.2)) ([], [])

/-- `defaultdict(int)` lookup: a missing key reads as 0. -/
def lookupD (m : List (Str × Nat)) (k : Str) : Nat := (m.lookup k).getD 0

/-- The sum of all counts held in a degree map. -/
def sumVals (m : List (Str × Nat)) : Nat := (m.map (fun p => p.2)).sum

/-- The out-degree the Statistics Engine computes for a table name. -/
def outDegree (rels : List FkInfo) (n : Str) : Nat := lookupD (degMaps rels).1 n

/-- The in-degree the Statistics Engine computes for a table name. -/
def inDegree (rels : List FkInfo) (n : Str) : Nat := lookupD (degMaps rels).2 n

/-! ## Fallback categorization (`_fallback_categorize_tables`) -/

/-- The `fallback_categorization` block of the default settings in
`SchemaContextGenerator.load_settings`. -/
def defaultFallbackCategorization : List (Str × List Str) :=
  [("auth_security".toList,
    ["auth".toList, "user".toList, "permission".toList, "role".toList,
     "token".toList, "session".toList]),
   ("audit_logging".toList,
    ["log".toList, "audit".toList, "change".toList, "history".toList,
     "event".toList]),
   ("configuration".toList,
    ["config".toList, "setting".toList, "param".toList, "lookup".toList,
     "type".toList, "status".toList, "category".toList]),
   ("integration".toList,
    ["api".toList, "webhook".toList, "external".toList, "import".toList,
     "export".toList, "sync".toList]),
   ("temporary_cache".toList,
    ["temp".toList, "cache".toList, "queue".toList, "pending".toList])]

/-- First category whose keyword set matches the lowercased table name
(the inner `for category, keywords in category_keywords.items(): if any(...):
... break` loop). -/
def assignCategory (keywordPairs : List (Str × List Str)) (nameLower : Str) :
    Option Str :=
  (keywordPairs.find? (fun p => p.2.any (fun kw => containsL kw nameLower))).map
    (fun p => p.1)

/-- `_fallback_categorize_tables`: buckets initialised from the keyword-map
keys plus `business_core`, then each table appended to its first matching
category (or to `business_core`). -/
def fallbackCategorize (keywordPairs : List (Str × List Str))
    (tableNames : List Str) : List (Str × List Str) :=
  let init := keywordPairs.map (fun p => (p.1, ([] : List Str)))
  let init := setA "business_core".toList [] init
  tableNames.foldl (fun cats tn =>
    match assignCategory keywordPairs (lowerL tn) with
    | some cat => updA cat (fun l => l ++ [tn]) cats
    | none => updA "business_core".toList (fun l => l ++ [tn]) cats) init

/-- The spec's integer family ("its type forced to an integer-family type",
§3).  Modelled from the spec: the PostgreSQL integer-family type names. -/
def integerFamilyTypes : List Str :=
  ["smallint".toList, "integer".toList, "bigint".toList, "int".toList,
   "int2".toList, "int4".toList, "int8".toList, "serial".toList,
   "smallserial".toList, "bigserial".toList]

/-- The category a table name is assigned: the first keyword match, else the
`business_core` catch-all. -/
def assignedCategory (kps : List (Str × List Str)) (tn : Str) : Str :=
  (assignCategory kps (lowerL tn)).getD "business_core".toList

/-- The foreign-key record the Compact-Notation Parser builds from one
serialized FK line. -/
def mkFk (tn lc rt rc : Str) (dfr : Bool) : FkInfo :=
  { from_table := tn, from_column := lc, to_table := rt,
    to_column := rc, deferrable := dfr }

/-! ### Hygiene for the amended round-trip

The round-trip holds on sanitized models: identifiers from the lowercase
word-character class (so re-parsing cannot change their case and they cannot
collide with the compact notation's keywords or separators), nonempty
column lists, and serialized lines whose keyword tests (`NOT NULL`,
`DEFERRABLE`, `UNIQUE`, `(LIKE)`) read back exactly the flags that produced
them. -/

/-- Lowercase identifier characters. -/
def okChar (c : Char) : Bool :=
  ('a' ≤ c && c ≤ 'z') || ('0' ≤ c && c ≤ '9') || c == '_'

def okName (w : Str) : Bool := !w.isEmpty && w.all okChar

/-- Characters allowed in a stored (already uppercased) default token. -/
def okTokChar (c : Char) : Bool :=
  ('A' ≤ c && c ≤ 'Z') || ('0' ≤ c && c ≤ '9') ||
    c == '(' || c == ')' || c == '_' || c == '.'

def okTok (w : Str) : Bool := !w.isEmpty && w.all okTokChar

/-- A well-formed serialized line: nonempty, newline-free, not ending in
whitespace. -/
def goodLine (l : Str) : Bool :=
  !l.isEmpty && !l.contains '\n' && !isWs (l.getLastD ' ')

/-- The text of a serialized column line after the `name: ` prefix — the
column definition the Compact-Notation Parser re-reads. -/
def colTail (ci : ColumnInfo) : Str :=
  ci.type ++ (if ci.not_null then " NOT NULL".toList else []) ++
    (match ci.default with
     | some dv => if dv.isEmpty then [] else " DEFAULT ".toList ++ dv
     | none => [])

def colHyg (p : Str × ColumnInfo) : Bool :=
  okName p.1 &&
  (if p.2.auto_pk then true
   else okName p.2.type &&
     (match p.2.default with
      | none => true
      | some dv => okTok dv) &&
     (containsL "NOT NULL".toList (upperL (colTail p.2)) == p.2.not_null))

def consHyg : Constraint → Bool
  | .primaryKey cols => !cols.isEmpty && cols.all okName
  | .unique cols => !cols.isEmpty && cols.all okName
  | .foreignKey lcs rt rcs dfr =>
    !lcs.isEmpty && !rcs.isEmpty && lcs.all okName && okName rt &&
      rcs.all okName &&
      (match fkLinesAux rt rcs dfr 0 lcs with
       | none => false
       | some ls => ls.all (fun l =>
           containsL "DEFERRABLE".toList (upperL (strip l)) == dfr))

def idxHyg (ix : IndexInfo) : Bool :=
  !ix.columns.isEmpty && ix.columns.all okName &&
    (containsL "UNIQUE".toList (upperL (strip (idxLine ix))) == ix.unique) &&
    (containsL "(LIKE)".toList (upperL (strip (idxLine ix))) == ix.like_ops)

def tableHyg (n : Str) (t : TableInfo) : Bool :=
  okName n &&
  t.columns.all colHyg &&
  t.constraints.all consHyg &&
  t.indexes.all idxHyg &&
  (match tableLines n t with
   | none => false
   | some b => b.dropLast.all goodLine)

def keysDistinct : List Str → Bool
  | [] => true
  | k :: t => !(t.contains k) && keysDistinct t

/-- The sanitization condition of the amended round-trip. -/
def hygienic (s : CState) : Bool :=
  goodLine (headerLine s) &&
  keysDistinct (s.tables.map Prod.fst) &&
  s.tables.all (fun p => tableHyg p.1 p.2)

/-! ### The expected re-parsed image -/

/-- The effect of re-parsing one serialized column line: the column name is
appended; an auto-PK column counts as an `integer` primary key and required;
otherwise the (already lowercase) type is counted and the NOT NULL flag
decides required versus nullable.  This mirrors `_parse_column`. -/
def colUpd (p : Str × ColumnInfo) (t : GTable) : GTable :=
  if p.2.auto_pk then
    { t with columns := t.columns ++ [p.1],
             primary_keys := t.primary_keys ++ [p.1],
             column_types := cinc "integer".toList t.column_types,
             required_columns := t.required_columns + 1 }
  else
    if p.2.not_null then
      { t with columns := t.columns ++ [p.1],
               column_types := cinc p.2.type t.column_types,
               required_columns := t.required_columns + 1 }
    else
      { t with columns := t.columns ++ [p.1],
               column_types := cinc p.2.type t.column_types,
               nullable_columns := t.nullable_columns + 1 }

/-- The FK pairs the serializer emits (one line per local column, with the
documented `ref_columns[i] if i < len else ref_columns[0]` broadcast) and
the Compact-Notation Parser re-accumulates. -/
def fkPairs (tn rt : Str) (rcs : List Str) (dfr : Bool) :
    Nat → List Str → List FkInfo
  | _, [] => []
  | i, lc :: lcs =>
    { from_table := tn, from_column := lc, to_table := rt,
      to_column := (fkRef rcs i).getD [], deferrable := dfr } ::
      fkPairs tn rt rcs dfr (i + 1) lcs

/-- The effect of re-parsing the serialized lines of one constraint. -/
def consUpd (tn : Str) (c : Constraint) (t : GTable) : GTable :=
  match c with
  | .primaryKey cols => { t with primary_keys := t.primary_keys ++ cols }
  | .unique cols =>
    { t with unique_constraints := t.unique_constraints ++ [cols] }
  | .foreignKey lcs rt rcs dfr =>
    { t with foreign_keys := t.foreign_keys ++ fkPairs tn rt rcs dfr 0 lcs }

/-- The relationships contributed by one constraint. -/
def consFks (tn : Str) : Constraint → List FkInfo
  | .foreignKey lcs rt rcs dfr => fkPairs tn rt rcs dfr 0 lcs
  | _ => []

/-- The effect of re-parsing one serialized index line. -/
def idxUpd (ix : IndexInfo) (t : GTable) : GTable :=
  { t with indexes := t.indexes ++
      [{ columns := ix.columns, unique := ix.unique,
         like_ops := ix.like_ops }] }

/-- The expected re-parsed image of one table. -/
def gImage (tn : Str) (t : TableInfo) : GTable :=
  t.indexes.foldl (fun a ix => idxUpd ix a)
    (t.constraints.foldl (fun a c => consUpd tn c a)
      (t.columns.foldl (fun a p => colUpd p a) emptyGTable))

/-- The relationships contributed by one table. -/
def tableFks (tn : Str) (t : TableInfo) : List FkInfo :=
  (t.constraints.map (consFks tn)).flatten

/-- The expected re-parsed image of a whole schema model: same table names
in the same order, each with its expected image, and the per-pair FK
relationships in emission order. -/
def gExpected (s : CState) : GState :=
  { tables := s.tables.map (fun p => (p.1, gImage p.1 p.2)),
    relationships := (s.tables.map (fun p => tableFks p.1 p.2)).flatten }

/-! ## Association-list lemmas -/

theorem lookup_map_keyed {β γ : Type} (f : Str → β → γ) (l : List (Str × β)) (n : Str) :
    (l.map (fun p => (p.1, f p.1 p.2))).lookup n = (l.lookup n).map (f n) := by
  induction l with
  | nil => rfl
  | cons hd tl ih =>
    obtain ⟨k, v⟩ := hd
    by_cases h : n = k
    · subst h; simp [List.lookup]
    · have hb : (n == k) = false := by simp [h]
      simp [List.lookup, hb, ih]

theorem lookup_updA_self {β : Type} (k : Str) (f : β → β) (l : List (Str × β)) :
    (updA k f l).lookup k = (l.lookup k).map f := by
  induction l with
  | nil => rfl
  | cons hd tl ih =>
    obtain ⟨k', v⟩ := hd
    by_cases h : k' = k
    · subst h; simp [updA, List.lookup]
    · have hb : (k == k') = false := by simp [Ne.symm h]
      simp [updA, h, List.lookup, hb, ih]

theorem filter_removeFirst {α : Type} [DecidableEq α] (p : α → Bool) (a : α)
    (hp : p a = true) (l : List α) :
    (removeFirst l a).filter p = removeFirst (l.filter p) a := by
  induction l with
  | nil => rfl
  | cons x t ih =>
    by_cases h : x = a
    · subst h; simp [removeFirst, List.filter, hp]
    · by_cases hx : p x
      · simp [removeFirst, h, List.filter, hx, ih]
      · simp [removeFirst, h, List.filter, hx, ih]

theorem lookupD_cinc (k n : Str) (m : List (Str × Nat)) :
    lookupD (cinc k m) n = lookupD m n + (if k = n then 1 else 0) := by
  induction m with
  | nil =>
    by_cases h : k = n
    · subst h; simp [cinc, lookupD, List.lookup]
    · have hb : (n == k) = false := by simp [Ne.symm h]
      simp [cinc, lookupD, List.lookup, hb, h]
  | cons hd tl ih =>
    obtain ⟨k', v⟩ := hd
    by_cases h : k' = k
    · subst h
      by_cases h2 : n = k'
      · subst h2; simp [cinc, lookupD, List.lookup]
      · have hb : (n == k') = false := by simp [h2]
        have hne : ¬k' = n := fun hkn => h2 hkn.symm
        simp [cinc, lookupD, List.lookup, hb, hne]
    · by_cases h2 : n = k'
      · subst h2
        have hne : ¬k = n := fun hkn => h hkn.symm
        simp [cinc, h, lookupD, List.lookup, hne]
      · have hb : (n == k') = false := by simp [h2]
        simpa [cinc, h, lookupD, List.lookup, hb] using ih

theorem sumVals_cinc (k : Str) (m : List (Str × Nat)) :
    sumVals (cinc k m) = sumVals m + 1 := by
  induction m with
  | nil => simp [cinc, sumVals]
  | cons hd tl ih =>
    obtain ⟨k', v⟩ := hd
    by_cases h : k' = k <;> simp [cinc, h, sumVals] at ih ⊢ <;> omega

/-! ## C3: type normalization is broken for multi-word type spellings -/

/-- C3: the claim that `character varying(n)` is stored as `varchar` and
`timestamp with time zone` as `timestamptz` fails: `_parse_column_definition`
takes only the second whitespace token as the type, so the multi-word
substitution patterns of `_simplify_type` can never match.  Evaluating the
code on the claim's own example inputs shows the stored types. -/
theorem parseColumnDefinition_truncates_multiword_types :
    ((parseColumnDefinition "name character varying(255) NOT NULL".toList).map
        (fun p => p.2.type) = some "character".toList) ∧
    ((parseColumnDefinition "created timestamp with time zone".toList).map
        (fun p => p.2.type) = some "timestamp".toList) ∧
    "character".toList ≠ "varchar".toList ∧
    "timestamp".toList ≠ "timestamptz".toList := by
  refine ⟨by decide, by decide, by decide, by decide⟩

/-! ## C4: the extractor also swallows the line after a single-line INSERT -/

/-- C4: the claim that a single-line `INSERT INTO ...;` suppresses only its
own line fails: `extract_schema` enters the insert-suppression state
unconditionally, so the following schema-defining line is dropped as well.
On its own the `ALTER TABLE` line is kept; after the single-line INSERT the
output is empty. -/
theorem extractor_swallows_line_after_single_line_insert :
    extractSchemaLines
        ["INSERT INTO t VALUES (1);".toList,
         "ALTER TABLE x OWNER TO y;".toList] = [] ∧
    extractSchemaLines ["ALTER TABLE x OWNER TO y;".toList] =
        ["ALTER TABLE x OWNER TO y;".toList] := by
  refine ⟨by decide, by decide⟩

/-! ## C2: the auto-PK post-pass — the constraint is removed and the column
marked, but the declared type is left unchanged -/

/-- C2 counterexample: a producible schema (table `t`, column `id` of type
`varchar`, a sequence owned by `t.id`, a single-column PRIMARY KEY on `id`)
for which the post-pass marks `auto_pk=true` and removes the constraint but
leaves the type `varchar`, which is not an integer-family type — refuting the
claim's "forces the column's type to an integer-family type". -/
theorem auto_pk_does_not_force_integer_type :
    (let st := parseSchema
      ["CREATE TABLE t (".toList,
       "    id varchar NOT NULL".toList,
       ");".toList,
       "CREATE SEQUENCE t_id_seq;".toList,
       "ALTER SEQUENCE t_id_seq OWNED BY t.id;".toList,
       "ALTER TABLE ONLY t ADD CONSTRAINT t_pkey PRIMARY KEY (id);".toList]
     ((st.tables.lookup "t".toList).bind
        (fun t => (t.columns.lookup "id".toList).map
          (fun ci => (ci.auto_pk, ci.type))) = some (true, "varchar".toList)) ∧
      (st.tables.lookup "t".toList).map
        (fun t => t.constraints.filter Constraint.isPrimaryKey) = some []) ∧
    "varchar".toList ∉ integerFamilyTypes := by
  refine ⟨⟨by decide, by decide⟩, by decide⟩

/-- C2 (amended): for a table whose only PRIMARY_KEY constraint is the
single-column `PRIMARY KEY (c)`, with a parsed sequence owned by `(table, c)`
and `c` a declared column, `_identify_auto_pk_columns` removes that
constraint (leaving no PRIMARY_KEY constraint), marks the column
`auto_pk=true`, and leaves the column's declared type, the other constraints
and the indexes unchanged — it does not rewrite the type. -/
theorem identifyAutoPk_removes_pk_and_marks_column (s : CState) (n : Str)
    (t : TableInfo) (c : Str) (ci : ColumnInfo)
    (ht : s.tables.lookup n = some t)
    (hpk : t.constraints.filter Constraint.isPrimaryKey = [Constraint.primaryKey [c]])
    (hseq : seqOwned s.sequences n c = true)
    (hcol : t.columns.lookup c = some ci) :
    ∃ t', (identifyAutoPk s).tables.lookup n = some t' ∧
      t'.columns = updA c (fun x => { x with auto_pk := true }) t.columns ∧
      t'.columns.lookup c = some { ci with auto_pk := true } ∧
      t'.constraints = removeFirst t.constraints (Constraint.primaryKey [c]) ∧
      t'.constraints.filter Constraint.isPrimaryKey = [] ∧
      t'.indexes = t.indexes := by
  have hmap :
      (identifyAutoPk s).tables.lookup n =
        (s.tables.lookup n).map (identifyAutoPkTable s.sequences n) := by
    simpa [identifyAutoPk] using
      lookup_map_keyed (identifyAutoPkTable s.sequences) s.tables n
  have hsome : (t.columns.lookup c).isSome := by simp [hcol]
  have hstep : identifyAutoPkTable s.sequences n t =
      { t with columns := updA c (fun x => { x with auto_pk := true }) t.columns,
               constraints := removeFirst t.constraints (Constraint.primaryKey [c]) } := by
    simp [identifyAutoPkTable, hpk, autoPkStep, hseq, hsome]
  refine ⟨identifyAutoPkTable s.sequences n t, ?_, ?_, ?_, ?_, ?_, ?_⟩
  · rw [hmap, ht, Option.map_some']
  · rw [hstep]
  · rw [hstep]
    show (updA c (fun x => { x with auto_pk := true }) t.columns).lookup c =
      some { ci with auto_pk := true }
    rw [lookup_updA_self]
    simp [hcol]
  · rw [hstep]
  · rw [hstep]
    show (removeFirst t.constraints (Constraint.primaryKey [c])).filter
        Constraint.isPrimaryKey = []
    rw [filter_removeFirst _ _ rfl, hpk]
    simp [removeFirst]
  · rw [hstep]

/-- Witness for the amended C2: the §8 example schema
(`CREATE TABLE t (id integer NOT NULL, ...)`, a sequence owned by `t.id`,
`ALTER TABLE t ADD CONSTRAINT t_pkey PRIMARY KEY (id)`), on the parser state
just before the post-pass. -/
theorem identifyAutoPk_removes_pk_and_marks_column_witness :
    ∃ t', (identifyAutoPk (parseRun initialCState
        ["CREATE TABLE t (".toList,
         "    id integer NOT NULL,".toList,
         "    payload text".toList,
         ");".toList,
         "CREATE SEQUENCE t_id_seq;".toList,
         "ALTER SEQUENCE t_id_seq OWNED BY t.id;".toList,
         "ALTER TABLE ONLY t ADD CONSTRAINT t_pkey PRIMARY KEY (id);".toList])).tables.lookup
          "t".toList = some t' ∧
      t'.columns = updA "id".toList (fun x => { x with auto_pk := true })
        [("id".toList,
          { type := "integer".toList, not_null := true, default := none, auto_pk := false }),
         ("payload".toList,
          { type := "text".toList, not_null := false, default := none, auto_pk := false })] ∧
      t'.columns.lookup "id".toList = some
        { type := "integer".toList, not_null := true, default := none, auto_pk := true } ∧
      t'.constraints = removeFirst [Constraint.primaryKey ["id".toList]]
        (Constraint.primaryKey ["id".toList]) ∧
      t'.constraints.filter Constraint.isPrimaryKey = [] ∧
      t'.indexes = [] := by
  exact identifyAutoPk_removes_pk_and_marks_column _ _
    { columns :=
        [("id".toList,
          { type := "integer".toList, not_null := true, default := none, auto_pk := false }),
         ("payload".toList,
          { type := "text".toList, not_null := false, default := none, auto_pk := false })],
      constraints := [Constraint.primaryKey ["id".toList]], indexes := [] }
    "id".toList
    { type := "integer".toList, not_null := true, default := none, auto_pk := false }
    (by decide) (by decide) (by decide) (by decide)

/-! ## C5: the stored DEFAULT token is uppercased, not verbatim -/

/-- C5 counterexample: for the column line `created timestamp DEFAULT now()`
the stored default token is `NOW()` — the regex runs on `line.upper()` — and
not the claim's verbatim token `now()`. -/
theorem default_token_not_verbatim :
    ((parseColumnDefinition "created timestamp DEFAULT now()".toList).map
        (fun p => p.2.default) = some (some "NOW()".toList)) ∧
    some (some "NOW()".toList) ≠
      some (some ("now()".toList : Str)) := by
  refine ⟨by decide, by decide⟩

/-! ## C9: FK broadcast leniency in serialization -/

theorem fkLinesAux_spec (rt : Str) (rcs : List Str) (dfr : Bool)
    (h : rcs ≠ []) (lcs : List Str) :
    ∀ i, ∃ L, fkLinesAux rt rcs dfr i lcs = some L ∧
      L.length = lcs.length ∧
      ∀ j, j < lcs.length →
        L.get? j = some (mkFkLine (lcs.getD j []) rt
          (if i + j < rcs.length then rcs.getD (i + j) [] else rcs.getD 0 []) dfr) := by
  induction lcs with
  | nil => intro i; exact ⟨[], rfl, rfl, fun j hj => absurd hj (by simp)⟩
  | cons l ls ih =>
    intro i
    obtain ⟨L, hL, hlen, hget⟩ := ih (i + 1)
    have href : ∃ r, fkRef rcs i = some r ∧
        r = (if i < rcs.length then rcs.getD i [] else rcs.getD 0 []) := by
      by_cases hi : i < rcs.length
      · refine ⟨rcs.getD i [], ?_, by simp [hi]⟩
        simp [fkRef, hi, pyGet, List.get?_eq_getElem?, List.getD, List.getElem?_eq_getElem hi]
      · have hpos : 0 < rcs.length := List.length_pos.mpr h
        refine ⟨rcs.getD 0 [], ?_, by simp [hi]⟩
        simp [fkRef, hi, pyGet, List.get?_eq_getElem?, List.getD,
          List.getElem?_eq_getElem hpos]
    obtain ⟨r, hr, hrval⟩ := href
    refine ⟨mkFkLine l rt r dfr :: L, ?_, by simp [hlen], ?_⟩
    · simp [fkLinesAux, hr, hL]
    · intro j hj
      match j with
      | 0 => simp [hrval]
      | Nat.succ j' =>
        have hj' : j' < ls.length := by simpa using hj
        have := hget j' hj'
        simpa [Nat.add_assoc, Nat.add_comm 1 j', Nat.add_left_comm] using this

/-- C9: serializing a FOREIGN_KEY constraint whose referenced-column list is
non-empty never fails (no out-of-bounds access): it produces one `FK` line
per local column, and the referenced column on line `i` is the `i`-th
referenced column when `i` is within range, otherwise the first referenced
column (broadcast). -/
theorem fk_broadcast_leniency (lcs : List Str) (rt : Str) (rcs : List Str)
    (dfr : Bool) (h : rcs ≠ []) :
    ∃ L, constraintLines (Constraint.foreignKey lcs rt rcs dfr) = some L ∧
      L.length = lcs.length ∧
      ∀ j, j < lcs.length →
        L.get? j = some (mkFkLine (lcs.getD j []) rt
          (if j < rcs.length then rcs.getD j [] else rcs.getD 0 []) dfr) := by
  obtain ⟨L, hL, hlen, hget⟩ := fkLinesAux_spec rt rcs dfr h lcs 0
  exact ⟨L, by simpa [constraintLines] using hL, hlen, by simpa using hget⟩

/-- Witness for C9 at a concrete constraint: local columns `a, b`, one
referenced column `x` — the second line broadcasts `x`. -/
theorem fk_broadcast_leniency_witness :
    (["x".toList] : List Str) ≠ [] ∧
    ∃ L, constraintLines (Constraint.foreignKey ["a".toList, "b".toList]
        "r".toList ["x".toList] true) = some L ∧
      L.length = 2 ∧
      ∀ j, j < 2 →
        L.get? j = some (mkFkLine ((["a".toList, "b".toList] : List Str).getD j [])
          "r".toList
          (if j < ([ "x".toList ] : List Str).length
           then (["x".toList] : List Str).getD j []
           else (["x".toList] : List Str).getD 0 []) true) :=
  ⟨by decide,
   fk_broadcast_leniency ["a".toList, "b".toList] "r".toList ["x".toList] true
     (by decide)⟩

/-! ## C7: totality of the fallback categorization -/

theorem keys_updA {β : Type} (k : Str) (f : β → β) (l : List (Str × β)) :
    (updA k f l).map Prod.fst = l.map Prod.fst := by
  induction l with
  | nil => rfl
  | cons hd tl ih =>
    obtain ⟨k', v⟩ := hd
    by_cases h : k' = k <;> simp [updA, h, ih]

theorem map_keyed_id {β : Type} (k : Str) (f : β → β) (l : List (Str × β))
    (h : k ∉ l.map Prod.fst) :
    l.map (fun p => (p.1, if p.1 = k then f p.2 else p.2)) = l := by
  induction l with
  | nil => rfl
  | cons hd tl ih =>
    obtain ⟨k', v⟩ := hd
    simp only [List.map_cons, List.mem_cons, not_or] at h ⊢
    have hne : ¬k' = k := fun he => h.1 he.symm
    rw [if_neg hne, ih h.2]

theorem updA_eq_map_of_nodup {β : Type} (k : Str) (f : β → β) (l : List (Str × β))
    (h : (l.map Prod.fst).Nodup) :
    updA k f l = l.map (fun p => (p.1, if p.1 = k then f p.2 else p.2)) := by
  induction l with
  | nil => rfl
  | cons hd tl ih =>
    obtain ⟨k', v⟩ := hd
    simp only [List.map_cons, List.nodup_cons] at h
    by_cases he : k' = k
    · subst he
      rw [updA, if_pos rfl, List.map_cons, if_pos rfl, map_keyed_id _ _ _ h.1]
    · simp only [updA, if_neg he, List.map_cons, if_neg he, ih h.2]

/-- One fold step of `_fallback_categorize_tables` is an `updA` at the
assigned category. -/
theorem fallback_step_eq (kps : List (Str × List Str)) (tn : Str)
    (cats : List (Str × List Str)) :
    (match assignCategory kps (lowerL tn) with
     | some cat => updA cat (fun l => l ++ [tn]) cats
     | none => updA "business_core".toList (fun l => l ++ [tn]) cats) =
    updA (assignedCategory kps tn) (fun l => l ++ [tn]) cats := by
  unfold assignedCategory
  cases assignCategory kps (lowerL tn) <;> rfl

/-- The categorization fold, characterised: with distinct bucket keys that
cover every assigned category, each bucket receives exactly the tables
assigned to its key, in input order. -/
theorem fallback_fold_char (kps : List (Str × List Str)) (tbls : List Str) :
    ∀ cats : List (Str × List Str),
      (cats.map Prod.fst).Nodup →
      (∀ tn ∈ tbls, assignedCategory kps tn ∈ cats.map Prod.fst) →
      tbls.foldl (fun cats tn =>
          match assignCategory kps (lowerL tn) with
          | some cat => updA cat (fun l => l ++ [tn]) cats
          | none => updA "business_core".toList (fun l => l ++ [tn]) cats) cats =
        cats.map (fun p => (p.1, p.2 ++ tbls.filter (fun tn => assignedCategory kps tn = p.1))) := by
  induction tbls with
  | nil =>
    intro cats _ _
    simp
  | cons tn rest ih =>
    intro cats hnd hmem
    rw [List.foldl_cons, fallback_step_eq,
      ih (updA (assignedCategory kps tn) (fun l => l ++ [tn]) cats)
        (by rw [keys_updA]; exact hnd)
        (by
          intro x hx
          rw [keys_updA]
          exact hmem x (List.mem_cons_of_mem _ hx)),
      updA_eq_map_of_nodup _ _ _ hnd, List.map_map]
    refine List.map_congr_left ?_
    intro p _
    have hfil : (tn :: rest).filter (fun x => assignedCategory kps x = p.1) =
        (if assignedCategory kps tn = p.1
         then tn :: rest.filter (fun x => assignedCategory kps x = p.1)
         else rest.filter (fun x => assignedCategory kps x = p.1)) := by
      by_cases hc : assignedCategory kps tn = p.1 <;> simp [List.filter, hc]
    show (p.1, (if p.1 = assignedCategory kps tn then p.2 ++ [tn] else p.2) ++
        rest.filter (fun x => assignedCategory kps x = p.1)) =
      (p.1, p.2 ++ (tn :: rest).filter (fun x => assignedCategory kps x = p.1))
    by_cases he : p.1 = assignedCategory kps tn
    · rw [hfil, if_pos he, if_pos he.symm, List.append_assoc]
      rfl
    · rw [hfil, if_neg he,
        if_neg (fun h : assignedCategory kps tn = p.1 => he h.symm)]

/-- The keys after a `setA`: unchanged if present, else appended. -/
theorem keys_setA {β : Type} (k : Str) (v : β) (l : List (Str × β)) :
    (setA k v l).map Prod.fst =
      (if k ∈ l.map Prod.fst then l.map Prod.fst else l.map Prod.fst ++ [k]) := by
  induction l with
  | nil => simp [setA]
  | cons hd tl ih =>
    obtain ⟨k', v'⟩ := hd
    by_cases h : k' = k
    · subst h
      rw [setA, if_pos rfl]
      simp only [List.map_cons]
      rw [if_pos (List.mem_cons_self _ _)]
    · have hne : ¬(k = k') := fun he => h he.symm
      rw [setA, if_neg h]
      simp only [List.map_cons]
      rw [ih]
      by_cases hmem : k ∈ tl.map Prod.fst
      · rw [if_pos hmem, if_pos (List.mem_cons_of_mem _ hmem)]
      · have hnc : k ∉ k' :: tl.map Prod.fst := by simp [hne, hmem]
        rw [if_neg hmem, if_neg hnc, List.cons_append]

/-- All bucket values after initialisation are the supplied value. -/
theorem setA_vals {β : Type} (k : Str) (v : β) (l : List (Str × β))
    (hl : ∀ p ∈ l, p.2 = v) :
    ∀ p ∈ setA k v l, p.2 = v := by
  induction l with
  | nil =>
    intro p hp
    simp only [setA, List.mem_singleton] at hp
    rw [hp]
  | cons hd tl ih =>
    intro p hp
    obtain ⟨k', v'⟩ := hd
    simp only [setA] at hp
    split at hp
    · rcases List.mem_cons.mp hp with hp | hp
      · rw [hp]
      · exact hl p (List.mem_cons_of_mem _ hp)
    · rcases List.mem_cons.mp hp with hp | hp
      · exact hp ▸ hl _ (List.mem_cons_self _ _)
      · exact ih (fun q hq => hl q (List.mem_cons_of_mem _ hq)) p hp

/-- The assigned category is always one of the initial bucket keys. -/
theorem assignedCategory_mem_init (kps : List (Str × List Str)) (tn : Str) :
    assignedCategory kps tn ∈
      ((setA "business_core".toList []
          (kps.map (fun p => (p.1, ([] : List Str))))).map Prod.fst) := by
  rw [keys_setA]
  have hfst : (kps.map (fun p => (p.1, ([] : List Str)))).map Prod.fst =
      kps.map Prod.fst := by
    rw [List.map_map]; rfl
  rw [hfst]
  unfold assignedCategory assignCategory
  cases hf : kps.find? (fun p => p.2.any (fun kw => containsL kw (lowerL tn))) with
  | none =>
    simp only [Option.map_none', Option.getD_none]
    split
    · assumption
    · exact List.mem_append_right _ (List.mem_singleton_self _)
  | some q =>
    have hq : q ∈ kps := List.mem_of_find?_eq_some hf
    have hq1 : q.1 ∈ kps.map Prod.fst := List.mem_map_of_mem Prod.fst hq
    simp only [Option.map_some', Option.getD_some]
    split
    · exact hq1
    · exact List.mem_append_left _ hq1

/-- Initial bucket keys are distinct when the keyword-map keys are (the
keyword map is a Python dict, so its keys are distinct). -/
theorem fallback_init_nodup (kps : List (Str × List Str))
    (hk : (kps.map Prod.fst).Nodup) :
    ((setA "business_core".toList []
        (kps.map (fun p => (p.1, ([] : List Str))))).map Prod.fst).Nodup := by
  rw [keys_setA]
  have hfst : (kps.map (fun p => (p.1, ([] : List Str)))).map Prod.fst =
      kps.map Prod.fst := by
    rw [List.map_map]; rfl
  rw [hfst]
  split
  · exact hk
  · next hmem =>
    refine List.Nodup.append hk (List.nodup_singleton _) ?_
    intro x hx hx2
    rw [List.mem_singleton] at hx2
    exact hmem (hx2 ▸ hx)

/-- Joining per-key filters over distinct keys that cover the classifying
function recovers the classified list up to permutation. -/
theorem join_filters_perm (f : Str → Str) (tbls : List Str) :
    ∀ keys : List Str, keys.Nodup → (∀ t ∈ tbls, f t ∈ keys) →
      (keys.map (fun k => tbls.filter (fun tn => f tn = k))).flatten.Perm tbls := by
  induction tbls with
  | nil =>
    intro keys _ _
    simp [List.flatten_eq_nil_iff]
  | cons t rest ih =>
    intro keys hnd hmem
    have hrest : (keys.map (fun k => rest.filter (fun tn => f tn = k))).flatten.Perm rest :=
      ih keys hnd (fun x hx => hmem x (List.mem_cons_of_mem _ hx))
    have hft : f t ∈ keys := hmem t (List.mem_cons_self _ _)
    have hsplit :
        ∀ ks : List Str, ks.Nodup → f t ∈ ks →
          (ks.map (fun k => (t :: rest).filter (fun tn => f tn = k))).flatten.Perm
            (t :: (ks.map (fun k => rest.filter (fun tn => f tn = k))).flatten) := by
      intro ks
      induction ks with
      | nil => intro _ h; simp at h
      | cons k ks' ihk =>
        intro hnd' hmemk
        simp only [List.nodup_cons] at hnd'
        by_cases he : f t = k
        · have hnotin : ∀ k' ∈ ks', ¬f t = k' := fun k' hk' hek' =>
            hnd'.1 (by rw [← he, hek']; exact hk')
          have hsame :
              ks'.map (fun k => (t :: rest).filter (fun tn => f tn = k)) =
                ks'.map (fun k => rest.filter (fun tn => f tn = k)) := by
            refine List.map_congr_left ?_
            intro k' hk'
            have hne := hnotin k' hk'
            simp [List.filter, hne]
          have hhead : (t :: rest).filter (fun tn => f tn = k) =
              t :: rest.filter (fun tn => f tn = k) := by
            simp [List.filter, he]
          rw [List.map_cons, List.flatten_cons, hhead, hsame, List.map_cons,
            List.flatten_cons, List.cons_append]
        · have hmem' : f t ∈ ks' := by
            rcases List.mem_cons.mp hmemk with h | h
            · exact absurd h he
            · exact h
          have hrec := ihk hnd'.2 hmem'
          have hhead : (t :: rest).filter (fun tn => f tn = k) =
              rest.filter (fun tn => f tn = k) := by
            simp [List.filter, he]
          rw [List.map_cons, List.flatten_cons, hhead, List.map_cons, List.flatten_cons]
          exact (List.Perm.append_left _ hrec).trans List.perm_middle
    exact ((hsplit keys hnd hft).trans (hrest.cons t))

theorem countP_key_eq_one (a : Str) : ∀ keys : List Str, keys.Nodup → a ∈ keys →
    List.countP (fun k => decide (a = k)) keys = 1 := by
  intro keys
  induction keys with
  | nil => intro _ h; simp at h
  | cons k ks ih =>
    intro hnd hm
    simp only [List.nodup_cons] at hnd
    by_cases he : a = k
    · subst he
      rw [List.countP_cons_of_pos _ _ (by simp)]
      have hz : List.countP (fun k => decide (a = k)) ks = 0 :=
        List.countP_eq_zero.mpr (fun x hx => by
          simp only [decide_eq_true_eq]
          exact fun hax => hnd.1 (hax ▸ hx))
      rw [hz]
    · rw [List.countP_cons_of_neg _ _ (by simp [he])]
      refine ih hnd.2 ?_
      rcases List.mem_cons.mp hm with h | h
      · exact absurd h he
      · exact h

/-- C7: in fallback categorization (distinct keyword-map keys — they come
from a Python dict — and distinct table names), every table lands in exactly
one category bucket, and the union of all buckets is the full table set with
no duplicates. -/
theorem category_totality (kps : List (Str × List Str)) (tbls : List Str)
    (hk : (kps.map Prod.fst).Nodup) (ht : tbls.Nodup) :
    (((fallbackCategorize kps tbls).map Prod.snd).flatten.Perm tbls) ∧
    ((fallbackCategorize kps tbls).map Prod.snd).flatten.Nodup ∧
    (∀ t ∈ tbls,
      (fallbackCategorize kps tbls).countP (fun b => decide (t ∈ b.2)) = 1) := by
  have hinit_nodup := fallback_init_nodup kps hk
  have hchar : fallbackCategorize kps tbls =
      (setA "business_core".toList [] (kps.map (fun p => (p.1, ([] : List Str))))).map
        (fun p => (p.1, p.2 ++ tbls.filter (fun tn => assignedCategory kps tn = p.1))) := by
    simp only [fallbackCategorize]
    exact fallback_fold_char kps tbls _ hinit_nodup
      (fun tn _ => assignedCategory_mem_init kps tn)
  have hvals0 : ∀ p ∈ setA "business_core".toList []
      (kps.map (fun p => (p.1, ([] : List Str)))), p.2 = ([] : List Str) := by
    refine setA_vals _ _ _ ?_
    intro p hp
    obtain ⟨q, _, rfl⟩ := List.mem_map.mp hp
    rfl
  have hsnd : (fallbackCategorize kps tbls).map Prod.snd =
      ((setA "business_core".toList []
          (kps.map (fun p => (p.1, ([] : List Str))))).map Prod.fst).map
        (fun k => tbls.filter (fun tn => assignedCategory kps tn = k)) := by
    rw [hchar, List.map_map, List.map_map]
    refine List.map_congr_left ?_
    intro p hp
    show p.2 ++ tbls.filter (fun tn => assignedCategory kps tn = p.1) =
      tbls.filter (fun tn => assignedCategory kps tn = p.1)
    rw [hvals0 p hp, List.nil_append]
  have hperm := join_filters_perm (assignedCategory kps) tbls _ hinit_nodup
    (fun t _ => assignedCategory_mem_init kps t)
  have h1 : (((fallbackCategorize kps tbls).map Prod.snd).flatten).Perm tbls := by
    rw [hsnd]; exact hperm
  refine ⟨h1, (h1.nodup_iff).mpr ht, ?_⟩
  intro t htm
  rw [hchar, List.countP_map]
  have hstep1 : List.countP ((fun b : Str × List Str => decide (t ∈ b.2)) ∘
        (fun p : Str × List Str =>
          (p.1, p.2 ++ tbls.filter (fun tn => assignedCategory kps tn = p.1))))
      (setA "business_core".toList [] (kps.map (fun p => (p.1, ([] : List Str))))) =
      List.countP (fun p : Str × List Str => decide (assignedCategory kps t = p.1))
        (setA "business_core".toList [] (kps.map (fun p => (p.1, ([] : List Str))))) := by
    refine List.countP_congr ?_
    intro p hp
    simp only [Function.comp, decide_eq_true_eq]
    rw [hvals0 p hp, List.nil_append]
    rw [List.mem_filter]
    constructor
    · rintro ⟨-, hdec⟩
      exact of_decide_eq_true hdec
    · intro he
      exact ⟨htm, decide_eq_true he⟩
  rw [hstep1]
  have hstep2 : List.countP
        (fun p : Str × List Str => decide (assignedCategory kps t = p.1))
        (setA "business_core".toList [] (kps.map (fun p => (p.1, ([] : List Str))))) =
      List.countP (fun k => decide (assignedCategory kps t = k))
        ((setA "business_core".toList []
            (kps.map (fun p => (p.1, ([] : List Str))))).map Prod.fst) := by
    rw [List.countP_map]
    rfl
  rw [hstep2]
  exact countP_key_eq_one _ _ hinit_nodup (assignedCategory_mem_init kps t)

/-- Witness for C7 at the default keyword map and a concrete table list. -/
theorem category_totality_witness :
    (((fallbackCategorize defaultFallbackCategorization
        ["users".toList, "orders".toList, "event_log".toList]).map Prod.snd).flatten.Perm
      ["users".toList, "orders".toList, "event_log".toList]) ∧
    ((fallbackCategorize defaultFallbackCategorization
        ["users".toList, "orders".toList, "event_log".toList]).map Prod.snd).flatten.Nodup ∧
    (∀ t ∈ (["users".toList, "orders".toList, "event_log".toList] : List Str),
      (fallbackCategorize defaultFallbackCategorization
          ["users".toList, "orders".toList, "event_log".toList]).countP
        (fun b => decide (t ∈ b.2)) = 1) :=
  category_totality defaultFallbackCategorization
    ["users".toList, "orders".toList, "event_log".toList] (by decide) (by decide)

/-! ## String lemmas about `strip` and `containsL` -/

theorem dropWhile_dropWhile (p : Char → Bool) (l : Str) :
    (l.dropWhile p).dropWhile p = l.dropWhile p := by
  cases h : l.dropWhile p with
  | nil => rfl
  | cons c t =>
    have hhead := List.head?_dropWhile_not p l
    rw [h] at hhead
    have hc : p c = false := by simpa using hhead
    simp [List.dropWhile_cons, hc]

theorem lstrip_lstrip (xs : Str) : lstrip (lstrip xs) = lstrip xs :=
  dropWhile_dropWhile isWs xs

theorem rstripWs_rstripWs (xs : Str) : rstripWs (rstripWs xs) = rstripWs xs := by
  unfold rstripWs
  rw [List.reverse_reverse, dropWhile_dropWhile]

/-- The right-stripped string is a prefix of the original one. -/
theorem rstripWs_prefix (xs : Str) : rstripWs xs <+: xs := by
  unfold rstripWs
  have h := List.reverse_prefix.mpr (show List.dropWhile isWs xs.reverse <:+ xs.reverse from List.dropWhile_suffix isWs)
  simpa using h

theorem lstrip_eq_self_head (c : Char) (t : Str) (hc : isWs c = false) :
    lstrip (c :: t) = c :: t := by
  simp [lstrip, List.dropWhile_cons, hc]

/-- `strip` is idempotent. -/
theorem strip_strip (xs : Str) : strip (strip xs) = strip xs := by
  unfold strip
  have hl : lstrip (rstripWs (lstrip xs)) = rstripWs (lstrip xs) := by
    cases h : rstripWs (lstrip xs) with
    | nil => rfl
    | cons c t =>
      have hpre : (c :: t) <+: lstrip xs := h ▸ rstripWs_prefix (lstrip xs)
      obtain ⟨r, hr⟩ := hpre
      have hself : lstrip (lstrip xs) = lstrip xs := lstrip_lstrip xs
      rw [← hr] at hself
      have hc : isWs c = false := by
        by_contra hcc
        have hcc' : isWs c = true := by
          cases hhh : isWs c
          · exact absurd hhh hcc
          · rfl
        have : lstrip ((c :: t) ++ r) = lstrip (t ++ r) := by
          simp [lstrip, List.dropWhile_cons, hcc']
        rw [this] at hself
        have hlen := congrArg List.length hself
        have hle := (show List.dropWhile isWs (t ++ r) <:+ t ++ r from List.dropWhile_suffix isWs).length_le
        simp [lstrip] at hlen hle
        omega
      exact lstrip_eq_self_head c t hc
  rw [hl, rstripWs_rstripWs]

/-- Stripping a line that starts with two spaces strips the remainder. -/
theorem strip_indent (xs : Str) : strip (' ' :: ' ' :: xs) = strip xs := by
  unfold strip lstrip
  rw [List.dropWhile_cons_of_pos (by decide), List.dropWhile_cons_of_pos (by decide)]

theorem containsL_nil_false (c : Char) (p : Str) : containsL (c :: p) [] = false := rfl

theorem containsL_cons (pat : Str) (c : Char) (t : Str) :
    containsL pat (c :: t) = (pat.isPrefixOf (c :: t) || containsL pat t) := rfl

/-- `containsL` is the infix relation (Python's `in`). -/
theorem containsL_iff_sub (pat xs : Str) : containsL pat xs = true ↔ pat <:+: xs := by
  induction xs with
  | nil =>
    simp [containsL, List.isEmpty_iff]
  | cons c t ih =>
    rw [containsL, Bool.or_eq_true, List.isPrefixOf_iff_prefix, ih,
      List.infix_cons_iff]

/-- A one-space prefix of a two-space-indented line. -/
theorem single_space_prefix (line : Str)
    (h : "  ".toList.isPrefixOf line = true) : " ".toList.isPrefixOf line = true := by
  rw [List.isPrefixOf_iff_prefix] at h ⊢
  exact List.IsPrefix.trans ⟨[' '], rfl⟩ h

/-- Splitting an infix occurrence across an append. -/
theorem infix_append_split {p a b : Str} (h : p <:+: a ++ b) :
    p <:+: a ∨ p <:+: b ∨
      ∃ p₁ p₂, p = p₁ ++ p₂ ∧ p₁ ≠ [] ∧ p₂ ≠ [] ∧ p₁ <:+ a ∧ p₂ <+: b := by
  obtain ⟨s, t, hst⟩ := h
  rcases List.append_eq_append_iff.mp hst with ⟨a', ha1, _⟩ | ⟨c', h1, h2⟩
  · exact Or.inl ⟨s, a', ha1.symm⟩
  · rcases List.append_eq_append_iff.mp h1 with ⟨a2, ha, hp⟩ | ⟨s2, hs, hc⟩
    · by_cases h0 : a2 = []
      · subst h0
        refine Or.inr (Or.inl ⟨[], t, ?_⟩)
        simp [h2, hp]
      · by_cases hc0 : c' = []
        · subst hc0
          refine Or.inl ⟨s, [], ?_⟩
          simp [ha, hp]
        · exact Or.inr (Or.inr ⟨a2, c', hp, h0, hc0, ⟨s, ha.symm⟩, ⟨t, h2.symm⟩⟩)
    · refine Or.inr (Or.inl ⟨s2, t, ?_⟩)
      rw [h2, hc]

/-- A non-empty space-free pattern occurs in a space-joined word list iff it
occurs in one of the words. -/
theorem infix_joinSp {p : Str} (hne : p ≠ []) (hsp : ' ' ∉ p) :
    ∀ ws : List Str, (p <:+: joinSp ws ↔ ∃ w ∈ ws, p <:+: w) := by
  intro ws
  induction ws with
  | nil =>
    simp only [joinSp]
    constructor
    · intro h
      exact absurd (List.eq_nil_of_infix_nil h) hne
    · rintro ⟨w, hw, -⟩
      exact absurd hw (List.not_mem_nil w)
  | cons w ws ih =>
    cases ws with
    | nil =>
      simp [joinSp]
    | cons w2 ws2 =>
      rw [show joinSp (w :: w2 :: ws2) = w ++ ' ' :: joinSp (w2 :: ws2) from rfl]
      constructor
      · intro h
        rcases infix_append_split h with h | h | ⟨p₁, p₂, hp, h1, h2, _, hpre⟩
        · exact ⟨w, List.mem_cons_self _ _, h⟩
        · rcases List.infix_cons_iff.mp h with h | h
          · obtain ⟨c, t, rfl⟩ : ∃ c t, p = c :: t := by
              cases p with
              | nil => exact absurd rfl hne
              | cons c t => exact ⟨c, t, rfl⟩
            obtain ⟨r, hr⟩ := h
            have : c = ' ' := by
              have h0 := congrArg (fun l => l.head?) hr
              simpa using h0
            exact absurd (this ▸ List.mem_cons_self c t) hsp
          · obtain ⟨w', hw', hh⟩ := (ih).mp h
            exact ⟨w', List.mem_cons_of_mem _ hw', hh⟩
        · obtain ⟨c, t, rfl⟩ : ∃ c t, p₂ = c :: t := by
            cases p₂ with
            | nil => exact absurd rfl h2
            | cons c t => exact ⟨c, t, rfl⟩
          obtain ⟨r, hr⟩ := hpre
          have hcsp : c = ' ' := by
            have h0 := congrArg (fun l => l.head?) hr
            simpa using h0
          have : ' ' ∈ p := by
            rw [hp, hcsp.symm] at hsp ⊢
            exact List.mem_append_right _ (List.mem_cons_self _ _)
          exact absurd this hsp
      · rintro ⟨w', hw', hh⟩
        rcases List.mem_cons.mp hw' with h | h
        · subst h
          exact List.IsInfix.trans hh ⟨[], ' ' :: joinSp (w2 :: ws2), by simp⟩
        · have : p <:+: joinSp (w2 :: ws2) := (ih).mpr ⟨w', h, hh⟩
          exact List.IsInfix.trans this
            ⟨w ++ [' '], [], by simp [List.append_assoc]⟩

/-- `containsL` for a word of a space-joined list. -/
theorem containsL_joinSp_false {p : Str} (hne : p ≠ []) (hsp : ' ' ∉ p)
    (ws : List Str) (h : ∀ w ∈ ws, containsL p w = false) :
    containsL p (joinSp ws) = false := by
  by_contra hc
  have ht : containsL p (joinSp ws) = true := by
    cases hcc : containsL p (joinSp ws)
    · exact absurd hcc hc
    · rfl
  obtain ⟨w, hw, hinf⟩ := (infix_joinSp hne hsp ws).mp ((containsL_iff_sub _ _).mp ht)
  have := (containsL_iff_sub p w).mpr hinf
  rw [h w hw] at this
  exact absurd this (by decide)

/-! ### `splitWs` on space-joined clean words -/

theorem splitWsAux_word (w : Str) (hw : ∀ c ∈ w, isWs c = false) :
    ∀ xs cur, splitWsAux (w ++ xs) cur = splitWsAux xs (w.reverse ++ cur) := by
  induction w with
  | nil => intro xs cur; simp
  | cons c w' ih =>
    intro xs cur
    have hc : isWs c = false := hw c (List.mem_cons_self _ _)
    rw [List.cons_append, splitWsAux]
    simp only [hc, Bool.false_eq_true, if_false]
    rw [ih (fun x hx => hw x (List.mem_cons_of_mem _ hx)) xs (c :: cur)]
    congr 1
    simp

theorem splitWsAux_space (xs : Str) (cur : Str) (hcur : cur ≠ []) :
    splitWsAux (' ' :: xs) cur = cur.reverse :: splitWsAux xs [] := by
  rw [splitWsAux, if_pos (show isWs ' ' = true by decide)]
  have h1 : ¬(cur.isEmpty = true) := by simp [List.isEmpty_iff, hcur]
  rw [if_neg h1]

theorem splitWs_joinSp (ws : List Str)
    (h : ∀ w ∈ ws, w ≠ [] ∧ ∀ c ∈ w, isWs c = false) :
    splitWs (joinSp ws) = ws := by
  induction ws with
  | nil => rfl
  | cons w ws ih =>
    obtain ⟨hw1, hw2⟩ := h w (List.mem_cons_self _ _)
    cases ws with
    | nil =>
      show splitWsAux (joinSp [w]) [] = [w]
      rw [show joinSp [w] = w ++ [] by simp [joinSp], splitWsAux_word w hw2]
      rw [splitWsAux]
      simp [List.isEmpty_iff, hw1]
    | cons w2 ws2 =>
      show splitWsAux (joinSp (w :: w2 :: ws2)) [] = w :: w2 :: ws2
      rw [show joinSp (w :: w2 :: ws2) = w ++ ' ' :: joinSp (w2 :: ws2) from rfl,
        splitWsAux_word w hw2, List.append_nil,
        splitWsAux_space _ _ (by simp [hw1]), List.reverse_reverse]
      have := ih (fun x hx => h x (List.mem_cons_of_mem _ hx))
      rw [show splitWs (joinSp (w2 :: ws2)) = splitWsAux (joinSp (w2 :: ws2)) [] from rfl]
        at this
      rw [this]

/-! ### ASCII case-map preservation lemmas -/

theorem lookup_mem_pairs {l : List (Char × Char)} {c u : Char}
    (h : l.lookup c = some u) : (c, u) ∈ l := by
  induction l with
  | nil => simp [List.lookup] at h
  | cons hd tl ih =>
    obtain ⟨k, v⟩ := hd
    by_cases he : c = k
    · subst he
      simp [List.lookup] at h
      simp [h]
    · have hb : (c == k) = false := by simp [he]
      rw [List.lookup, hb] at h
      exact List.mem_cons_of_mem _ (ih h)

theorem upChar_not_ws {c : Char} (h : isWs c = false) : isWs (upChar c) = false := by
  unfold upChar
  cases hl : azPairs.lookup c with
  | none => simpa using h
  | some u =>
    have hm := lookup_mem_pairs hl
    have : ∀ p ∈ azPairs, isWs p.2 = false := by decide
    simpa using this _ hm

theorem upChar_ne {c c' : Char} (hc' : c' ∉ azPairs.map Prod.snd) (h : c ≠ c') :
    upChar c ≠ c' := by
  unfold upChar
  cases hl : azPairs.lookup c with
  | none => simpa using h
  | some u =>
    have hm := lookup_mem_pairs hl
    simp only [Option.getD_some]
    intro he
    exact hc' (he ▸ List.mem_map_of_mem Prod.snd hm)

/-! ### `re.sub`-free helpers: `rstripCommas` and `findDefault` -/

theorem rstripCommas_append (a d : Str) (hd : d ≠ []) (hc : ',' ∉ d) :
    rstripCommas (a ++ d) = a ++ d := by
  unfold rstripCommas
  rw [List.reverse_append]
  cases hdr : d.reverse with
  | nil => exact absurd (by simpa using hdr) hd
  | cons c t =>
    have hcm : c ∈ d := by
      have : c ∈ d.reverse := hdr ▸ List.mem_cons_self _ _
      simpa using this
    have hcne : (c == ',') = false := by
      simp only [beq_eq_false_iff_ne, ne_eq]
      exact fun he => hc (he ▸ hcm)
    have hd2 : d = t.reverse ++ [c] := by
      have h0 := congrArg List.reverse hdr
      simpa using h0
    rw [List.cons_append, List.dropWhile_cons, hcne]
    simp only [Bool.false_eq_true, if_false]
    rw [List.reverse_cons, List.reverse_append, List.reverse_reverse, hd2]
    simp [List.append_assoc]

/-- A prefix of `y ++ B` that can overrun `y` by at most `n` characters is a
prefix of `y ++ B.take n`. -/
theorem prefix_append_take {p y B : Str} (n : Nat) (h : p <+: y ++ B)
    (hlen : p.length ≤ y.length + n) : p <+: y ++ B.take n := by
  rw [List.prefix_iff_eq_take] at h ⊢
  rw [List.take_append_eq_append_take] at h ⊢
  rw [List.take_take]
  have hmin : min (p.length - y.length) n = p.length - y.length := by omega
  rw [hmin]
  exact h

/-- The scanner for `DEFAULT\s+([^,\s]+)` skips a region with no occurrence
of `DEFAULT` (even overlapping into the first six characters of the rest). -/
theorem findDefault_append (A B : Str)
    (h : containsL "DEFAULT".toList (A ++ B.take 6) = false) :
    findDefault (A ++ B) = findDefault B := by
  induction A with
  | nil => rfl
  | cons x A' ih =>
    rw [List.cons_append, findDefault]
    have hpre : "DEFAULT".toList.isPrefixOf (x :: (A' ++ B)) = false := by
      cases hp : "DEFAULT".toList.isPrefixOf (x :: (A' ++ B))
      · rfl
      · exfalso
        have hpref : "DEFAULT".toList <+: (x :: A') ++ B := by
          rw [List.cons_append]
          exact List.isPrefixOf_iff_prefix.mp hp
        have hlen : ("DEFAULT".toList : Str).length ≤ (x :: A').length + 6 := by
          simp
        have h2 := prefix_append_take 6 hpref hlen
        have h3 : containsL "DEFAULT".toList ((x :: A') ++ B.take 6) = true :=
          (containsL_iff_sub _ _).mpr h2.isInfix
        have h' : containsL "DEFAULT".toList ((x :: A') ++ B.take 6) = false := h
        rw [h3] at h'
        exact absurd h' (by decide)
    have htry : tryDefaultAt (x :: (A' ++ B)) = none := by
      unfold tryDefaultAt
      rw [hpre]
      simp
    rw [htry]
    refine ih ?_
    have h' : containsL "DEFAULT".toList (x :: (A' ++ B.take 6)) = false := h
    rw [containsL_cons] at h'
    exact (Bool.or_eq_false_iff.mp h').2

/-! ## C8: dangling constraint/index references are dropped, parsing
continues, and the statement never changes the model -/

theorem isPrefixOf_head_false (c c' : Char) (p q l : Str)
    (hne : (c == c') = false) (hl : (c' :: p).isPrefixOf l = true) :
    (c :: q).isPrefixOf l = false := by
  cases l with
  | nil => simp [List.isPrefixOf] at hl
  | cons a t =>
    have h1 : ((c' == a) && p.isPrefixOf t) = true := hl
    have h2 : c' = a := by
      have := (Bool.and_eq_true _ _).mp h1
      simpa using this.1
    subst h2
    show ((c == c') && q.isPrefixOf t) = false
    rw [hne, Bool.false_and]

/-- C8: an `ALTER TABLE ... ADD CONSTRAINT` statement, or a `CREATE INDEX`
statement, that names a table absent from the model is dropped: the parse of
the remaining lines proceeds from an unchanged state, so the dropped item is
never added later even if the table appears subsequently. -/
theorem dangling_reference_dropped :
    (∀ (s : CState) (l : Str) (rest : List Str) (tn : Str),
      "ALTER TABLE".toList.isPrefixOf (strip l) = true →
      containsL "ADD CONSTRAINT".toList (strip l) = true →
      containsL "OWNER TO".toList (strip l) = false →
      containsL "OWNED BY".toList (strip l) = false →
      scanAlterTableName (strip l) = some tn →
      s.tables.lookup tn = none →
      parseRun s (l :: rest) = parseRun s rest) ∧
    (∀ (s : CState) (l : Str) (rest : List Str) (iname tn : Str),
      "CREATE".toList.isPrefixOf (strip l) = true →
      containsL "INDEX".toList (strip l) = true →
      "CREATE TABLE".toList.isPrefixOf (strip l) = false →
      "CREATE SEQUENCE".toList.isPrefixOf (strip l) = false →
      containsL "OWNED BY".toList (strip l) = false →
      scanCreateIndex (strip l) = some (iname, tn) →
      s.tables.lookup tn = none →
      parseRun s (l :: rest) = parseRun s rest) := by
  constructor
  · intro s l rest tn h1 h2 h3 h4 h5 h6
    have hct : "CREATE TABLE".toList.isPrefixOf (strip l) = false :=
      isPrefixOf_head_false 'C' 'A' _ _ _ (by decide) h1
    have hcs : "CREATE SEQUENCE".toList.isPrefixOf (strip l) = false :=
      isPrefixOf_head_false 'C' 'A' _ _ _ (by decide) h1
    have howner : ownerUpdate (strip l) s = s := by
      unfold ownerUpdate
      rw [h3, Bool.and_false]
      simp
    have hconstraint : parseAlterTableConstraint (strip l) s = s := by
      unfold parseAlterTableConstraint
      rw [h5]
      dsimp only
      rw [h6]
      simp
    show parseLoop (rest.length + 1) s (l :: rest) = parseLoop rest.length s rest
    rw [parseLoop.eq_def]
    dsimp only
    rw [howner, hct, hcs, h1, h2]
    simp only [h4, Bool.and_false, Bool.false_eq_true, if_false, Bool.and_self,
      if_true, hconstraint]
  · intro s l rest iname tn h1 h2 hct hcs h4 h5 h6
    have hat : "ALTER TABLE".toList.isPrefixOf (strip l) = false :=
      isPrefixOf_head_false 'A' 'C' _ _ _ (by decide) h1
    have howner : ownerUpdate (strip l) s = s := by
      unfold ownerUpdate
      rw [hat, Bool.false_and]
      simp
    have hindex : parseCreateIndex (strip l) s = s := by
      unfold parseCreateIndex
      rw [h5]
      dsimp only
      rw [h6]
      simp
    show parseLoop (rest.length + 1) s (l :: rest) = parseLoop rest.length s rest
    rw [parseLoop.eq_def]
    dsimp only
    rw [howner, hct, hcs, hat, h1, h2]
    simp only [h4, Bool.and_false, Bool.false_and, Bool.false_eq_true, if_false,
      Bool.and_self, if_true, hindex]

/-- Witness for C8: a dangling `ADD CONSTRAINT` and a dangling
`CREATE INDEX` on an empty model, each followed by the very
`CREATE TABLE foo` they reference. -/
theorem dangling_reference_dropped_witness :
    (parseRun initialCState
        ["ALTER TABLE ONLY foo ADD CONSTRAINT c PRIMARY KEY (id);".toList,
         "CREATE TABLE foo (".toList, ");".toList] =
      parseRun initialCState ["CREATE TABLE foo (".toList, ");".toList]) ∧
    (parseRun initialCState
        ["CREATE INDEX idx ON foo USING btree (id);".toList,
         "CREATE TABLE foo (".toList, ");".toList] =
      parseRun initialCState ["CREATE TABLE foo (".toList, ");".toList]) :=
  ⟨dangling_reference_dropped.1 initialCState
      "ALTER TABLE ONLY foo ADD CONSTRAINT c PRIMARY KEY (id);".toList
      ["CREATE TABLE foo (".toList, ");".toList] "foo".toList
      (by decide) (by decide) (by decide) (by decide) (by decide) (by decide),
   dangling_reference_dropped.2 initialCState
      "CREATE INDEX idx ON foo USING btree (id);".toList
      ["CREATE TABLE foo (".toList, ");".toList] "idx".toList "foo".toList
      (by decide) (by decide) (by decide) (by decide) (by decide) (by decide)
      (by decide)⟩

/-! ## C10: the compact parser's `: PK` shorthand is a substring test -/

/-- C10: any line the compact parser classifies as a column definition whose
stripped text contains the substring `: PK` anywhere (for example a column
whose declared type token merely starts with `PK`) is registered as an
auto-increment primary key: the column name (the text before the first
colon) is appended to both `columns` and `primary_keys`, its type is counted
as `integer`, and it is counted as required — the declared type and the rest
of the line are ignored. -/
theorem compact_pk_shorthand_by_substring (g : GState) (tn : Str) (line : Str)
    (hindent : "  ".toList.isPrefixOf line = true)
    (hcmt : "--".toList.isPrefixOf (strip line) = false)
    (hpk : containsL ": PK".toList (strip line) = true)
    (hfk : "  FK".toList.isPrefixOf line = false)
    (hun : "  UNIQUE".toList.isPrefixOf line = false)
    (hidx : "  IDX".toList.isPrefixOf line = false)
    (hprim : "  PRIMARY".toList.isPrefixOf line = false) :
    gstep (g, some tn) line =
      ({ g with tables := updA tn (fun t =>
          { t with
            columns := t.columns ++ [stripQ (strip ((strip line).takeWhile (· != ':')))],
            primary_keys :=
              t.primary_keys ++ [stripQ (strip ((strip line).takeWhile (· != ':')))],
            column_types := cinc "integer".toList t.column_types,
            required_columns := t.required_columns + 1 }) g.tables }, some tn) := by
  have hne : (strip line).isEmpty = false := by
    cases h : strip line with
    | nil => rw [h] at hpk; exact absurd hpk (by decide)
    | cons c t => rfl
  have hcolon : containsL ":".toList (strip line) = true := by
    -- an occurrence of `: PK` yields an occurrence of `:`
    have h1 : (": PK".toList : Str) <:+: strip line := (containsL_iff_sub _ _).mp hpk
    have h2 : (":".toList : Str) <:+: strip line :=
      List.IsInfix.trans ⟨[], " PK".toList, rfl⟩ h1
    exact (containsL_iff_sub _ _).mpr h2
  have hsp : (" ".toList.isPrefixOf line) = true := single_space_prefix line hindent
  have hcol : gParseColumn (strip line) tn g =
      { g with tables := updA tn (fun t =>
          { t with
            columns := t.columns ++ [stripQ (strip ((strip line).takeWhile (· != ':')))],
            primary_keys :=
              t.primary_keys ++ [stripQ (strip ((strip line).takeWhile (· != ':')))],
            column_types := cinc "integer".toList t.column_types,
            required_columns := t.required_columns + 1 }) g.tables } := by
    unfold gParseColumn
    simp only [strip_strip, hpk, if_true]
  unfold gstep
  simp only [hne, hcmt, hsp, hindent, hcolon, hfk, hun, hidx, hprim, hcol,
    Bool.or_self, Bool.false_or, Bool.or_false, Bool.not_true, Bool.and_false,
    Bool.false_eq_true, if_false, Bool.not_false, Bool.and_true, Bool.true_and,
    Bool.and_self, if_true]

/-- Witness for C10: the line `  token: PKHASH NOT NULL` — a column whose
declared type token merely starts with `PK` — registered as an integer
auto-PK named `token`. -/
theorem compact_pk_shorthand_by_substring_witness :
    gstep (({ tables := [("t".toList, emptyGTable)], relationships := [] } : GState),
        some "t".toList) "  token: PKHASH NOT NULL".toList =
      (({ tables := [("t".toList,
            { columns := ["token".toList], primary_keys := ["token".toList],
              foreign_keys := [], unique_constraints := [], indexes := [],
              column_types := [("integer".toList, 1)], nullable_columns := 0,
              required_columns := 1 })],
          relationships := [] } : GState), some "t".toList) := by
  rw [compact_pk_shorthand_by_substring _ _ _ (by decide) (by decide) (by decide)
    (by decide) (by decide) (by decide) (by decide)]
  decide

end Wtfk

namespace Wtfk

/-! ## C6: degree invariants of the Statistics Engine -/

theorem degMaps_fold (rels : List FkInfo) :
    ∀ o i : List (Str × Nat),
      (∀ n, lookupD (rels.foldl (fun (m : List (Str × Nat) × List (Str × Nat)) fk =>
          (cinc fk.from_table m.1, cinc fk.to_table m.2)) (o, i)).1 n =
        lookupD o n + (rels.filter (fun fk => fk.from_table = n)).length) ∧
      (∀ n, lookupD (rels.foldl (fun (m : List (Str × Nat) × List (Str × Nat)) fk =>
          (cinc fk.from_table m.1, cinc fk.to_table m.2)) (o, i)).2 n =
        lookupD i n + (rels.filter (fun fk => fk.to_table = n)).length) ∧
      sumVals (rels.foldl (fun (m : List (Str × Nat) × List (Str × Nat)) fk =>
          (cinc fk.from_table m.1, cinc fk.to_table m.2)) (o, i)).1 =
        sumVals o + rels.length ∧
      sumVals (rels.foldl (fun (m : List (Str × Nat) × List (Str × Nat)) fk =>
          (cinc fk.from_table m.1, cinc fk.to_table m.2)) (o, i)).2 =
        sumVals i + rels.length := by
  induction rels with
  | nil => intro o i; refine ⟨fun n => by simp, fun n => by simp, by simp, by simp⟩
  | cons fk t ih =>
    intro o i
    obtain ⟨h1, h2, h3, h4⟩ := ih (cinc fk.from_table o) (cinc fk.to_table i)
    refine ⟨fun n => ?_, fun n => ?_, ?_, ?_⟩
    · rw [List.foldl_cons, h1, lookupD_cinc]
      by_cases hn : fk.from_table = n <;> simp [List.filter, hn] <;> omega
    · rw [List.foldl_cons, h2, lookupD_cinc]
      by_cases hn : fk.to_table = n <;> simp [List.filter, hn] <;> omega
    · rw [List.foldl_cons, h3, sumVals_cinc]; simp only [List.length_cons]; omega
    · rw [List.foldl_cons, h4, sumVals_cinc]; simp only [List.length_cons]; omega

/-- C6: for every relationship list and every table name, the in-degree the
Statistics Engine computes equals the number of Relationships whose
`to_table` is that name, the out-degree equals the number whose `from_table`
is it, and the sums of all computed out-degrees and of all computed
in-degrees both equal the total Relationship count. -/
theorem degree_invariants (rels : List FkInfo) :
    (∀ n, outDegree rels n = (rels.filter (fun fk => fk.from_table = n)).length) ∧
    (∀ n, inDegree rels n = (rels.filter (fun fk => fk.to_table = n)).length) ∧
    sumVals (degMaps rels).1 = rels.length ∧
    sumVals (degMaps rels).2 = rels.length := by
  obtain ⟨h1, h2, h3, h4⟩ := degMaps_fold rels [] []
  exact ⟨fun n => by simpa [outDegree, degMaps, lookupD] using h1 n,
         fun n => by simpa [inDegree, degMaps, lookupD] using h2 n,
         by simpa [degMaps, sumVals] using h3,
         by simpa [degMaps, sumVals] using h4⟩

end Wtfk

namespace Wtfk

/-! ## C5 (amended): the stored default token is the uppercase image of the
source token, because the extraction pattern runs over `line.upper()` -/

theorem upperL_joinSp (ws : List Str) :
    upperL (joinSp ws) = joinSp (ws.map upperL) := by
  induction ws with
  | nil => rfl
  | cons w ws ih =>
    cases ws with
    | nil => rfl
    | cons w2 ws2 =>
      show upperL (w ++ ' ' :: joinSp (w2 :: ws2)) =
        upperL w ++ ' ' :: joinSp ((w2 :: ws2).map upperL)
      rw [← ih]
      simp only [upperL, List.map_append, List.map_cons]
      rw [show upChar ' ' = ' ' from by decide]

theorem tryDefaultAt_default_head (D : Str) (hD1 : D ≠ [])
    (hD2 : ∀ c ∈ D, isWs c = false ∧ (c == ',') = false) :
    tryDefaultAt ("DEFAULT ".toList ++ D) = some D := by
  have hpre : "DEFAULT".toList.isPrefixOf ("DEFAULT ".toList ++ D) = true := by
    rw [List.isPrefixOf_iff_prefix]
    exact ⟨' ' :: D, rfl⟩
  unfold tryDefaultAt
  rw [if_pos hpre]
  rw [show (("DEFAULT ".toList ++ D : Str)).drop 7 = ' ' :: D from rfl]
  obtain ⟨c0, D', rfl⟩ : ∃ c0 D', D = c0 :: D' := by
    cases D with
    | nil => exact absurd rfl hD1
    | cons a b => exact ⟨a, b, rfl⟩
  have h1 : isWs c0 = false := (hD2 c0 (List.mem_cons_self _ _)).1
  have h2 : (c0 :: D').takeWhile (fun x => !isWs x && x != ',') = c0 :: D' := by
    rw [List.takeWhile_eq_self_iff]
    intro a ha
    obtain ⟨hw, hc⟩ := hD2 a ha
    have hne : a ≠ ',' := by simpa using hc
    simp [hw, hne]
  simp [List.takeWhile_cons, List.dropWhile_cons, h1, h2,
        show isWs ' ' = true from rfl]

theorem findDefault_default_head (D : Str) (hD1 : D ≠ [])
    (hD2 : ∀ c ∈ D, isWs c = false ∧ (c == ',') = false) :
    findDefault ("DEFAULT ".toList ++ D) = some D := by
  rw [show ("DEFAULT ".toList ++ D : Str) = 'D' :: ("EFAULT ".toList ++ D) from rfl]
  rw [findDefault]
  rw [show ('D' :: ("EFAULT ".toList ++ D) : Str) = "DEFAULT ".toList ++ D from rfl]
  rw [tryDefaultAt_default_head D hD1 hD2]

/-- C5 (amended): for a column-definition line `<name> <type> DEFAULT <tok>`
built from whitespace-free words, with the token free of commas, the line
passing the inline-constraint keyword filter, and the name and type free of
(case-insensitive) occurrences of `DEFAULT`, the stored default value is
`upper(<tok>)` — the uppercase image of the source token, not the verbatim
token — because `re.search(r'DEFAULT\s+([^,\s]+)')` is applied to
`line.upper()`. -/
theorem default_token_is_uppercased (name ty d : Str)
    (hn1 : name ≠ []) (hn2 : ∀ c ∈ name, isWs c = false)
    (ht1 : ty ≠ []) (ht2 : ∀ c ∈ ty, isWs c = false)
    (hd1 : d ≠ []) (hd2 : ∀ c ∈ d, isWs c = false ∧ c ≠ ',')
    (hkw : constraintKeywords.any (fun k =>
        containsL k (upperL (name ++ " ".toList ++ ty ++ " DEFAULT ".toList ++ d))) = false)
    (hnd : containsL "DEFAULT".toList (upperL name) = false)
    (htd : containsL "DEFAULT".toList (upperL ty) = false) :
    (parseColumnDefinition
        (name ++ " ".toList ++ ty ++ " DEFAULT ".toList ++ d)).map
      (fun p => p.2.default) = some (some (upperL d)) := by
  have e1 : (" ".toList : Str) = [' '] := rfl
  have e2 : (" DEFAULT ".toList : Str) = ' ' :: ("DEFAULT".toList ++ [' ']) := rfl
  have hjoin : name ++ " ".toList ++ ty ++ " DEFAULT ".toList ++ d =
      joinSp [name, ty, "DEFAULT".toList, d] := by
    rw [e1, e2]
    show _ = name ++ ' ' :: (ty ++ ' ' :: ("DEFAULT".toList ++ ' ' :: d))
    simp
  have hcomma : ',' ∉ d := fun h => (hd2 ',' h).2 rfl
  have hrs : rstripCommas (name ++ " ".toList ++ ty ++ " DEFAULT ".toList ++ d) =
      name ++ " ".toList ++ ty ++ " DEFAULT ".toList ++ d :=
    rstripCommas_append (name ++ " ".toList ++ ty ++ " DEFAULT ".toList) d hd1 hcomma
  have hsplit : splitWs (name ++ " ".toList ++ ty ++ " DEFAULT ".toList ++ d) =
      [name, ty, "DEFAULT".toList, d] := by
    rw [hjoin]
    refine splitWs_joinSp _ ?_
    intro w hw
    simp only [List.mem_cons, List.not_mem_nil, or_false] at hw
    rcases hw with rfl | rfl | rfl | rfl
    · exact ⟨hn1, hn2⟩
    · exact ⟨ht1, ht2⟩
    · exact ⟨by decide, by decide⟩
    · exact ⟨hd1, fun c hc => (hd2 c hc).1⟩
  have hupL : upperL (name ++ " ".toList ++ ty ++ " DEFAULT ".toList ++ d) =
      joinSp [upperL name, upperL ty, "DEFAULT".toList, upperL d] := by
    rw [hjoin, upperL_joinSp]
    dsimp only [List.map]
    rw [show upperL ("DEFAULT".toList) = "DEFAULT".toList from by decide]
  have hcont : containsL "DEFAULT".toList
      (upperL (name ++ " ".toList ++ ty ++ " DEFAULT ".toList ++ d)) = true := by
    rw [hupL, containsL_iff_sub]
    rw [infix_joinSp (by decide) (by decide)]
    exact ⟨"DEFAULT".toList, by simp, List.infix_refl _⟩
  have hAB : joinSp [upperL name, upperL ty, "DEFAULT".toList, upperL d] =
      (upperL name ++ ' ' :: upperL ty ++ [' ']) ++ ("DEFAULT ".toList ++ upperL d) := by
    show upperL name ++ ' ' :: (upperL ty ++ ' ' :: ("DEFAULT".toList ++ ' ' :: upperL d)) = _
    rw [show ("DEFAULT ".toList : Str) = "DEFAULT".toList ++ [' '] from rfl]
    simp
  have htake : (("DEFAULT ".toList ++ upperL d) : Str).take 6 = "DEFAUL".toList := by
    rw [List.take_append_eq_append_take]
    rw [show (("DEFAULT ".toList : Str)).take 6 = "DEFAUL".toList from rfl]
    rw [show 6 - ("DEFAULT ".toList : Str).length = 0 from rfl, List.take_zero,
        List.append_nil]
  have hside : containsL "DEFAULT".toList
      ((upperL name ++ ' ' :: upperL ty ++ [' ']) ++
        (("DEFAULT ".toList ++ upperL d) : Str).take 6) = false := by
    rw [htake]
    have hshape : (upperL name ++ ' ' :: upperL ty ++ [' ']) ++ "DEFAUL".toList =
        joinSp [upperL name, upperL ty, "DEFAUL".toList] := by
      show _ = upperL name ++ ' ' :: (upperL ty ++ ' ' :: "DEFAUL".toList)
      simp
    rw [hshape]
    refine containsL_joinSp_false (by decide) (by decide) _ ?_
    intro w hw
    simp only [List.mem_cons, List.not_mem_nil, or_false] at hw
    rcases hw with rfl | rfl | rfl
    · exact hnd
    · exact htd
    · decide
  have hDgood : ∀ c ∈ upperL d, isWs c = false ∧ (c == ',') = false := by
    intro c hc
    obtain ⟨a, ha, rfl⟩ := List.mem_map.mp hc
    refine ⟨upChar_not_ws (hd2 a ha).1, ?_⟩
    have := @upChar_ne a ',' (by decide) (hd2 a ha).2
    simpa using this
  have hDne : upperL d ≠ [] := by
    simp only [upperL, ne_eq, List.map_eq_nil_iff]
    exact hd1
  have hfind : findDefault
      (upperL (name ++ " ".toList ++ ty ++ " DEFAULT ".toList ++ d)) =
      some (upperL d) := by
    rw [hupL, hAB, findDefault_append _ _ hside]
    exact findDefault_default_head _ hDne hDgood
  unfold parseColumnDefinition
  rw [hrs]
  dsimp only
  rw [hkw]
  simp only [Bool.false_eq_true, if_false]
  rw [hsplit]
  dsimp only
  rw [if_pos hcont, hfind]
  rfl

theorem default_token_is_uppercased_witness :
    (parseColumnDefinition ("created timestamp DEFAULT now()".toList)).map
      (fun p => p.2.default) = some (some ("NOW()".toList)) := by
  have h := default_token_is_uppercased "created".toList "timestamp".toList "now()".toList
    (by decide) (by decide) (by decide) (by decide) (by decide) (by decide)
    (by decide) (by decide) (by decide)
  have e : ("created timestamp DEFAULT now()".toList : Str) =
      "created".toList ++ " ".toList ++ "timestamp".toList ++ " DEFAULT ".toList ++
        "now()".toList := rfl
  have e2 : upperL ("now()".toList) = "NOW()".toList := by decide
  rw [e, ← e2]
  exact h

end Wtfk

namespace Wtfk

/-! ## C1: the compact round-trip -/

/-- C1 (counterexample): the round-trip is not type-preserving.  The DDL
`CREATE TABLE t (id INTEGER);` yields a model storing type `INTEGER`
(`_simplify_type` never changes case), its serialization re-parses with the
Compact-Notation Parser to a model whose type counter holds `integer` —
`_parse_column` lowercases the first token of the column definition — and
`INTEGER ≠ integer`, so the re-parsed model does not have identical column
types. -/
theorem roundtrip_lowercases_types :
    (parseSchema ["CREATE TABLE t (".toList, "    id INTEGER".toList,
        ");".toList]).tables.lookup "t".toList =
      some { columns := [("id".toList,
               { type := "INTEGER".toList, not_null := false,
                 default := none, auto_pk := false })],
             constraints := [], indexes := [] } ∧
    generateCompressedSchema (parseSchema ["CREATE TABLE t (".toList,
        "    id INTEGER".toList, ");".toList]) =
      some "-- Schema: public\n\nt:\n  id: INTEGER\n".toList ∧
    ((parseCompressedSchema
        "-- Schema: public\n\nt:\n  id: INTEGER\n".toList).tables.lookup
          "t".toList).map (fun t => t.column_types) =
      some [("integer".toList, 1)] ∧
    "INTEGER".toList ≠ "integer".toList := by
  refine ⟨by decide, by decide, by decide, by decide⟩

end Wtfk


namespace Wtfk

/-! ### String lemmas for the round-trip -/

theorem takeWhile_all_append (p : Char → Bool) (a : Str) (y : Char) (b : Str)
    (ha : ∀ x ∈ a, p x = true) (hy : p y = false) :
    (a ++ y :: b).takeWhile p = a := by
  induction a with
  | nil => simp [List.takeWhile_cons, hy]
  | cons x t ih =>
    simp only [List.cons_append, List.takeWhile_cons,
      ha x (List.mem_cons_self _ _), if_true]
    exact congrArg (x :: ·) (ih fun z hz => ha z (List.mem_cons_of_mem _ hz))

theorem dropWhile_all_append (p : Char → Bool) (a : Str) (y : Char) (b : Str)
    (ha : ∀ x ∈ a, p x = true) (hy : p y = false) :
    (a ++ y :: b).dropWhile p = y :: b := by
  induction a with
  | nil => simp [List.dropWhile_cons, hy]
  | cons x t ih =>
    simp only [List.cons_append, List.dropWhile_cons,
      ha x (List.mem_cons_self _ _), if_true]
    exact ih fun z hz => ha z (List.mem_cons_of_mem _ hz)

theorem dropWhile_eq_self_of_all (p : Char → Bool) (l : Str)
    (h : ∀ x ∈ l, p x = false) : l.dropWhile p = l := by
  cases l with
  | nil => rfl
  | cons x t => simp [List.dropWhile_cons, h x (List.mem_cons_self _ _)]

theorem rstripWs_eq_self (l : Str)
    (h : ∀ c, l.getLast? = some c → isWs c = false) : rstripWs l = l := by
  unfold rstripWs
  cases hr : l.reverse with
  | nil =>
    have h0 : l = [] := by simpa using congrArg List.reverse hr
    subst h0; rfl
  | cons c t =>
    have hc : l.getLast? = some c := by
      rw [← List.head?_reverse, hr]; rfl
    rw [List.dropWhile_cons, h c hc]
    simp only [Bool.false_eq_true, if_false]
    rw [← hr, List.reverse_reverse]

theorem strip_eq_self (l : Str)
    (hh : ∀ c, l.head? = some c → isWs c = false)
    (hl : ∀ c, l.getLast? = some c → isWs c = false) : strip l = l := by
  cases l with
  | nil => rfl
  | cons c t =>
    unfold strip
    rw [show lstrip (c :: t) = c :: t from lstrip_eq_self_head c t (hh c rfl)]
    exact rstripWs_eq_self _ hl

theorem strip_space (xs : Str) : strip (' ' :: xs) = strip xs := by
  unfold strip lstrip
  rw [List.dropWhile_cons_of_pos (by decide)]

theorem containsL_of_mem {c : Char} {xs : Str} (h : c ∈ xs) :
    containsL [c] xs = true := by
  induction xs with
  | nil => cases h
  | cons x t ih =>
    rw [containsL_cons]
    rcases List.mem_cons.mp h with rfl | hm
    · have h1 : [c].isPrefixOf (c :: t) = true := by simp [List.isPrefixOf]
      rw [h1, Bool.true_or]
    · rw [ih hm, Bool.or_true]

theorem containsL_not_mem {c : Char} {xs : Str} (h : c ∉ xs) :
    containsL [c] xs = false := by
  induction xs with
  | nil => rfl
  | cons x t ih =>
    rw [containsL_cons]
    have h1 : (c == x) = false := by
      simp only [beq_eq_false_iff_ne, ne_eq]
      exact fun he => h (he ▸ List.mem_cons_self _ _)
    have h2 : [c].isPrefixOf (x :: t) = false := by
      simp [List.isPrefixOf, h1]
    rw [h2, ih (fun hm => h (List.mem_cons_of_mem _ hm)), Bool.or_self]

theorem containsL_head_not_mem {c0 : Char} (p : Str) {b : Str} (h : c0 ∉ b) :
    containsL (c0 :: p) b = false := by
  induction b with
  | nil => rfl
  | cons x t ih =>
    rw [containsL_cons]
    have h1 : (c0 == x) = false := by
      simp only [beq_eq_false_iff_ne, ne_eq]
      exact fun he => h (he ▸ List.mem_cons_self _ _)
    have h2 : (c0 :: p).isPrefixOf (x :: t) = false := by
      simp [List.isPrefixOf, h1]
    rw [h2, ih (fun hm => h (List.mem_cons_of_mem _ hm)), Bool.or_self]

/-- A pattern starting with a character that occurs exactly once matches iff
its tail matches right after that occurrence. -/
theorem containsL_sep_unique (c0 : Char) (p a b : Str)
    (ha : c0 ∉ a) (hb : c0 ∉ b) :
    containsL (c0 :: p) (a ++ c0 :: b) = p.isPrefixOf b := by
  induction a with
  | nil =>
    rw [List.nil_append, containsL_cons]
    have h1 : (c0 :: p).isPrefixOf (c0 :: b) = p.isPrefixOf b := by
      simp [List.isPrefixOf]
    rw [h1, containsL_head_not_mem p hb, Bool.or_false]
  | cons x t ih =>
    rw [List.cons_append, containsL_cons]
    have h1 : (c0 == x) = false := by
      simp only [beq_eq_false_iff_ne, ne_eq]
      exact fun he => ha (he ▸ List.mem_cons_self _ _)
    have h2 : (c0 :: p).isPrefixOf (x :: (t ++ c0 :: b)) = false := by
      simp [List.isPrefixOf, h1]
    rw [h2, ih (fun hm => ha (List.mem_cons_of_mem _ hm)), Bool.false_or]

theorem class_ne {p : Char → Bool} {c d : Char} (h : p c = true)
    (hd : p d = false) : c ≠ d := by
  intro he
  rw [he] at h
  rw [h] at hd
  cases hd

theorem class_not_ws {p : Char → Bool} {c : Char} (h : p c = true)
    (hws : ∀ w ∈ wsChars, p w = false) : isWs c = false := by
  cases hw : isWs c
  · rfl
  · have hm : c ∈ wsChars := List.elem_iff.mp hw
    rw [hws c hm] at h
    cases h

theorem okChar_not_ws {c : Char} (h : okChar c = true) : isWs c = false :=
  class_not_ws h (by decide)

theorem okTokChar_not_ws {c : Char} (h : okTokChar c = true) : isWs c = false :=
  class_not_ws h (by decide)

theorem okName_facts {w : Str} (h : okName w = true) :
    w ≠ [] ∧ ∀ c ∈ w, okChar c = true := by
  unfold okName at h
  rw [Bool.and_eq_true] at h
  refine ⟨?_, List.all_eq_true.mp h.2⟩
  intro he
  rw [he] at h
  exact absurd h.1 (by decide)

theorem okTok_facts {w : Str} (h : okTok w = true) :
    w ≠ [] ∧ ∀ c ∈ w, okTokChar c = true := by
  unfold okTok at h
  rw [Bool.and_eq_true] at h
  refine ⟨?_, List.all_eq_true.mp h.2⟩
  intro he
  rw [he] at h
  exact absurd h.1 (by decide)

theorem okName_not_mem {w : Str} (h : okName w = true) {d : Char}
    (hd : okChar d = false) : d ∉ w := fun hm =>
  class_ne ((okName_facts h).2 d hm) hd rfl

theorem lookup_eq_none_of_keys {β : Type} (l : List (Char × β)) (c : Char)
    (h : ∀ p ∈ l, (c == p.1) = false) : l.lookup c = none := by
  induction l with
  | nil => rfl
  | cons q t ih =>
    obtain ⟨k, v⟩ := q
    simp only [List.lookup, h (k, v) (List.mem_cons_self _ _)]
    exact ih fun p hp => h p (List.mem_cons_of_mem _ hp)

theorem loChar_fix {c : Char} (h : okChar c = true) : loChar c = c := by
  unfold loChar
  rw [lookup_eq_none_of_keys]
  · rfl
  · have hall : ∀ p ∈ azPairs.map (fun q => (q.2, q.1)), okChar p.1 = false := by
      decide
    intro p hp
    cases hcp : (c == p.1)
    · rfl
    · have he : c = p.1 := by simpa using hcp
      have h2 := hall p hp
      rw [he] at h
      rw [h] at h2
      cases h2

theorem lowerL_fix {w : Str} (h : ∀ c ∈ w, okChar c = true) : lowerL w = w := by
  induction w with
  | nil => rfl
  | cons c t ih =>
    show loChar c :: lowerL t = c :: t
    rw [loChar_fix (h c (List.mem_cons_self _ _)),
        ih fun z hz => h z (List.mem_cons_of_mem _ hz)]

theorem stripQ_eq_self {w : Str} (h : ∀ c ∈ w, (c == '"') = false) :
    stripQ w = w := by
  unfold stripQ
  rw [dropWhile_eq_self_of_all _ _ h]
  rw [dropWhile_eq_self_of_all _ _ (fun c hc => h c (List.mem_reverse.mp hc))]
  exact List.reverse_reverse w

theorem splitOn_cons (sep c : Char) (t : Str) :
    splitOn sep (c :: t) =
      (if c = sep then [] :: splitOn sep t
       else
         match splitOn sep t with
         | l :: ls => (c :: l) :: ls
         | [] => [[c]]) := rfl

theorem splitOn_no_sep (sep : Char) (w : Str) (h : sep ∉ w) :
    splitOn sep w = [w] := by
  induction w with
  | nil => rfl
  | cons c t ih =>
    rw [splitOn_cons]
    have hcs : ¬ c = sep := fun he => h (he ▸ List.mem_cons_self _ _)
    rw [if_neg hcs, ih fun hm => h (List.mem_cons_of_mem _ hm)]

theorem splitOn_append_sep (sep : Char) (w r : Str) (h : sep ∉ w) :
    splitOn sep (w ++ sep :: r) = w :: splitOn sep r := by
  induction w with
  | nil =>
    rw [List.nil_append, splitOn_cons, if_pos rfl]
  | cons c t ih =>
    rw [List.cons_append, splitOn_cons]
    have hcs : ¬ c = sep := fun he => h (he ▸ List.mem_cons_self _ _)
    rw [if_neg hcs, ih fun hm => h (List.mem_cons_of_mem _ hm)]

theorem splitOn_joinNl (ls : List Str) (hne : ls ≠ [])
    (h : ∀ l ∈ ls, '\n' ∉ l) : splitOn '\n' (joinNl ls) = ls := by
  induction ls with
  | nil => exact absurd rfl hne
  | cons w ws ih =>
    cases ws with
    | nil => exact splitOn_no_sep _ _ (h w (List.mem_cons_self _ _))
    | cons w2 ws2 =>
      show splitOn '\n' (w ++ '\n' :: joinNl (w2 :: ws2)) = _
      rw [splitOn_append_sep _ _ _ (h w (List.mem_cons_self _ _))]
      rw [ih (by simp) fun l hl => h l (List.mem_cons_of_mem _ hl)]

theorem joinNl_append (xs ys : List Str) (hx : xs ≠ []) (hy : ys ≠ []) :
    joinNl (xs ++ ys) = joinNl xs ++ '\n' :: joinNl ys := by
  induction xs with
  | nil => exact absurd rfl hx
  | cons w ws ih =>
    cases ws with
    | nil =>
      cases ys with
      | nil => exact absurd rfl hy
      | cons y ys' => rfl
    | cons w2 ws2 =>
      show w ++ '\n' :: joinNl ((w2 :: ws2) ++ ys) =
        (w ++ '\n' :: joinNl (w2 :: ws2)) ++ '\n' :: joinNl ys
      rw [ih (by simp)]
      simp

theorem mem_joinCS {c : Char} {cols : List Str} (h : c ∈ joinCS cols) :
    c = ',' ∨ c = ' ' ∨ ∃ w ∈ cols, c ∈ w := by
  induction cols with
  | nil => cases h
  | cons w ws ih =>
    cases ws with
    | nil => exact Or.inr (Or.inr ⟨w, List.mem_cons_self _ _, h⟩)
    | cons w2 ws2 =>
      have h' : c ∈ w ++ ',' :: ' ' :: joinCS (w2 :: ws2) := h
      rcases List.mem_append.mp h' with hw | hr
      · exact Or.inr (Or.inr ⟨w, List.mem_cons_self _ _, hw⟩)
      · rcases List.mem_cons.mp hr with rfl | hr2
        · exact Or.inl rfl
        · rcases List.mem_cons.mp hr2 with rfl | hr3
          · exact Or.inr (Or.inl rfl)
          · rcases ih hr3 with h1 | h2 | ⟨w', hw', hc'⟩
            · exact Or.inl h1
            · exact Or.inr (Or.inl h2)
            · exact Or.inr (Or.inr ⟨w', List.mem_cons_of_mem _ hw', hc'⟩)

theorem strip_okName {w : Str} (h : okName w = true) : strip w = w := by
  refine strip_eq_self _ ?_ ?_
  · intro c hc
    exact okChar_not_ws ((okName_facts h).2 c (List.mem_of_mem_head? hc))
  · intro c hc
    exact okChar_not_ws ((okName_facts h).2 c (List.mem_of_mem_getLast? hc))

theorem splitOn_joinCS (cols : List Str) (hne : cols ≠ [])
    (hok : ∀ w ∈ cols, okName w = true) :
    (splitOn ',' (joinCS cols)).map strip = cols := by
  induction cols with
  | nil => exact absurd rfl hne
  | cons w ws ih =>
    have hcm : ',' ∉ w := okName_not_mem (hok w (List.mem_cons_self _ _)) (by decide)
    cases ws with
    | nil =>
      show (splitOn ',' w).map strip = [w]
      rw [splitOn_no_sep ',' w hcm, List.map_cons, List.map_nil,
          strip_okName (hok w (List.mem_cons_self _ _))]
    | cons w2 ws2 =>
      show (splitOn ',' (w ++ ',' :: (' ' :: joinCS (w2 :: ws2)))).map strip =
        w :: w2 :: ws2
      rw [splitOn_append_sep _ _ _ hcm, List.map_cons,
          strip_okName (hok w (List.mem_cons_self _ _))]
      have ih' := ih (by simp) fun l hl => hok l (List.mem_cons_of_mem _ hl)
      cases hsp : splitOn ',' (joinCS (w2 :: ws2)) with
      | nil => rw [hsp] at ih'; cases ih'
      | cons z zs =>
        have hstep : splitOn ',' (' ' :: joinCS (w2 :: ws2)) = (' ' :: z) :: zs := by
          rw [splitOn_cons, if_neg (by decide), hsp]
        rw [hstep, List.map_cons]
        rw [hsp, List.map_cons] at ih'
        injection ih' with ih1 ih2
        rw [strip_space, ih1, ih2]

end Wtfk

namespace Wtfk

/-! ### Per-line behaviour of the compact-parser loop on emitted lines -/

theorem gstep_blank (g : GState) (ct : Option Str) :
    gstep (g, ct) [] = (g, ct) := rfl

theorem gstep_header (g : GState) (ct : Option Str) (n : Str)
    (hn : okName n = true) :
    gstep (g, ct) (n ++ [':']) =
      ({ g with tables := setA n emptyGTable g.tables }, some n) := by
  obtain ⟨hne, hok⟩ := okName_facts hn
  obtain ⟨c, n', rfl⟩ : ∃ c n', n = c :: n' := by
    cases n with
    | nil => exact absurd rfl hne
    | cons a b => exact ⟨a, b, rfl⟩
  have hcok : okChar c = true := hok c (List.mem_cons_self _ _)
  have hstrip : strip ((c :: n') ++ [':']) = (c :: n') ++ [':'] := by
    refine strip_eq_self _ ?_ ?_
    · intro d hd
      have hdc : c = d := by simpa using hd
      exact hdc ▸ okChar_not_ws hcok
    · intro d hd
      rw [List.getLast?_concat] at hd
      have hdc : ':' = d := by simpa using hd
      subst hdc; decide
  rw [gstep.eq_def]
  dsimp only
  rw [hstrip]
  have h1 : ((c :: n') ++ [':']).isEmpty = false := rfl
  have h2 : "--".toList.isPrefixOf ((c :: n') ++ [':']) = false := by
    have hbc : ('-' == c) = false := by
      simp only [beq_eq_false_iff_ne, ne_eq]
      exact Ne.symm (class_ne hcok (by decide))
    simp [List.isPrefixOf, hbc]
  rw [h1, h2]
  simp only [Bool.or_self, Bool.false_eq_true, if_false]
  have h3 : ((c :: n') ++ [':']).getLast? = some ':' := List.getLast?_concat _
  have h4 : " ".toList.isPrefixOf ((c :: n') ++ [':']) = false := by
    have hbc : (' ' == c) = false := by
      simp only [beq_eq_false_iff_ne, ne_eq]
      exact Ne.symm (class_ne hcok (by decide))
    simp [List.isPrefixOf, hbc]
  rw [h3, h4]
  simp only [decide_True, Bool.not_false, Bool.and_true, if_true]
  rw [List.dropLast_concat]

end Wtfk

namespace Wtfk

theorem getLast?_append_ne {a b : Str} (hb : b ≠ []) :
    (a ++ b).getLast? = b.getLast? := by
  rw [List.getLast?_append]
  cases hbl : b.getLast? with
  | none =>
    exfalso
    exact hb (by simpa using hbl)
  | some d => rfl

theorem colLine_not_auto (c : Str) (ci : ColumnInfo) (h : ci.auto_pk = false) :
    colLine c ci = ' ' :: ' ' :: (c ++ ':' :: ' ' :: colTail ci) := by
  unfold colLine colTail
  rw [h]
  simp only [Bool.false_eq_true, if_false]
  rw [show ("  ".toList : Str) = [' ', ' '] from rfl,
      show (": ".toList : Str) = [':', ' '] from rfl]
  simp [List.append_assoc]

theorem colLine_auto (c : Str) (ci : ColumnInfo) (h : ci.auto_pk = true) :
    colLine c ci = ' ' :: ' ' :: (c ++ ':' :: ' ' :: ['P', 'K']) := by
  unfold colLine
  rw [h]
  simp only [if_true]
  rw [show ("  ".toList : Str) = [' ', ' '] from rfl,
      show (": PK".toList : Str) = [':', ' ', 'P', 'K'] from rfl]
  simp [List.append_assoc]

theorem colTail_no_colon (ci : ColumnInfo) (hty : okName ci.type = true)
    (hdef : ∀ dv, ci.default = some dv → okTok dv = true) :
    ':' ∉ colTail ci := by
  intro hm
  unfold colTail at hm
  rcases List.mem_append.mp hm with h1 | h2
  · rcases List.mem_append.mp h1 with h3 | h4
    · exact class_ne ((okName_facts hty).2 ':' h3) (by decide) rfl
    · revert h4
      cases ci.not_null <;> simp <;> decide
  · revert h2
    cases hd : ci.default with
    | none => simp
    | some dv =>
      cases hdve : dv.isEmpty with
      | true => simp [hdve]
      | false =>
        simp only [hdve, Bool.false_eq_true, if_false]
        intro h2
        rcases List.mem_append.mp h2 with h5 | h6
        · revert h5; decide
        · exact class_ne ((okTok_facts (hdef dv hd)).2 ':' h6) (by decide) rfl

theorem splitWs_head (w rest : Str) (hw1 : w ≠ [])
    (hw2 : ∀ c ∈ w, isWs c = false)
    (hr : rest = [] ∨ ∃ r', rest = ' ' :: r') :
    (splitWs (w ++ rest)).headD [] = w := by
  rcases hr with rfl | ⟨r', rfl⟩
  · show (splitWsAux (w ++ []) []).headD [] = w
    rw [splitWsAux_word w hw2, splitWsAux]
    simp [List.isEmpty_iff, hw1]
  · show (splitWsAux (w ++ ' ' :: r') []).headD [] = w
    rw [splitWsAux_word w hw2, List.append_nil,
        splitWsAux_space _ _ (by simp [hw1]), List.reverse_reverse]
    rfl

theorem goodLine_facts {l : Str} (h : goodLine l = true) :
    l ≠ [] ∧ ('\n' ∉ l) ∧ isWs (l.getLastD ' ') = false := by
  unfold goodLine at h
  rw [Bool.and_eq_true, Bool.and_eq_true] at h
  obtain ⟨⟨h1, h2⟩, h3⟩ := h
  refine ⟨?_, ?_, ?_⟩
  · intro he; rw [he] at h1; exact absurd h1 (by decide)
  · intro hm
    have : l.contains '\n' = true := by
      exact List.elem_iff.mpr hm
    rw [this] at h2; exact absurd h2 (by decide)
  · cases hws : isWs (l.getLastD ' ')
    · rfl
    · rw [hws] at h3; exact absurd h3 (by decide)

end Wtfk

namespace Wtfk

theorem gParseColumn_auto (g : GState) (tn c : Str) (ci : ColumnInfo)
    (hc : okName c = true) (hpk : ci.auto_pk = true) :
    gParseColumn (c ++ ':' :: ' ' :: ['P', 'K']) tn g =
      { g with tables := updA tn (colUpd (c, ci)) g.tables } := by
  obtain ⟨hcne, hcok⟩ := okName_facts hc
  obtain ⟨c0, c', rfl⟩ : ∃ a b, c = a :: b := by
    cases c with
    | nil => exact absurd rfl hcne
    | cons a b => exact ⟨a, b, rfl⟩
  have hstrip : strip ((c0 :: c') ++ ':' :: ' ' :: ['P', 'K']) =
      (c0 :: c') ++ ':' :: ' ' :: ['P', 'K'] := by
    refine strip_eq_self _ ?_ ?_
    · intro d hd
      have hdc : c0 = d := by simpa using hd
      exact hdc ▸ okChar_not_ws (hcok c0 (List.mem_cons_self _ _))
    · intro d hd
      rw [getLast?_append_ne (by simp)] at hd
      have hdc : 'K' = d := by simpa using hd
      subst hdc; decide
  have hpkc : containsL ": PK".toList ((c0 :: c') ++ ':' :: ' ' :: ['P', 'K']) = true := by
    rw [show (": PK".toList : Str) = ':' :: [' ', 'P', 'K'] from rfl]
    rw [containsL_sep_unique ':' [' ', 'P', 'K'] (c0 :: c') (' ' :: ['P', 'K'])
        (okName_not_mem hc (by decide)) (by decide)]
    decide
  have hbne : ∀ x ∈ c0 :: c', (x != ':') = true := by
    intro x hx
    simp only [bne_iff_ne, ne_eq]
    exact class_ne (hcok x hx) (by decide)
  have htake : ((c0 :: c') ++ ':' :: ' ' :: ['P', 'K']).takeWhile (· != ':') =
      c0 :: c' := takeWhile_all_append _ _ _ _ hbne (by decide)
  have hsq : stripQ (strip (c0 :: c')) = c0 :: c' := by
    rw [strip_okName hc]
    exact stripQ_eq_self fun x hx => by
      simp only [beq_eq_false_iff_ne, ne_eq]
      exact class_ne (hcok x hx) (by decide)
  unfold gParseColumn
  simp only [hstrip, hpkc, if_true, htake, hsq]
  have hfun : (fun t : GTable =>
      { t with columns := t.columns ++ [c0 :: c'],
               primary_keys := t.primary_keys ++ [c0 :: c'],
               column_types := cinc "integer".toList t.column_types,
               required_columns := t.required_columns + 1 }) =
      colUpd (c0 :: c', ci) := by
    funext t
    unfold colUpd
    rw [hpk]
    rfl
  rw [hfun]

end Wtfk

namespace Wtfk

theorem gParseColumn_regular (g : GState) (tn c : Str) (ci : ColumnInfo)
    (hc : okName c = true) (hty : okName ci.type = true)
    (hdef : ∀ dv, ci.default = some dv → okTok dv = true)
    (hnn : containsL "NOT NULL".toList (upperL (colTail ci)) = ci.not_null)
    (hpk : ci.auto_pk = false)
    (hlast : ∀ d, (colTail ci).getLast? = some d → isWs d = false) :
    gParseColumn (c ++ ':' :: ' ' :: colTail ci) tn g =
      { g with tables := updA tn (colUpd (c, ci)) g.tables } := by
  obtain ⟨hcne, hcok⟩ := okName_facts hc
  obtain ⟨c0, c', rfl⟩ : ∃ a b, c = a :: b := by
    cases c with
    | nil => exact absurd rfl hcne
    | cons a b => exact ⟨a, b, rfl⟩
  obtain ⟨htyne, htyok⟩ := okName_facts hty
  obtain ⟨t0, ty', hty0⟩ : ∃ a b, ci.type = a :: b := by
    cases hh : ci.type with
    | nil => exact absurd hh htyne
    | cons a b => exact ⟨a, b, rfl⟩
  have hctR : colTail ci = ci.type ++
      ((if ci.not_null then " NOT NULL".toList else []) ++
        (match ci.default with
         | some dv => if dv.isEmpty then [] else " DEFAULT ".toList ++ dv
         | none => [])) := by
    unfold colTail
    rw [List.append_assoc]
  have hctcons : colTail ci = t0 :: (ty' ++
      ((if ci.not_null then " NOT NULL".toList else []) ++
        (match ci.default with
         | some dv => if dv.isEmpty then [] else " DEFAULT ".toList ++ dv
         | none => []))) := by
    rw [hctR, hty0, List.cons_append]
  have hctne : colTail ci ≠ [] := by rw [hctcons]; simp
  have ht0ok : okChar t0 = true := htyok t0 (hty0 ▸ List.mem_cons_self _ _)
  have hstrip : strip ((c0 :: c') ++ ':' :: ' ' :: colTail ci) =
      (c0 :: c') ++ ':' :: ' ' :: colTail ci := by
    refine strip_eq_self _ ?_ ?_
    · intro d hd
      have hdc : c0 = d := by simpa using hd
      exact hdc ▸ okChar_not_ws (hcok c0 (List.mem_cons_self _ _))
    · intro d hd
      rw [getLast?_append_ne (by simp),
          show (':' :: ' ' :: colTail ci : Str) = [':', ' '] ++ colTail ci from rfl,
          getLast?_append_ne hctne] at hd
      exact hlast d hd
  have hnpkc : containsL ": PK".toList ((c0 :: c') ++ ':' :: ' ' :: colTail ci) = false := by
    rw [show (": PK".toList : Str) = ':' :: [' ', 'P', 'K'] from rfl]
    rw [containsL_sep_unique ':' [' ', 'P', 'K'] (c0 :: c') (' ' :: colTail ci)
        (okName_not_mem hc (by decide)) ?hmemb]
    case hmemb =>
      intro hm
      rcases List.mem_cons.mp hm with he | hm2
      · exact absurd he (by decide)
      · exact colTail_no_colon ci hty hdef hm2
    have hP : ('P' == t0) = false := by
      simp only [beq_eq_false_iff_ne, ne_eq]
      exact Ne.symm (class_ne ht0ok (by decide))
    rw [hctcons]
    simp [List.isPrefixOf, hP]
  have hcolon : containsL ":".toList ((c0 :: c') ++ ':' :: ' ' :: colTail ci) = true := by
    rw [show (":".toList : Str) = [':'] from rfl]
    exact containsL_of_mem (List.mem_append.mpr (Or.inr (List.mem_cons_self _ _)))
  have hbne : ∀ x ∈ c0 :: c', (x != ':') = true := by
    intro x hx
    simp only [bne_iff_ne, ne_eq]
    exact class_ne (hcok x hx) (by decide)
  have htake : ((c0 :: c') ++ ':' :: ' ' :: colTail ci).takeWhile (· != ':') =
      c0 :: c' := takeWhile_all_append _ _ _ _ hbne (by decide)
  have hdrop : ((c0 :: c') ++ ':' :: ' ' :: colTail ci).dropWhile (· != ':') =
      ':' :: ' ' :: colTail ci := dropWhile_all_append _ _ _ _ hbne (by decide)
  have hsq : stripQ (strip (c0 :: c')) = c0 :: c' := by
    rw [strip_okName hc]
    exact stripQ_eq_self fun x hx => by
      simp only [beq_eq_false_iff_ne, ne_eq]
      exact class_ne (hcok x hx) (by decide)
  have hstriptail : strip ((':' :: ' ' :: colTail ci : Str).tail) = colTail ci := by
    show strip (' ' :: colTail ci) = colTail ci
    rw [strip_space]
    refine strip_eq_self _ ?_ hlast
    intro d hd
    rw [hctcons] at hd
    have hdc : t0 = d := by simpa using hd
    exact hdc ▸ okChar_not_ws ht0ok
  have hce : (colTail ci).isEmpty = false := by rw [hctcons]; rfl
  have hsw : (splitWs (colTail ci)).headD [] = ci.type := by
    rw [hctR]
    refine splitWs_head _ _ htyne
      (fun z hz => okChar_not_ws (htyok z hz)) ?_
    cases hb : ci.not_null with
    | true => exact Or.inr ⟨_, rfl⟩
    | false =>
      cases hd0 : ci.default with
      | none => exact Or.inl rfl
      | some dv =>
        cases hdve : dv.isEmpty with
        | true =>
          refine Or.inl ?_
          show ([] ++ (if dv.isEmpty = true then [] else " DEFAULT ".toList ++ dv) : Str) = []
          rw [hdve]
          simp
        | false =>
          refine Or.inr ⟨"DEFAULT ".toList ++ dv, ?_⟩
          show ([] ++ (if dv.isEmpty = true then [] else " DEFAULT ".toList ++ dv) : Str) = _
          rw [hdve]
          simp only [Bool.false_eq_true, if_false, List.nil_append]
          rfl
  have hlow : lowerL ci.type = ci.type := lowerL_fix htyok
  unfold gParseColumn
  simp only [hstrip, hnpkc, Bool.false_eq_true, if_false, hcolon, if_true,
    htake, hdrop, hsq, hstriptail, hce, hsw, hlow]
  have hfun : (fun t : GTable =>
      if containsL "NOT NULL".toList (upperL (colTail ci)) = true then
        { t with columns := t.columns ++ [c0 :: c'],
                 column_types := cinc ci.type t.column_types,
                 required_columns := t.required_columns + 1 }
      else
        { t with columns := t.columns ++ [c0 :: c'],
                 column_types := cinc ci.type t.column_types,
                 nullable_columns := t.nullable_columns + 1 }) =
      colUpd (c0 :: c', ci) := by
    funext t
    rw [hnn]
    unfold colUpd
    rw [hpk]
    simp only [Bool.false_eq_true, if_false]
  rw [hfun]

end Wtfk

namespace Wtfk

theorem strip_col_body (c X : Str) (hc : okName c = true)
    (hlastX : ∀ d, (':' :: ' ' :: X : Str).getLast? = some d → isWs d = false) :
    strip (c ++ ':' :: ' ' :: X) = c ++ ':' :: ' ' :: X := by
  obtain ⟨hcne, hcok⟩ := okName_facts hc
  obtain ⟨c0, c', rfl⟩ : ∃ a b, c = a :: b := by
    cases c with
    | nil => exact absurd rfl hcne
    | cons a b => exact ⟨a, b, rfl⟩
  refine strip_eq_self _ ?_ ?_
  · intro d hd
    have hdc : c0 = d := by simpa using hd
    exact hdc ▸ okChar_not_ws (hcok c0 (List.mem_cons_self _ _))
  · intro d hd
    rw [getLast?_append_ne (by simp)] at hd
    exact hlastX d hd

theorem gstep_to_gParseColumn (g : GState) (tn : Str) (c : Str) (X : Str)
    (hc : okName c = true)
    (hstripX : strip (c ++ ':' :: ' ' :: X) = c ++ ':' :: ' ' :: X) :
    gstep (g, some tn) (' ' :: ' ' :: (c ++ ':' :: ' ' :: X)) =
      (gParseColumn (c ++ ':' :: ' ' :: X) tn g, some tn) := by
  obtain ⟨hcne, hcok⟩ := okName_facts hc
  obtain ⟨c0, c', rfl⟩ : ∃ a b, c = a :: b := by
    cases c with
    | nil => exact absurd rfl hcne
    | cons a b => exact ⟨a, b, rfl⟩
  have hstrip0 : strip (' ' :: ' ' :: ((c0 :: c') ++ ':' :: ' ' :: X)) =
      (c0 :: c') ++ ':' :: ' ' :: X := by
    rw [strip_indent]; exact hstripX
  have hne : ∀ d : Char, okChar d = false →
      (d == c0) = false := by
    intro d hd
    simp only [beq_eq_false_iff_ne, ne_eq]
    exact Ne.symm (class_ne (hcok c0 (List.mem_cons_self _ _)) hd)
  rw [gstep.eq_def]
  dsimp only
  rw [hstrip0]
  have h1 : ((c0 :: c') ++ ':' :: ' ' :: X).isEmpty = false := rfl
  have h2 : "--".toList.isPrefixOf ((c0 :: c') ++ ':' :: ' ' :: X) = false := by
    simp [List.isPrefixOf, hne '-' (by decide)]
  rw [h1, h2]
  simp only [Bool.or_self, Bool.false_eq_true, if_false]
  have h3 : " ".toList.isPrefixOf
      (' ' :: ' ' :: ((c0 :: c') ++ ':' :: ' ' :: X)) = true := by
    simp [List.isPrefixOf]
  rw [h3]
  simp only [Bool.not_true, Bool.and_false, Bool.false_eq_true, if_false]
  have h4 : "  ".toList.isPrefixOf
      (' ' :: ' ' :: ((c0 :: c') ++ ':' :: ' ' :: X)) = true := by
    simp [List.isPrefixOf]
  have h5 : containsL ":".toList ((c0 :: c') ++ ':' :: ' ' :: X) = true := by
    rw [show (":".toList : Str) = [':'] from rfl]
    exact containsL_of_mem (List.mem_append.mpr (Or.inr (List.mem_cons_self _ _)))
  have hF : "  FK".toList.isPrefixOf
      (' ' :: ' ' :: ((c0 :: c') ++ ':' :: ' ' :: X)) = false := by
    simp [List.isPrefixOf, List.cons_append, hne 'F' (by decide)]
  have hU : "  UNIQUE".toList.isPrefixOf
      (' ' :: ' ' :: ((c0 :: c') ++ ':' :: ' ' :: X)) = false := by
    simp [List.isPrefixOf, List.cons_append, hne 'U' (by decide)]
  have hI : "  IDX".toList.isPrefixOf
      (' ' :: ' ' :: ((c0 :: c') ++ ':' :: ' ' :: X)) = false := by
    simp [List.isPrefixOf, List.cons_append, hne 'I' (by decide)]
  have hP2 : "  PRIMARY".toList.isPrefixOf
      (' ' :: ' ' :: ((c0 :: c') ++ ':' :: ' ' :: X)) = false := by
    simp [List.isPrefixOf, List.cons_append, hne 'P' (by decide)]
  rw [h4, h5, hF, hU, hI, hP2]
  simp only [Bool.not_false, Bool.and_true, Bool.true_and, if_true]

theorem gstep_col_auto (g : GState) (tn c : Str) (ci : ColumnInfo)
    (hc : okName c = true) (hpk : ci.auto_pk = true) :
    gstep (g, some tn) (colLine c ci) =
      ({ g with tables := updA tn (colUpd (c, ci)) g.tables }, some tn) := by
  rw [colLine_auto c ci hpk]
  rw [gstep_to_gParseColumn g tn c ['P', 'K'] hc
      (strip_col_body c ['P', 'K'] hc (by
        intro d hd
        have hdc : 'K' = d := by simpa using hd
        subst hdc; decide))]
  rw [gParseColumn_auto g tn c ci hc hpk]

theorem gstep_col_regular (g : GState) (tn c : Str) (ci : ColumnInfo)
    (hc : okName c = true) (hty : okName ci.type = true)
    (hdef : ∀ dv, ci.default = some dv → okTok dv = true)
    (hnn : containsL "NOT NULL".toList (upperL (colTail ci)) = ci.not_null)
    (hpk : ci.auto_pk = false)
    (hgl : goodLine (colLine c ci) = true) :
    gstep (g, some tn) (colLine c ci) =
      ({ g with tables := updA tn (colUpd (c, ci)) g.tables }, some tn) := by
  obtain ⟨htyne, htyok⟩ := okName_facts hty
  have hctne : colTail ci ≠ [] := by
    unfold colTail
    intro he
    rw [List.append_assoc] at he
    exact htyne (List.append_eq_nil.mp he).1
  have hfacts := goodLine_facts hgl
  have hgll : (colLine c ci).getLast? = (colTail ci).getLast? := by
    rw [colLine_not_auto c ci hpk]
    rw [show (' ' :: ' ' :: (c ++ ':' :: ' ' :: colTail ci) : Str) =
        [' ', ' '] ++ (c ++ ([':', ' '] ++ colTail ci)) from by simp]
    rw [getLast?_append_ne (by simp), getLast?_append_ne (by simp),
        getLast?_append_ne hctne]
  have hlast : ∀ d, (colTail ci).getLast? = some d → isWs d = false := by
    intro d hd
    have h1 : (colLine c ci).getLast? = some d := by rw [hgll]; exact hd
    have h2 := hfacts.2.2
    rw [List.getLastD_eq_getLast?, h1] at h2
    simpa using h2
  rw [colLine_not_auto c ci hpk]
  rw [gstep_to_gParseColumn g tn c (colTail ci) hc
      (strip_col_body c (colTail ci) hc (by
        intro d hd
        rw [show (':' :: ' ' :: colTail ci : Str) = [':', ' '] ++ colTail ci from rfl,
            getLast?_append_ne hctne] at hd
        exact hlast d hd))]
  rw [gParseColumn_regular g tn c ci hc hty hdef hnn hpk hlast]

end Wtfk

namespace Wtfk

theorem okChar_word {c : Char} (h : okChar c = true) : isWordChar c = true := by
  unfold okChar at h
  unfold isWordChar
  rcases Bool.or_eq_true_iff.mp h with h1 | h2
  · rcases Bool.or_eq_true_iff.mp h1 with h3 | h4
    · rw [h3]; rfl
    · rw [h4]
      simp
  · have : c = '_' := by simpa using h2
    subst this; decide

theorem mkFkLine_shape (lc rt rc : Str) (dfr : Bool) :
    mkFkLine lc rt rc dfr = ' ' :: ' ' :: ('F' :: 'K' :: ' ' :: '(' ::
      (lc ++ ')' :: ' ' :: '>' :: ' ' :: (rt ++ '(' :: (rc ++ ')' ::
        (if dfr then " DEFERRABLE".toList else []))))) := by
  unfold mkFkLine
  rw [show ("  FK (".toList : Str) = [' ', ' ', 'F', 'K', ' ', '('] from rfl,
      show (") > ".toList : Str) = [')', ' ', '>', ' '] from rfl]
  simp [List.append_assoc]

theorem scanCompactFk_eval (lc rt rc sfx : Str)
    (hlc : okName lc = true) (hrt : okName rt = true) (hrc : okName rc = true) :
    scanCompactFk ('F' :: 'K' :: ' ' :: '(' ::
        (lc ++ ')' :: ' ' :: '>' :: ' ' :: (rt ++ '(' :: (rc ++ ')' :: sfx)))) =
      some (lc, rt, rc) := by
  obtain ⟨hlcne, hlcok⟩ := okName_facts hlc
  obtain ⟨hrtne, hrtok⟩ := okName_facts hrt
  obtain ⟨hrcne, hrcok⟩ := okName_facts hrc
  have hbne : ∀ w : Str, okName w = true → ∀ x ∈ w, (x != ')') = true := by
    intro w hw x hx
    simp only [bne_iff_ne, ne_eq]
    exact class_ne ((okName_facts hw).2 x hx) (by decide)
  have hpre : "FK (".toList.isPrefixOf ('F' :: 'K' :: ' ' :: '(' ::
      (lc ++ ')' :: ' ' :: '>' :: ' ' :: (rt ++ '(' :: (rc ++ ')' :: sfx)))) = true := by
    simp [List.isPrefixOf]
  have htake1 : (lc ++ ')' :: ' ' :: '>' :: ' ' ::
      (rt ++ '(' :: (rc ++ ')' :: sfx))).takeWhile (· != ')') = lc :=
    takeWhile_all_append _ _ _ _ (hbne lc hlc) (by decide)
  have hdrop1 : (lc ++ ')' :: ' ' :: '>' :: ' ' ::
      (rt ++ '(' :: (rc ++ ')' :: sfx))).dropWhile (· != ')') =
      ')' :: ' ' :: '>' :: ' ' :: (rt ++ '(' :: (rc ++ ')' :: sfx)) :=
    dropWhile_all_append _ _ _ _ (hbne lc hlc) (by decide)
  have hlce : lc.isEmpty = false := by
    cases lc with
    | nil => exact absurd rfl hlcne
    | cons a b => rfl
  have htw : takeWord (rt ++ '(' :: (rc ++ ')' :: sfx)) =
      (rt, '(' :: (rc ++ ')' :: sfx)) := by
    unfold takeWord
    rw [takeWhile_all_append _ _ _ _ (fun x hx => okChar_word (hrtok x hx)) (by decide),
        dropWhile_all_append _ _ _ _ (fun x hx => okChar_word (hrtok x hx)) (by decide)]
  have hrte : rt.isEmpty = false := by
    cases rt with
    | nil => exact absurd rfl hrtne
    | cons a b => rfl
  have hmnp : matchNameParen (rt ++ '(' :: (rc ++ ')' :: sfx)) =
      some (rt, rc ++ ')' :: sfx) := by
    unfold matchNameParen
    rw [htw]
    dsimp only
    rw [hrte]
    simp only [Bool.false_eq_true, if_false]
  have htake2 : (rc ++ ')' :: sfx).takeWhile (· != ')') = rc :=
    takeWhile_all_append _ _ _ _ (hbne rc hrc) (by decide)
  have hdrop2 : (rc ++ ')' :: sfx).dropWhile (· != ')') = ')' :: sfx :=
    dropWhile_all_append _ _ _ _ (hbne rc hrc) (by decide)
  have hrce : rc.isEmpty = false := by
    cases rc with
    | nil => exact absurd rfl hrcne
    | cons a b => rfl
  rw [scanCompactFk]
  rw [hpre]
  simp only [if_true]
  rw [show (('F' :: 'K' :: ' ' :: '(' ::
      (lc ++ ')' :: ' ' :: '>' :: ' ' :: (rt ++ '(' :: (rc ++ ')' :: sfx)))).drop 4 : Str) =
      lc ++ ')' :: ' ' :: '>' :: ' ' :: (rt ++ '(' :: (rc ++ ')' :: sfx)) from rfl]
  simp only [htake1, hdrop1, hlce]
  rw [show ((')' :: ' ' :: '>' :: ' ' :: (rt ++ '(' :: (rc ++ ')' :: sfx)) : Str).drop 4) =
      rt ++ '(' :: (rc ++ ')' :: sfx) from rfl]
  simp only [hmnp, htake2, hdrop2, hrce]
  simp [List.isPrefixOf]

end Wtfk

namespace Wtfk

theorem gParseFk_eval (g : GState) (tn lc rt rc sfx : Str) (dfr : Bool)
    (hlc : okName lc = true) (hrt : okName rt = true) (hrc : okName rc = true)
    (hdfr : containsL "DEFERRABLE".toList (upperL ('F' :: 'K' :: ' ' :: '(' ::
        (lc ++ ')' :: ' ' :: '>' :: ' ' :: (rt ++ '(' :: (rc ++ ')' :: sfx))))) = dfr) :
    gParseFk ('F' :: 'K' :: ' ' :: '(' ::
        (lc ++ ')' :: ' ' :: '>' :: ' ' :: (rt ++ '(' :: (rc ++ ')' :: sfx)))) tn g =
      { g with
          tables := updA tn (fun t =>
            { t with foreign_keys := t.foreign_keys ++ [mkFk tn lc rt rc dfr] })
            g.tables,
          relationships := g.relationships ++ [mkFk tn lc rt rc dfr] } := by
  unfold gParseFk
  rw [scanCompactFk_eval lc rt rc sfx hlc hrt hrc]
  dsimp only
  rw [strip_okName hlc, strip_okName hrt, strip_okName hrc, hdfr]
  rfl

theorem gstep_fk_gen (g : GState) (tn lc rt rc sfx : Str) (dfr : Bool)
    (hlc : okName lc = true) (hrt : okName rt = true) (hrc : okName rc = true)
    (hsfx : ∀ d, ((')' :: sfx : Str)).getLast? = some d → isWs d = false)
    (hdfr : containsL "DEFERRABLE".toList (upperL ('F' :: 'K' :: ' ' :: '(' ::
        (lc ++ ')' :: ' ' :: '>' :: ' ' :: (rt ++ '(' :: (rc ++ ')' :: sfx))))) = dfr) :
    gstep (g, some tn) (' ' :: ' ' :: ('F' :: 'K' :: ' ' :: '(' ::
        (lc ++ ')' :: ' ' :: '>' :: ' ' :: (rt ++ '(' :: (rc ++ ')' :: sfx))))) =
      ({ g with
          tables := updA tn (fun t =>
            { t with foreign_keys := t.foreign_keys ++ [mkFk tn lc rt rc dfr] })
            g.tables,
          relationships := g.relationships ++ [mkFk tn lc rt rc dfr] }, some tn) := by
  have hstrip : strip ('F' :: 'K' :: ' ' :: '(' ::
      (lc ++ ')' :: ' ' :: '>' :: ' ' :: (rt ++ '(' :: (rc ++ ')' :: sfx)))) =
      'F' :: 'K' :: ' ' :: '(' ::
        (lc ++ ')' :: ' ' :: '>' :: ' ' :: (rt ++ '(' :: (rc ++ ')' :: sfx))) := by
    refine strip_eq_self _ ?_ ?_
    · intro d hd
      have hdc : 'F' = d := by simpa using hd
      subst hdc; decide
    · intro d hd
      have hb2 : ('F' :: 'K' :: ' ' :: '(' ::
          (lc ++ ')' :: ' ' :: '>' :: ' ' :: (rt ++ '(' :: (rc ++ ')' :: sfx)))
            : Str) =
          ('F' :: 'K' :: ' ' :: '(' :: lc ++ [')', ' ', '>', ' '] ++ rt ++ ['(']
            ++ rc) ++ (')' :: sfx) := by
        simp [List.append_assoc]
      rw [hb2, getLast?_append_ne (by simp)] at hd
      exact hsfx d hd
  rw [gstep.eq_def]
  dsimp only
  rw [strip_indent, hstrip]
  have h1 : (('F' :: 'K' :: ' ' :: '(' ::
      (lc ++ ')' :: ' ' :: '>' :: ' ' :: (rt ++ '(' :: (rc ++ ')' :: sfx)))
        : Str)).isEmpty = false := rfl
  have h2 : "--".toList.isPrefixOf ('F' :: 'K' :: ' ' :: '(' ::
      (lc ++ ')' :: ' ' :: '>' :: ' ' :: (rt ++ '(' :: (rc ++ ')' :: sfx)))) =
      false := by
    simp [List.isPrefixOf]
  rw [h1, h2]
  simp only [Bool.or_self, Bool.false_eq_true, if_false]
  have h3 : " ".toList.isPrefixOf (' ' :: ' ' :: ('F' :: 'K' :: ' ' :: '(' ::
      (lc ++ ')' :: ' ' :: '>' :: ' ' :: (rt ++ '(' :: (rc ++ ')' :: sfx))))) =
      true := by
    simp [List.isPrefixOf]
  rw [h3]
  simp only [Bool.not_true, Bool.and_false, Bool.false_eq_true, if_false]
  have hFK : "  FK".toList.isPrefixOf (' ' :: ' ' :: ('F' :: 'K' :: ' ' :: '(' ::
      (lc ++ ')' :: ' ' :: '>' :: ' ' :: (rt ++ '(' :: (rc ++ ')' :: sfx))))) =
      true := by
    simp [List.isPrefixOf]
  rw [hFK]
  simp only [Bool.not_true, Bool.and_false, Bool.false_and, Bool.false_eq_true,
    if_false]
  have hFKp : "  FK (".toList.isPrefixOf (' ' :: ' ' :: ('F' :: 'K' :: ' ' :: '(' ::
      (lc ++ ')' :: ' ' :: '>' :: ' ' :: (rt ++ '(' :: (rc ++ ')' :: sfx))))) =
      true := by
    simp [List.isPrefixOf]
  rw [hFKp]
  simp only [if_true]
  rw [gParseFk_eval g tn lc rt rc sfx dfr hlc hrt hrc hdfr]

end Wtfk

namespace Wtfk

theorem sfx_last_ok (dfr : Bool) :
    ∀ d, ((')' :: (if dfr then " DEFERRABLE".toList else []) : Str)).getLast? =
      some d → isWs d = false := by
  cases dfr
  · intro d hd
    have hdc : ')' = d := by simpa using hd
    subst hdc; decide
  · intro d hd
    have hd' : ((')' :: " DEFERRABLE".toList : Str)).getLast? = some d := by
      simpa using hd
    rw [show ((')' :: " DEFERRABLE".toList : Str)).getLast? = some 'E' from rfl]
      at hd'
    have hdc : 'E' = d := by simpa using hd'
    subst hdc; decide

theorem strip_mkFkLine (lc rt rc : Str) (dfr : Bool) :
    strip (mkFkLine lc rt rc dfr) =
      'F' :: 'K' :: ' ' :: '(' :: (lc ++ ')' :: ' ' :: '>' :: ' ' ::
        (rt ++ '(' :: (rc ++ ')' ::
          (if dfr then " DEFERRABLE".toList else [])))) := by
  rw [mkFkLine_shape, strip_indent]
  refine strip_eq_self _ ?_ ?_
  · intro d hd
    have hdc : 'F' = d := by simpa using hd
    subst hdc; decide
  · intro d hd
    have hb2 : ('F' :: 'K' :: ' ' :: '(' ::
        (lc ++ ')' :: ' ' :: '>' :: ' ' :: (rt ++ '(' :: (rc ++ ')' ::
          (if dfr then " DEFERRABLE".toList else [])))) : Str) =
        ('F' :: 'K' :: ' ' :: '(' :: lc ++ [')', ' ', '>', ' '] ++ rt ++ ['(']
          ++ rc) ++ (')' :: (if dfr then " DEFERRABLE".toList else [])) := by
      simp [List.append_assoc]
    rw [hb2, getLast?_append_ne (by simp)] at hd
    exact sfx_last_ok dfr d hd

theorem gstep_fk_line (g : GState) (tn lc rt rc : Str) (dfr : Bool)
    (hlc : okName lc = true) (hrt : okName rt = true) (hrc : okName rc = true)
    (hdfr : containsL "DEFERRABLE".toList
      (upperL (strip (mkFkLine lc rt rc dfr))) = dfr) :
    gstep (g, some tn) (mkFkLine lc rt rc dfr) =
      ({ g with
          tables := updA tn (fun t =>
            { t with foreign_keys := t.foreign_keys ++ [mkFk tn lc rt rc dfr] })
            g.tables,
          relationships := g.relationships ++ [mkFk tn lc rt rc dfr] },
        some tn) := by
  rw [strip_mkFkLine lc rt rc dfr] at hdfr
  rw [mkFkLine_shape]
  exact gstep_fk_gen g tn lc rt rc _ dfr hlc hrt hrc (sfx_last_ok dfr) hdfr

end Wtfk

namespace Wtfk

theorem concrete_last {l : Str} {e : Char} (he : l.getLast? = some e)
    (hw : isWs e = false) : ∀ d, l.getLast? = some d → isWs d = false := by
  intro d hd
  rw [he] at hd
  have hde : e = d := by simpa using hd
  subst hde
  exact hw

theorem joinCS_mem_ok {cols : List Str} (hok : ∀ w ∈ cols, okName w = true) :
    ∀ x ∈ joinCS cols, (x != ')') = true := by
  intro x hx
  simp only [bne_iff_ne, ne_eq]
  rcases mem_joinCS hx with rfl | rfl | ⟨w, hw, hxw⟩
  · decide
  · decide
  · exact class_ne ((okName_facts (hok w hw)).2 x hxw) (by decide)

theorem joinCS_isEmpty_false {cols : List Str} (hne : cols ≠ [])
    (hok : ∀ w ∈ cols, okName w = true) : (joinCS cols).isEmpty = false := by
  cases cols with
  | nil => exact absurd rfl hne
  | cons w ws =>
    obtain ⟨hwne, _⟩ := okName_facts (hok w (List.mem_cons_self _ _))
    obtain ⟨c0, c', rfl⟩ : ∃ a b, w = a :: b := by
      cases w with
      | nil => exact absurd rfl hwne
      | cons a b => exact ⟨a, b, rfl⟩
    cases ws with
    | nil => rfl
    | cons w2 ws2 => rfl

theorem scanParenAfter_unique (cols : List Str) (hne : cols ≠ [])
    (hok : ∀ w ∈ cols, okName w = true) :
    scanParenAfter "UNIQUE (".toList
      ('U' :: 'N' :: 'I' :: 'Q' :: 'U' :: 'E' :: ' ' :: '(' ::
        (joinCS cols ++ [')'])) = some (joinCS cols) := by
  rw [scanParenAfter]
  rw [show "UNIQUE (".toList.isPrefixOf
      ('U' :: 'N' :: 'I' :: 'Q' :: 'U' :: 'E' :: ' ' :: '(' ::
        (joinCS cols ++ [')'])) = true from by simp [List.isPrefixOf]]
  simp only [if_true]
  rw [show (('U' :: 'N' :: 'I' :: 'Q' :: 'U' :: 'E' :: ' ' :: '(' ::
      (joinCS cols ++ [')'])) : Str).drop ("UNIQUE (".toList).length =
      joinCS cols ++ [')'] from rfl]
  rw [show (joinCS cols ++ [')'] : Str) = joinCS cols ++ ')' :: [] from rfl]
  rw [takeWhile_all_append _ _ _ _ (joinCS_mem_ok hok) (by decide),
      dropWhile_all_append _ _ _ _ (joinCS_mem_ok hok) (by decide)]
  simp [joinCS_isEmpty_false hne hok]

theorem scanParenAfter_pk (cols : List Str) (hne : cols ≠ [])
    (hok : ∀ w ∈ cols, okName w = true) :
    scanParenAfter "PRIMARY KEY (".toList
      ('P' :: 'R' :: 'I' :: 'M' :: 'A' :: 'R' :: 'Y' :: ' ' :: 'K' :: 'E' ::
        'Y' :: ' ' :: '(' :: (joinCS cols ++ [')'])) = some (joinCS cols) := by
  rw [scanParenAfter]
  rw [show "PRIMARY KEY (".toList.isPrefixOf
      ('P' :: 'R' :: 'I' :: 'M' :: 'A' :: 'R' :: 'Y' :: ' ' :: 'K' :: 'E' ::
        'Y' :: ' ' :: '(' :: (joinCS cols ++ [')'])) = true from by
      simp [List.isPrefixOf]]
  simp only [if_true]
  rw [show (('P' :: 'R' :: 'I' :: 'M' :: 'A' :: 'R' :: 'Y' :: ' ' :: 'K' ::
      'E' :: 'Y' :: ' ' :: '(' :: (joinCS cols ++ [')'])) : Str).drop
      ("PRIMARY KEY (".toList).length = joinCS cols ++ [')'] from rfl]
  rw [show (joinCS cols ++ [')'] : Str) = joinCS cols ++ ')' :: [] from rfl]
  rw [takeWhile_all_append _ _ _ _ (joinCS_mem_ok hok) (by decide),
      dropWhile_all_append _ _ _ _ (joinCS_mem_ok hok) (by decide)]
  simp [joinCS_isEmpty_false hne hok]

end Wtfk

namespace Wtfk

theorem gstep_unique_line (g : GState) (tn : Str) (cols : List Str)
    (hne : cols ≠ []) (hok : ∀ w ∈ cols, okName w = true) :
    gstep (g, some tn) ("  UNIQUE (".toList ++ joinCS cols ++ [')']) =
      ({ g with
          tables := updA tn (fun t =>
            { t with unique_constraints := t.unique_constraints ++ [cols] })
            g.tables }, some tn) := by
  have hshape : ("  UNIQUE (".toList ++ joinCS cols ++ [')'] : Str) =
      ' ' :: ' ' :: ('U' :: 'N' :: 'I' :: 'Q' :: 'U' :: 'E' :: ' ' :: '(' ::
        (joinCS cols ++ [')'])) := by
    rw [show ("  UNIQUE (".toList : Str) =
        [' ', ' ', 'U', 'N', 'I', 'Q', 'U', 'E', ' ', '('] from rfl]
    simp [List.append_assoc]
  have hstrip : strip ('U' :: 'N' :: 'I' :: 'Q' :: 'U' :: 'E' :: ' ' :: '(' ::
      (joinCS cols ++ [')'])) =
      'U' :: 'N' :: 'I' :: 'Q' :: 'U' :: 'E' :: ' ' :: '(' ::
        (joinCS cols ++ [')']) := by
    refine strip_eq_self _ ?_ ?_
    · intro d hd
      have hdc : 'U' = d := by simpa using hd
      subst hdc; decide
    · intro d hd
      rw [show ('U' :: 'N' :: 'I' :: 'Q' :: 'U' :: 'E' :: ' ' :: '(' ::
          (joinCS cols ++ [')']) : Str) =
          ('U' :: 'N' :: 'I' :: 'Q' :: 'U' :: 'E' :: ' ' :: '(' :: joinCS cols)
            ++ [')'] from by simp, List.getLast?_concat] at hd
      have hdc : ')' = d := by simpa using hd
      subst hdc; decide
  rw [hshape, gstep.eq_def]
  dsimp only
  rw [strip_indent, hstrip]
  rw [show (('U' :: 'N' :: 'I' :: 'Q' :: 'U' :: 'E' :: ' ' :: '(' ::
      (joinCS cols ++ [')'])) : Str).isEmpty = false from rfl]
  rw [show "--".toList.isPrefixOf ('U' :: 'N' :: 'I' :: 'Q' :: 'U' :: 'E' ::
      ' ' :: '(' :: (joinCS cols ++ [')'])) = false from by simp [List.isPrefixOf]]
  simp only [Bool.or_self, Bool.false_eq_true, if_false]
  rw [show " ".toList.isPrefixOf (' ' :: ' ' :: ('U' :: 'N' :: 'I' :: 'Q' ::
      'U' :: 'E' :: ' ' :: '(' :: (joinCS cols ++ [')']))) = true from by
      simp [List.isPrefixOf]]
  simp only [Bool.not_true, Bool.and_false, Bool.false_eq_true, if_false]
  rw [show "  UNIQUE".toList.isPrefixOf (' ' :: ' ' :: ('U' :: 'N' :: 'I' ::
      'Q' :: 'U' :: 'E' :: ' ' :: '(' :: (joinCS cols ++ [')']))) = true from by
      simp [List.isPrefixOf]]
  simp only [Bool.not_true, Bool.and_false, Bool.false_and, Bool.false_eq_true,
    if_false]
  rw [show "  FK (".toList.isPrefixOf (' ' :: ' ' :: ('U' :: 'N' :: 'I' :: 'Q' ::
      'U' :: 'E' :: ' ' :: '(' :: (joinCS cols ++ [')']))) = false from by
      simp [List.isPrefixOf]]
  simp only [Bool.false_eq_true, if_false]
  rw [show "  UNIQUE (".toList.isPrefixOf (' ' :: ' ' :: ('U' :: 'N' :: 'I' ::
      'Q' :: 'U' :: 'E' :: ' ' :: '(' :: (joinCS cols ++ [')']))) = true from by
      simp [List.isPrefixOf]]
  simp only [if_true]
  unfold gParseUnique
  rw [scanParenAfter_unique cols hne hok]
  dsimp only
  simp only [splitOn_joinCS cols hne hok]

theorem gstep_pk_line (g : GState) (tn : Str) (cols : List Str)
    (hne : cols ≠ []) (hok : ∀ w ∈ cols, okName w = true) :
    gstep (g, some tn) ("  PRIMARY KEY (".toList ++ joinCS cols ++ [')']) =
      ({ g with
          tables := updA tn (fun t =>
            { t with primary_keys := t.primary_keys ++ cols })
            g.tables }, some tn) := by
  have hshape : ("  PRIMARY KEY (".toList ++ joinCS cols ++ [')'] : Str) =
      ' ' :: ' ' :: ('P' :: 'R' :: 'I' :: 'M' :: 'A' :: 'R' :: 'Y' :: ' ' ::
        'K' :: 'E' :: 'Y' :: ' ' :: '(' :: (joinCS cols ++ [')'])) := by
    rw [show ("  PRIMARY KEY (".toList : Str) =
        [' ', ' ', 'P', 'R', 'I', 'M', 'A', 'R', 'Y', ' ', 'K', 'E', 'Y',
          ' ', '('] from rfl]
    simp [List.append_assoc]
  have hstrip : strip ('P' :: 'R' :: 'I' :: 'M' :: 'A' :: 'R' :: 'Y' :: ' ' ::
      'K' :: 'E' :: 'Y' :: ' ' :: '(' :: (joinCS cols ++ [')'])) =
      'P' :: 'R' :: 'I' :: 'M' :: 'A' :: 'R' :: 'Y' :: ' ' :: 'K' :: 'E' ::
        'Y' :: ' ' :: '(' :: (joinCS cols ++ [')']) := by
    refine strip_eq_self _ ?_ ?_
    · intro d hd
      have hdc : 'P' = d := by simpa using hd
      subst hdc; decide
    · intro d hd
      rw [show ('P' :: 'R' :: 'I' :: 'M' :: 'A' :: 'R' :: 'Y' :: ' ' :: 'K' ::
          'E' :: 'Y' :: ' ' :: '(' :: (joinCS cols ++ [')']) : Str) =
          ('P' :: 'R' :: 'I' :: 'M' :: 'A' :: 'R' :: 'Y' :: ' ' :: 'K' :: 'E' ::
            'Y' :: ' ' :: '(' :: joinCS cols) ++ [')'] from by simp,
          List.getLast?_concat] at hd
      have hdc : ')' = d := by simpa using hd
      subst hdc; decide
  rw [hshape, gstep.eq_def]
  dsimp only
  rw [strip_indent, hstrip]
  rw [show (('P' :: 'R' :: 'I' :: 'M' :: 'A' :: 'R' :: 'Y' :: ' ' :: 'K' ::
      'E' :: 'Y' :: ' ' :: '(' :: (joinCS cols ++ [')'])) : Str).isEmpty =
      false from rfl]
  rw [show "--".toList.isPrefixOf ('P' :: 'R' :: 'I' :: 'M' :: 'A' :: 'R' ::
      'Y' :: ' ' :: 'K' :: 'E' :: 'Y' :: ' ' :: '(' ::
      (joinCS cols ++ [')'])) = false from by simp [List.isPrefixOf]]
  simp only [Bool.or_self, Bool.false_eq_true, if_false]
  rw [show " ".toList.isPrefixOf (' ' :: ' ' :: ('P' :: 'R' :: 'I' :: 'M' ::
      'A' :: 'R' :: 'Y' :: ' ' :: 'K' :: 'E' :: 'Y' :: ' ' :: '(' ::
      (joinCS cols ++ [')']))) = true from by simp [List.isPrefixOf]]
  simp only [Bool.not_true, Bool.and_false, Bool.false_eq_true, if_false]
  rw [show "  PRIMARY".toList.isPrefixOf (' ' :: ' ' :: ('P' :: 'R' :: 'I' ::
      'M' :: 'A' :: 'R' :: 'Y' :: ' ' :: 'K' :: 'E' :: 'Y' :: ' ' :: '(' ::
      (joinCS cols ++ [')']))) = true from by simp [List.isPrefixOf]]
  simp only [Bool.not_true, Bool.and_false, Bool.false_and, Bool.false_eq_true,
    if_false]
  rw [show "  FK (".toList.isPrefixOf (' ' :: ' ' :: ('P' :: 'R' :: 'I' :: 'M' ::
      'A' :: 'R' :: 'Y' :: ' ' :: 'K' :: 'E' :: 'Y' :: ' ' :: '(' ::
      (joinCS cols ++ [')']))) = false from by simp [List.isPrefixOf]]
  simp only [Bool.false_eq_true, if_false]
  rw [show "  UNIQUE (".toList.isPrefixOf (' ' :: ' ' :: ('P' :: 'R' :: 'I' ::
      'M' :: 'A' :: 'R' :: 'Y' :: ' ' :: 'K' :: 'E' :: 'Y' :: ' ' :: '(' ::
      (joinCS cols ++ [')']))) = false from by simp [List.isPrefixOf]]
  simp only [Bool.false_eq_true, if_false]
  rw [show "  PRIMARY KEY (".toList.isPrefixOf (' ' :: ' ' :: ('P' :: 'R' ::
      'I' :: 'M' :: 'A' :: 'R' :: 'Y' :: ' ' :: 'K' :: 'E' :: 'Y' :: ' ' ::
      '(' :: (joinCS cols ++ [')']))) = true from by simp [List.isPrefixOf]]
  simp only [if_true]
  unfold gParsePk
  rw [scanParenAfter_pk cols hne hok]
  dsimp only
  simp only [splitOn_joinCS cols hne hok]

end Wtfk

namespace Wtfk

theorem idxLine_shape (ix : IndexInfo) :
    idxLine ix = ' ' :: ' ' :: ('I' :: 'D' :: 'X' :: ' ' :: '(' ::
      (joinCS ix.columns ++ ')' ::
        ((if ix.like_ops then " (LIKE)".toList else []) ++
         (if ix.unique then " UNIQUE".toList else [])))) := by
  unfold idxLine
  rw [show ("  IDX (".toList : Str) = [' ', ' ', 'I', 'D', 'X', ' ', '('] from rfl]
  simp [List.append_assoc]

theorem idx_sfx_last (lk uq : Bool) :
    ∀ d, ((')' :: ((if lk then " (LIKE)".toList else []) ++
        (if uq then " UNIQUE".toList else [])) : Str)).getLast? = some d →
      isWs d = false := by
  cases lk <;> cases uq <;> exact concrete_last rfl (by decide)

theorem strip_idxLine (ix : IndexInfo) :
    strip (idxLine ix) = 'I' :: 'D' :: 'X' :: ' ' :: '(' ::
      (joinCS ix.columns ++ ')' ::
        ((if ix.like_ops then " (LIKE)".toList else []) ++
         (if ix.unique then " UNIQUE".toList else []))) := by
  rw [idxLine_shape, strip_indent]
  refine strip_eq_self _ ?_ ?_
  · intro d hd
    have hdc : 'I' = d := by simpa using hd
    subst hdc; decide
  · intro d hd
    rw [show ('I' :: 'D' :: 'X' :: ' ' :: '(' ::
        (joinCS ix.columns ++ ')' ::
          ((if ix.like_ops then " (LIKE)".toList else []) ++
           (if ix.unique then " UNIQUE".toList else []))) : Str) =
        ('I' :: 'D' :: 'X' :: ' ' :: '(' :: joinCS ix.columns) ++
          (')' :: ((if ix.like_ops then " (LIKE)".toList else []) ++
            (if ix.unique then " UNIQUE".toList else []))) from by simp,
        getLast?_append_ne (by simp)] at hd
    exact idx_sfx_last ix.like_ops ix.unique d hd

theorem scanParenAfter_idx (cols : List Str) (sfx : Str) (hne : cols ≠ [])
    (hok : ∀ w ∈ cols, okName w = true) :
    scanParenAfter "IDX (".toList
      ('I' :: 'D' :: 'X' :: ' ' :: '(' :: (joinCS cols ++ ')' :: sfx)) =
      some (joinCS cols) := by
  rw [scanParenAfter]
  rw [show "IDX (".toList.isPrefixOf
      ('I' :: 'D' :: 'X' :: ' ' :: '(' :: (joinCS cols ++ ')' :: sfx)) = true
      from by simp [List.isPrefixOf]]
  simp only [if_true]
  rw [show (('I' :: 'D' :: 'X' :: ' ' :: '(' :: (joinCS cols ++ ')' :: sfx))
      : Str).drop ("IDX (".toList).length = joinCS cols ++ ')' :: sfx from rfl]
  rw [takeWhile_all_append _ _ _ _ (joinCS_mem_ok hok) (by decide),
      dropWhile_all_append _ _ _ _ (joinCS_mem_ok hok) (by decide)]
  simp [joinCS_isEmpty_false hne hok]

theorem gstep_idx_line (g : GState) (tn : Str) (ix : IndexInfo)
    (hne : ix.columns ≠ []) (hok : ∀ w ∈ ix.columns, okName w = true)
    (huq : containsL "UNIQUE".toList (upperL (strip (idxLine ix))) = ix.unique)
    (hlk : containsL "(LIKE)".toList (upperL (strip (idxLine ix))) =
      ix.like_ops) :
    gstep (g, some tn) (idxLine ix) =
      ({ g with
          tables := updA tn (fun t =>
            { t with indexes := t.indexes ++
              [{ columns := ix.columns, unique := ix.unique,
                 like_ops := ix.like_ops }] }) g.tables }, some tn) := by
  rw [strip_idxLine ix] at huq hlk
  have hstrip := strip_idxLine ix
  rw [idxLine_shape ix] at hstrip
  rw [idxLine_shape ix, gstep.eq_def]
  dsimp only
  rw [hstrip]
  rw [show (('I' :: 'D' :: 'X' :: ' ' :: '(' ::
      (joinCS ix.columns ++ ')' ::
        ((if ix.like_ops then " (LIKE)".toList else []) ++
         (if ix.unique then " UNIQUE".toList else [])))) : Str).isEmpty = false
      from rfl]
  rw [show "--".toList.isPrefixOf ('I' :: 'D' :: 'X' :: ' ' :: '(' ::
      (joinCS ix.columns ++ ')' ::
        ((if ix.like_ops then " (LIKE)".toList else []) ++
         (if ix.unique then " UNIQUE".toList else [])))) = false from by
      simp [List.isPrefixOf]]
  simp only [Bool.or_self, Bool.false_eq_true, if_false]
  rw [show " ".toList.isPrefixOf (' ' :: ' ' :: ('I' :: 'D' :: 'X' :: ' ' ::
      '(' :: (joinCS ix.columns ++ ')' ::
        ((if ix.like_ops then " (LIKE)".toList else []) ++
         (if ix.unique then " UNIQUE".toList else []))))) = true from by
      simp [List.isPrefixOf]]
  simp only [Bool.not_true, Bool.and_false, Bool.false_eq_true, if_false]
  rw [show "  IDX".toList.isPrefixOf (' ' :: ' ' :: ('I' :: 'D' :: 'X' :: ' ' ::
      '(' :: (joinCS ix.columns ++ ')' ::
        ((if ix.like_ops then " (LIKE)".toList else []) ++
         (if ix.unique then " UNIQUE".toList else []))))) = true from by
      simp [List.isPrefixOf]]
  simp only [Bool.not_true, Bool.and_false, Bool.false_and, Bool.false_eq_true,
    if_false]
  rw [show "  FK (".toList.isPrefixOf (' ' :: ' ' :: ('I' :: 'D' :: 'X' :: ' ' ::
      '(' :: (joinCS ix.columns ++ ')' ::
        ((if ix.like_ops then " (LIKE)".toList else []) ++
         (if ix.unique then " UNIQUE".toList else []))))) = false from by
      simp [List.isPrefixOf]]
  simp only [Bool.false_eq_true, if_false]
  rw [show "  UNIQUE (".toList.isPrefixOf (' ' :: ' ' :: ('I' :: 'D' :: 'X' ::
      ' ' :: '(' :: (joinCS ix.columns ++ ')' ::
        ((if ix.like_ops then " (LIKE)".toList else []) ++
         (if ix.unique then " UNIQUE".toList else []))))) = false from by
      simp [List.isPrefixOf]]
  simp only [Bool.false_eq_true, if_false]
  rw [show "  PRIMARY KEY (".toList.isPrefixOf (' ' :: ' ' :: ('I' :: 'D' ::
      'X' :: ' ' :: '(' :: (joinCS ix.columns ++ ')' ::
        ((if ix.like_ops then " (LIKE)".toList else []) ++
         (if ix.unique then " UNIQUE".toList else []))))) = false from by
      simp [List.isPrefixOf]]
  simp only [Bool.false_eq_true, if_false]
  rw [show "  IDX (".toList.isPrefixOf (' ' :: ' ' :: ('I' :: 'D' :: 'X' :: ' ' ::
      '(' :: (joinCS ix.columns ++ ')' ::
        ((if ix.like_ops then " (LIKE)".toList else []) ++
         (if ix.unique then " UNIQUE".toList else []))))) = true from by
      simp [List.isPrefixOf]]
  simp only [if_true]
  unfold gParseIndex
  rw [scanParenAfter_idx ix.columns _ hne hok]
  dsimp only
  simp only [splitOn_joinCS ix.columns hne hok, huq, hlk]

end Wtfk

namespace Wtfk

/-! ### Folding the compact-parser loop over a serialized table block -/

theorem updA_id {β : Type} (k : Str) (l : List (Str × β)) :
    updA k (fun v => v) l = l := by
  induction l with
  | nil => rfl
  | cons p t ih =>
    obtain ⟨k', v⟩ := p
    by_cases h : k' = k
    · simp [updA, h]
    · simp [updA, h, ih]

theorem updA_updA {β : Type} (k : Str) (f g : β → β) (l : List (Str × β)) :
    updA k f (updA k g l) = updA k (fun v => f (g v)) l := by
  induction l with
  | nil => rfl
  | cons p t ih =>
    obtain ⟨k', v⟩ := p
    by_cases h : k' = k
    · simp [updA, h]
    · simp [updA, h, ih]

theorem updA_setA {β : Type} (k : Str) (f : β → β) (v : β) (l : List (Str × β)) :
    updA k f (setA k v l) = setA k (f v) l := by
  induction l with
  | nil => simp [setA, updA]
  | cons p t ih =>
    obtain ⟨k', v'⟩ := p
    by_cases h : k' = k
    · subst h; simp [setA, updA]
    · simp [setA, updA, h, ih]

theorem setA_append_new {β : Type} (k : Str) (v : β) (l : List (Str × β))
    (h : k ∉ l.map Prod.fst) : setA k v l = l ++ [(k, v)] := by
  induction l with
  | nil => rfl
  | cons p t ih =>
    obtain ⟨k', v'⟩ := p
    simp only [List.map_cons, List.mem_cons] at h
    push_neg at h
    have hk : ¬ k' = k := fun he => h.1 he.symm
    simp only [setA, if_neg hk]
    rw [ih h.2, List.cons_append]

theorem colHyg_facts {p : Str × ColumnInfo} (h : colHyg p = true) :
    okName p.1 = true ∧ (p.2.auto_pk = false →
      okName p.2.type = true ∧
      (∀ dv, p.2.default = some dv → okTok dv = true) ∧
      containsL "NOT NULL".toList (upperL (colTail p.2)) = p.2.not_null) := by
  unfold colHyg at h
  rw [Bool.and_eq_true] at h
  refine ⟨h.1, fun hpk => ?_⟩
  have h2 := h.2
  rw [hpk] at h2
  simp only [Bool.false_eq_true, if_false] at h2
  rw [Bool.and_eq_true, Bool.and_eq_true] at h2
  obtain ⟨⟨ha, hb⟩, hc⟩ := h2
  refine ⟨ha, ?_, ?_⟩
  · intro dv hdv
    rw [hdv] at hb
    exact hb
  · exact beq_iff_eq.mp hc

theorem fold_col_lines (tn : Str) (cols : List (Str × ColumnInfo)) :
    ∀ g : GState,
    (∀ p ∈ cols, colHyg p = true) →
    (∀ p ∈ cols, goodLine (colLine p.1 p.2) = true) →
    List.foldl gstep (g, some tn) (cols.map (fun p => colLine p.1 p.2)) =
      ({ g with
          tables := updA tn (fun t => cols.foldl (fun a p => colUpd p a) t)
            g.tables }, some tn) := by
  induction cols with
  | nil =>
    intro g _ _
    simp only [List.map_nil, List.foldl_nil, updA_id]
  | cons p ps ih =>
    intro g h hgl
    obtain ⟨c, ci⟩ := p
    rw [List.map_cons, List.foldl_cons]
    have hch := colHyg_facts (h (c, ci) (List.mem_cons_self _ _))
    cases hpk : ci.auto_pk with
    | true =>
      rw [gstep_col_auto g tn c ci hch.1 hpk]
      rw [ih _ (fun q hq => h q (List.mem_cons_of_mem _ hq))
          (fun q hq => hgl q (List.mem_cons_of_mem _ hq))]
      rw [updA_updA]
      rfl
    | false =>
      obtain ⟨hty, hdef, hnn⟩ := hch.2 hpk
      rw [gstep_col_regular g tn c ci hch.1 hty hdef hnn hpk
          (hgl (c, ci) (List.mem_cons_self _ _))]
      rw [ih _ (fun q hq => h q (List.mem_cons_of_mem _ hq))
          (fun q hq => hgl q (List.mem_cons_of_mem _ hq))]
      rw [updA_updA]
      rfl

end Wtfk

namespace Wtfk

theorem idxHyg_facts {ix : IndexInfo} (h : idxHyg ix = true) :
    ix.columns ≠ [] ∧ (∀ w ∈ ix.columns, okName w = true) ∧
    containsL "UNIQUE".toList (upperL (strip (idxLine ix))) = ix.unique ∧
    containsL "(LIKE)".toList (upperL (strip (idxLine ix))) = ix.like_ops := by
  unfold idxHyg at h
  rw [Bool.and_eq_true, Bool.and_eq_true, Bool.and_eq_true] at h
  obtain ⟨⟨⟨h1, h2⟩, h3⟩, h4⟩ := h
  refine ⟨?_, List.all_eq_true.mp h2, beq_iff_eq.mp h3, beq_iff_eq.mp h4⟩
  intro he
  rw [he] at h1
  exact absurd h1 (by decide)

theorem fold_idx_lines (tn : Str) (ixs : List IndexInfo) :
    ∀ g : GState, (∀ ix ∈ ixs, idxHyg ix = true) →
    List.foldl gstep (g, some tn) (ixs.map idxLine) =
      ({ g with
          tables := updA tn (fun t => ixs.foldl (fun a ix => idxUpd ix a) t)
            g.tables }, some tn) := by
  induction ixs with
  | nil =>
    intro g _
    simp only [List.map_nil, List.foldl_nil, updA_id]
  | cons ix ixs ih =>
    intro g h
    obtain ⟨h1, h2, h3, h4⟩ := idxHyg_facts (h ix (List.mem_cons_self _ _))
    rw [List.map_cons, List.foldl_cons, gstep_idx_line g tn ix h1 h2 h3 h4]
    rw [ih _ (fun q hq => h q (List.mem_cons_of_mem _ hq)), updA_updA]
    rfl

theorem fkRef_total {rcs : List Str} (hne : rcs ≠ []) (i : Nat) :
    ∃ r, fkRef rcs i = some r ∧ r ∈ rcs := by
  unfold fkRef
  by_cases h : i < rcs.length
  · rw [if_pos h]
    refine ⟨rcs.get ⟨i, h⟩, ?_, List.get_mem _ _ _⟩
    simp [pyGet, List.get?_eq_get h]
  · rw [if_neg h]
    cases rcs with
    | nil => exact absurd rfl hne
    | cons a t => exact ⟨a, rfl, List.mem_cons_self _ _⟩

theorem fold_fk_lines (tn rt : Str) (rcs : List Str) (dfr : Bool)
    (hrt : okName rt = true) (hrcs : ∀ w ∈ rcs, okName w = true)
    (hrcsne : rcs ≠ []) :
    ∀ (lcs : List Str) (i : Nat) (ls : List Str) (g : GState),
      (∀ w ∈ lcs, okName w = true) →
      fkLinesAux rt rcs dfr i lcs = some ls →
      (∀ l ∈ ls, containsL "DEFERRABLE".toList (upperL (strip l)) = dfr) →
      List.foldl gstep (g, some tn) ls =
        ({ g with
            tables := updA tn (fun t =>
              { t with foreign_keys :=
                t.foreign_keys ++ fkPairs tn rt rcs dfr i lcs }) g.tables,
            relationships := g.relationships ++ fkPairs tn rt rcs dfr i lcs },
          some tn) := by
  intro lcs
  induction lcs with
  | nil =>
    intro i ls g _ hls _
    rw [fkLinesAux] at hls
    injection hls with hls
    subst hls
    rw [List.foldl_nil]
    show (g, some tn) = _
    rw [show fkPairs tn rt rcs dfr i [] = [] from rfl]
    rw [List.append_nil]
    have hfun : (fun t : GTable =>
        { t with foreign_keys := t.foreign_keys ++ [] }) = (fun t => t) := by
      funext t
      rw [List.append_nil]
    rw [hfun, updA_id]
  | cons lc lcs ih =>
    intro i ls g hok hls hdfr
    obtain ⟨r, hr, hrm⟩ := fkRef_total hrcsne i
    rw [fkLinesAux, hr] at hls
    cases hrec : fkLinesAux rt rcs dfr (i + 1) lcs with
    | none =>
      rw [hrec] at hls
      exact absurd hls (by simp)
    | some rest =>
      rw [hrec] at hls
      injection hls with hls
      subst hls
      rw [List.foldl_cons]
      rw [gstep_fk_line g tn lc rt r dfr (hok lc (List.mem_cons_self _ _)) hrt
          (hrcs r hrm) (hdfr _ (List.mem_cons_self _ _))]
      rw [ih (i + 1) rest _ (fun w hw => hok w (List.mem_cons_of_mem _ hw)) hrec
          (fun l hl => hdfr l (List.mem_cons_of_mem _ hl))]
      rw [updA_updA]
      rw [show fkPairs tn rt rcs dfr i (lc :: lcs) =
          { from_table := tn, from_column := lc, to_table := rt,
            to_column := (fkRef rcs i).getD [], deferrable := dfr } ::
            fkPairs tn rt rcs dfr (i + 1) lcs from rfl]
      rw [hr]
      simp only [Option.getD_some]
      have hfun : (fun v : GTable =>
          { (({ v with foreign_keys := v.foreign_keys ++ [mkFk tn lc rt r dfr] })
              : GTable) with
            foreign_keys :=
              ({ v with foreign_keys := v.foreign_keys ++ [mkFk tn lc rt r dfr] }
                : GTable).foreign_keys ++ fkPairs tn rt rcs dfr (i + 1) lcs }) =
          (fun t : GTable =>
          { t with foreign_keys := t.foreign_keys ++
              (mkFk tn lc rt r dfr :: fkPairs tn rt rcs dfr (i + 1) lcs) }) := by
        funext v
        simp [List.append_assoc]
      rw [hfun]
      simp [mkFk, List.append_assoc]

end Wtfk

namespace Wtfk

theorem consHyg_pk_facts {cols : List Str}
    (h : consHyg (Constraint.primaryKey cols) = true) :
    cols ≠ [] ∧ ∀ w ∈ cols, okName w = true := by
  unfold consHyg at h
  rw [Bool.and_eq_true] at h
  refine ⟨?_, List.all_eq_true.mp h.2⟩
  intro he
  rw [he] at h
  exact absurd h.1 (by decide)

theorem consHyg_unique_facts {cols : List Str}
    (h : consHyg (Constraint.unique cols) = true) :
    cols ≠ [] ∧ ∀ w ∈ cols, okName w = true := by
  unfold consHyg at h
  rw [Bool.and_eq_true] at h
  refine ⟨?_, List.all_eq_true.mp h.2⟩
  intro he
  rw [he] at h
  exact absurd h.1 (by decide)

theorem consHyg_fk_facts {lcs rcs : List Str} {rt : Str} {dfr : Bool}
    (h : consHyg (Constraint.foreignKey lcs rt rcs dfr) = true) :
    lcs ≠ [] ∧ rcs ≠ [] ∧ (∀ w ∈ lcs, okName w = true) ∧ okName rt = true ∧
    (∀ w ∈ rcs, okName w = true) ∧
    ∃ ls, fkLinesAux rt rcs dfr 0 lcs = some ls ∧
      ∀ l ∈ ls, containsL "DEFERRABLE".toList (upperL (strip l)) = dfr := by
  unfold consHyg at h
  rw [Bool.and_eq_true, Bool.and_eq_true, Bool.and_eq_true, Bool.and_eq_true,
      Bool.and_eq_true] at h
  obtain ⟨⟨⟨⟨⟨h1, h2⟩, h3⟩, h4⟩, h5⟩, h6⟩ := h
  refine ⟨?_, ?_, List.all_eq_true.mp h3, h4, List.all_eq_true.mp h5, ?_⟩
  · intro he; rw [he] at h1; exact absurd h1 (by decide)
  · intro he; rw [he] at h2; exact absurd h2 (by decide)
  · cases hf : fkLinesAux rt rcs dfr 0 lcs with
    | none =>
      rw [hf] at h6
      have h6' : false = true := h6
      exact absurd h6' (by decide)
    | some ls =>
      rw [hf] at h6
      refine ⟨ls, rfl, ?_⟩
      intro l hl
      exact beq_iff_eq.mp (List.all_eq_true.mp h6 l hl)

theorem fold_cons_lines (tn : Str) (c : Constraint) (g : GState)
    (hc : consHyg c = true) (ls : List Str) (hls : constraintLines c = some ls) :
    List.foldl gstep (g, some tn) ls =
      ({ g with
          tables := updA tn (consUpd tn c) g.tables,
          relationships := g.relationships ++ consFks tn c }, some tn) := by
  cases c with
  | primaryKey cols =>
    obtain ⟨h1, h2⟩ := consHyg_pk_facts hc
    have hls' : some ["  PRIMARY KEY (".toList ++ joinCS cols ++ [')']] =
        some ls := hls
    injection hls' with hls'
    subst hls'
    rw [List.foldl_cons, List.foldl_nil, gstep_pk_line g tn cols h1 h2]
    rw [show consFks tn (Constraint.primaryKey cols) = [] from rfl,
        List.append_nil]
    rfl
  | unique cols =>
    obtain ⟨h1, h2⟩ := consHyg_unique_facts hc
    have hls' : some ["  UNIQUE (".toList ++ joinCS cols ++ [')']] =
        some ls := hls
    injection hls' with hls'
    subst hls'
    rw [List.foldl_cons, List.foldl_nil, gstep_unique_line g tn cols h1 h2]
    rw [show consFks tn (Constraint.unique cols) = [] from rfl,
        List.append_nil]
    rfl
  | foreignKey lcs rt rcs dfr =>
    obtain ⟨h1, h2, h3, h4, h5, ls', hf, hflag⟩ := consHyg_fk_facts hc
    have hls' : fkLinesAux rt rcs dfr 0 lcs = some ls := hls
    rw [hf] at hls'
    injection hls' with hls'
    subst hls'
    rw [fold_fk_lines tn rt rcs dfr h4 h5 h2 lcs 0 ls' g h3 hf hflag]
    rfl

theorem fold_cons_blocks (tn : Str) (cs : List Constraint) :
    ∀ (g : GState) (ls : List Str),
      (∀ c ∈ cs, consHyg c = true) →
      optConcatMap constraintLines cs = some ls →
      List.foldl gstep (g, some tn) ls =
        ({ g with
            tables := updA tn (fun t => cs.foldl (fun a c => consUpd tn c a) t)
              g.tables,
            relationships := g.relationships ++ (cs.map (consFks tn)).flatten },
          some tn) := by
  induction cs with
  | nil =>
    intro g ls _ hls
    have hls' : some ([] : List Str) = some ls := hls
    injection hls' with hls'
    subst hls'
    rw [List.foldl_nil]
    simp only [List.foldl_nil, updA_id, List.map_nil, List.flatten_nil,
      List.append_nil]
  | cons c cs ih =>
    intro g ls h hls
    cases hfc : constraintLines c with
    | none =>
      rw [optConcatMap, hfc] at hls
      exact absurd hls (by simp)
    | some bs =>
      cases hrest : optConcatMap constraintLines cs with
      | none =>
        rw [optConcatMap, hfc, hrest] at hls
        exact absurd hls (by simp)
      | some rest =>
        rw [optConcatMap, hfc, hrest] at hls
        have hls' : some (bs ++ rest) = some ls := hls
        injection hls' with hls'
        subst hls'
        rw [List.foldl_append]
        rw [fold_cons_lines tn c g (h c (List.mem_cons_self _ _)) bs hfc]
        rw [ih _ rest (fun q hq => h q (List.mem_cons_of_mem _ hq)) hrest]
        rw [updA_updA]
        rw [show ((c :: cs).map (consFks tn)).flatten =
            consFks tn c ++ (cs.map (consFks tn)).flatten from by
          rw [List.map_cons, List.flatten_cons]]
        rw [← List.append_assoc]
        rfl

end Wtfk

namespace Wtfk

theorem tableHyg_facts {n : Str} {t : TableInfo} (h : tableHyg n t = true) :
    okName n = true ∧ (∀ p ∈ t.columns, colHyg p = true) ∧
    (∀ c ∈ t.constraints, consHyg c = true) ∧
    (∀ ix ∈ t.indexes, idxHyg ix = true) ∧
    ∃ b, tableLines n t = some b ∧ ∀ l ∈ b.dropLast, goodLine l = true := by
  unfold tableHyg at h
  rw [Bool.and_eq_true, Bool.and_eq_true, Bool.and_eq_true,
      Bool.and_eq_true] at h
  obtain ⟨⟨⟨⟨h1, h2⟩, h3⟩, h4⟩, h5⟩ := h
  refine ⟨h1, List.all_eq_true.mp h2, List.all_eq_true.mp h3,
    List.all_eq_true.mp h4, ?_⟩
  cases hb : tableLines n t with
  | none =>
    rw [hb] at h5
    have h5' : false = true := h5
    exact absurd h5' (by decide)
  | some b =>
    rw [hb] at h5
    exact ⟨b, rfl, List.all_eq_true.mp h5⟩

theorem fold_table_block (g : GState) (ct : Option Str) (n : Str)
    (t : TableInfo) (hh : tableHyg n t = true) (b : List Str)
    (hb : tableLines n t = some b) :
    List.foldl gstep (g, ct) b =
      ({ g with
          tables := setA n (gImage n t) g.tables,
          relationships := g.relationships ++ tableFks n t }, some n) := by
  obtain ⟨hn, hcols, hcons, hidx, b', hb', hgood⟩ := tableHyg_facts hh
  rw [hb] at hb'
  injection hb' with hb'
  subst hb'
  unfold tableLines at hb
  cases hoc : optConcatMap constraintLines t.constraints with
  | none =>
    rw [hoc] at hb
    exact absurd hb (by simp)
  | some consLs =>
    rw [hoc] at hb
    have hb2 : some ((n ++ [':']) ::
        (t.columns.map (fun p => colLine p.1 p.2) ++ consLs ++
          t.indexes.map idxLine ++ [[]])) = some b := hb
    injection hb2 with hb2
    subst hb2
    have hdl : (((n ++ [':']) ::
        (t.columns.map (fun p => colLine p.1 p.2) ++ consLs ++
          t.indexes.map idxLine ++ [[]])) : List Str).dropLast =
        (n ++ [':']) :: (t.columns.map (fun p => colLine p.1 p.2) ++ consLs ++
          t.indexes.map idxLine) := by
      rw [show ((n ++ [':']) ::
          (t.columns.map (fun p => colLine p.1 p.2) ++ consLs ++
            t.indexes.map idxLine ++ [[]]) : List Str) =
          ((n ++ [':']) :: (t.columns.map (fun p => colLine p.1 p.2) ++ consLs ++
            t.indexes.map idxLine)) ++ [[]] from by simp [List.append_assoc]]
      rw [List.dropLast_concat]
    have hgoodcols : ∀ p ∈ t.columns, goodLine (colLine p.1 p.2) = true := by
      intro p hp
      apply hgood
      rw [hdl]
      exact List.mem_cons_of_mem _ (List.mem_append_left _
        (List.mem_append_left _ (List.mem_map_of_mem _ hp)))
    rw [List.foldl_cons, gstep_header g ct n hn]
    rw [show (t.columns.map (fun p => colLine p.1 p.2) ++ consLs ++
        t.indexes.map idxLine ++ [[]] : List Str) =
        t.columns.map (fun p => colLine p.1 p.2) ++ (consLs ++
          (t.indexes.map idxLine ++ [[]])) from by simp [List.append_assoc]]
    rw [List.foldl_append]
    rw [fold_col_lines n t.columns _ hcols hgoodcols]
    rw [List.foldl_append]
    rw [fold_cons_blocks n t.constraints _ consLs hcons hoc]
    rw [List.foldl_append]
    rw [fold_idx_lines n t.indexes _ hidx]
    rw [List.foldl_cons, gstep_blank, List.foldl_nil]
    rw [updA_updA, updA_updA, updA_setA]
    rfl

end Wtfk

namespace Wtfk

theorem keysDistinct_cons {k : Str} {t : List Str}
    (h : keysDistinct (k :: t) = true) : (k ∉ t) ∧ keysDistinct t = true := by
  unfold keysDistinct at h
  rw [Bool.and_eq_true] at h
  refine ⟨?_, h.2⟩
  intro hm
  have hc : t.contains k = true := List.elem_iff.mpr hm
  rw [hc] at h
  exact absurd h.1 (by decide)

theorem fold_blocks (ts : List (Str × TableInfo)) :
    ∀ (g : GState) (ct : Option Str) (ls : List Str),
      (∀ p ∈ ts, tableHyg p.1 p.2 = true) →
      optConcatMap (fun p => tableLines p.1 p.2) ts = some ls →
      (∀ p ∈ ts, p.1 ∉ g.tables.map Prod.fst) →
      keysDistinct (ts.map Prod.fst) = true →
      ∃ ct', List.foldl gstep (g, ct) ls =
        ({ g with
            tables := g.tables ++ ts.map (fun p => (p.1, gImage p.1 p.2)),
            relationships := g.relationships ++
              (ts.map (fun p => tableFks p.1 p.2)).flatten }, ct') := by
  induction ts with
  | nil =>
    intro g ct ls _ hls _ _
    have hls' : some ([] : List Str) = some ls := hls
    injection hls' with hls'
    subst hls'
    exact ⟨ct, by simp⟩
  | cons p ts ih =>
    intro g ct ls h hls hnew hkd
    obtain ⟨n, t⟩ := p
    cases hfb : tableLines n t with
    | none =>
      rw [optConcatMap] at hls
      dsimp only at hls
      rw [hfb] at hls
      exact absurd hls (by simp)
    | some b =>
      cases hrest : optConcatMap (fun p => tableLines p.1 p.2) ts with
      | none =>
        rw [optConcatMap] at hls
        dsimp only at hls
        rw [hfb, hrest] at hls
        exact absurd hls (by simp)
      | some rest =>
        rw [optConcatMap] at hls
        dsimp only at hls
        rw [hfb, hrest] at hls
        have hls' : some (b ++ rest) = some ls := hls
        injection hls' with hls'
        subst hls'
        rw [List.foldl_append]
        rw [fold_table_block g ct n t (h (n, t) (List.mem_cons_self _ _)) b hfb]
        have hkd' : keysDistinct (n :: ts.map Prod.fst) = true := by
          simpa using hkd
        obtain ⟨hkd1, hkd2⟩ := keysDistinct_cons hkd'
        rw [setA_append_new n (gImage n t) g.tables
            (hnew (n, t) (List.mem_cons_self _ _))]
        have hnew2 : ∀ q ∈ ts, q.1 ∉
            ((g.tables ++ [(n, gImage n t)]).map Prod.fst) := by
          intro q hq
          rw [List.map_append]
          intro hm
          rcases List.mem_append.mp hm with hm1 | hm2
          · exact hnew q (List.mem_cons_of_mem _ hq) hm1
          · have hqn : q.1 = n := by simpa using hm2
            exact hkd1 (hqn ▸ List.mem_map_of_mem Prod.fst hq)
        obtain ⟨ct', hrec⟩ := ih
          { g with
              tables := g.tables ++ [(n, gImage n t)],
              relationships := g.relationships ++ tableFks n t }
          (some n) rest (fun q hq => h q (List.mem_cons_of_mem _ hq)) hrest
          hnew2 hkd2
        rw [hrec]
        refine ⟨ct', ?_⟩
        simp [List.append_assoc]

end Wtfk

namespace Wtfk

theorem gstep_blank_pair (x : GState × Option Str) : gstep x [] = x := by
  obtain ⟨g, ct⟩ := x
  rfl

theorem optConcatMap_total {α : Type} (f : α → Option (List Str)) :
    ∀ l : List α, (∀ a ∈ l, ∃ b, f a = some b) →
      ∃ ls, optConcatMap f l = some ls := by
  intro l
  induction l with
  | nil => exact fun _ => ⟨[], rfl⟩
  | cons a t ih =>
    intro h
    obtain ⟨b, hb⟩ := h a (List.mem_cons_self _ _)
    obtain ⟨rest, hrest⟩ := ih fun x hx => h x (List.mem_cons_of_mem _ hx)
    refine ⟨b ++ rest, ?_⟩
    rw [optConcatMap, hb, hrest]

theorem tableLines_shape {n : Str} {t : TableInfo} {b : List Str}
    (hb : tableLines n t = some b) :
    ∃ X, b = X ++ [[]] ∧ X ≠ [] ∧ b.dropLast = X := by
  unfold tableLines at hb
  cases hoc : optConcatMap constraintLines t.constraints with
  | none =>
    rw [hoc] at hb
    exact absurd hb (by simp)
  | some consLs =>
    rw [hoc] at hb
    have hb2 : some ((n ++ [':']) ::
        (t.columns.map (fun p => colLine p.1 p.2) ++ consLs ++
          t.indexes.map idxLine ++ [[]])) = some b := hb
    injection hb2 with hb2
    subst hb2
    refine ⟨(n ++ [':']) :: (t.columns.map (fun p => colLine p.1 p.2) ++ consLs ++
      t.indexes.map idxLine), ?_, by simp, ?_⟩
    · simp [List.append_assoc]
    · rw [show ((n ++ [':']) ::
          (t.columns.map (fun p => colLine p.1 p.2) ++ consLs ++
            t.indexes.map idxLine ++ [[]]) : List Str) =
          ((n ++ [':']) :: (t.columns.map (fun p => colLine p.1 p.2) ++ consLs ++
            t.indexes.map idxLine)) ++ [[]] from by simp [List.append_assoc]]
      rw [List.dropLast_concat]

theorem blocks_shape (ts : List (Str × TableInfo)) :
    ∀ ls, (∀ p ∈ ts, tableHyg p.1 p.2 = true) →
      optConcatMap (fun p => tableLines p.1 p.2) ts = some ls →
      (∀ l ∈ ls, '\n' ∉ l) ∧
      (ts ≠ [] → ∃ C w, ls = C ++ [w, []] ∧ goodLine w = true) := by
  induction ts with
  | nil =>
    intro ls _ hls
    have hls' : some ([] : List Str) = some ls := hls
    injection hls' with hls'
    subst hls'
    exact ⟨by simp, fun h => absurd rfl h⟩
  | cons p ts ih =>
    intro ls h hls
    obtain ⟨n, t⟩ := p
    cases hfb : tableLines n t with
    | none =>
      rw [optConcatMap] at hls
      dsimp only at hls
      rw [hfb] at hls
      exact absurd hls (by simp)
    | some b =>
      cases hrest : optConcatMap (fun p => tableLines p.1 p.2) ts with
      | none =>
        rw [optConcatMap] at hls
        dsimp only at hls
        rw [hfb, hrest] at hls
        exact absurd hls (by simp)
      | some rest =>
        rw [optConcatMap] at hls
        dsimp only at hls
        rw [hfb, hrest] at hls
        have hls' : some (b ++ rest) = some ls := hls
        injection hls' with hls'
        subst hls'
        obtain ⟨_, _, _, _, b', hb', hgood⟩ :=
          tableHyg_facts (h (n, t) (List.mem_cons_self _ _))
        rw [hfb] at hb'
        injection hb' with hb'
        subst hb'
        obtain ⟨X, hX, hXne, hXdl⟩ := tableLines_shape hfb
        rw [hXdl] at hgood
        have hbnl : ∀ l ∈ b, '\n' ∉ l := by
          intro l hl
          rw [hX] at hl
          rcases List.mem_append.mp hl with h1 | h2
          · exact (goodLine_facts (hgood l h1)).2.1
          · have : l = [] := by simpa using h2
            subst this
            simp
        obtain ⟨ihnl, ihshape⟩ := ih rest
          (fun q hq => h q (List.mem_cons_of_mem _ hq)) hrest
        constructor
        · intro l hl
          rcases List.mem_append.mp hl with h1 | h2
          · exact hbnl l h1
          · exact ihnl l h2
        · intro _
          cases hts : ts with
          | nil =>
            subst hts
            have hre : rest = [] := by
              have : some ([] : List Str) = some rest := hrest
              injection this with this
              exact this.symm
            subst hre
            refine ⟨X.dropLast, X.getLast hXne, ?_, ?_⟩
            · rw [List.append_nil, hX]
              conv_lhs => rw [← List.dropLast_append_getLast hXne]
              simp
            · exact hgood _ (List.getLast_mem hXne)
          | cons q ts2 =>
            obtain ⟨C, w, hCw, hw⟩ := ihshape (by simp [hts])
            refine ⟨b ++ C, w, ?_, hw⟩
            rw [hCw]
            simp [List.append_assoc]

end Wtfk

namespace Wtfk

theorem hygienic_facts {s : CState} (h : hygienic s = true) :
    goodLine (headerLine s) = true ∧
    keysDistinct (s.tables.map Prod.fst) = true ∧
    ∀ p ∈ s.tables, tableHyg p.1 p.2 = true := by
  unfold hygienic at h
  rw [Bool.and_eq_true, Bool.and_eq_true] at h
  exact ⟨h.1.1, h.1.2, List.all_eq_true.mp h.2⟩

theorem headerLine_cons (s : CState) : ∃ r, headerLine s = '-' :: '-' :: r :=
  ⟨_, rfl⟩

theorem gstep_headerLine (s : CState) (g : GState) (ct : Option Str)
    (hg : goodLine (headerLine s) = true) :
    gstep (g, ct) (headerLine s) = (g, ct) := by
  obtain ⟨r, hr⟩ := headerLine_cons s
  have hstrip : strip (headerLine s) = headerLine s := by
    refine strip_eq_self _ ?_ ?_
    · intro d hd
      rw [hr] at hd
      have hdc : '-' = d := by simpa using hd
      subst hdc; decide
    · intro d hd
      have h3 := (goodLine_facts hg).2.2
      rw [List.getLastD_eq_getLast?, hd] at h3
      simpa using h3
  rw [gstep.eq_def]
  dsimp only
  rw [hstrip]
  have hpre : "--".toList.isPrefixOf (headerLine s) = true := by
    rw [hr]
    simp [List.isPrefixOf]
  rw [hpre]
  simp only [Bool.or_true, if_true]

/-- C1 (amended): for every sanitized schema model — lowercase
word-character table, column, and type names; nonempty column lists on all
constraints and indexes; default tokens from the serialized-token character
class; serialized lines that are newline-free, do not end in whitespace, and
whose keyword tests (`NOT NULL`, `DEFERRABLE`, `UNIQUE`, `(LIKE)`) read back
exactly the flags that produced them; and distinct table names — serializing
with `generate_compressed_schema` and re-parsing with
`parse_compressed_schema` succeeds and yields exactly the expected image:
the same table names in the same order; per table the column names in
declaration order; the type counter counting each declared type (auto-PK
columns as `integer`); required/nullable counts matching the NOT NULL flags
(auto-PK columns counted required); the primary-key, unique-constraint and
index sets; and each FOREIGN KEY decomposed into its documented per-column
pairs, both per table and in the global relationship list. -/
theorem compact_roundtrip (s : CState) (h : hygienic s = true) :
    ∃ txt, generateCompressedSchema s = some txt ∧
      parseCompressedSchema txt = gExpected s := by
  obtain ⟨hgh, hkd, hall⟩ := hygienic_facts h
  obtain ⟨B, hB⟩ := optConcatMap_total (fun p => tableLines p.1 p.2) s.tables
    (fun p hp => by
      obtain ⟨_, _, _, _, b, hb, _⟩ := tableHyg_facts (hall p hp)
      exact ⟨b, hb⟩)
  have hgl : generateLines s = some (headerLine s :: [] :: B) := by
    unfold generateLines
    rw [hB]
  refine ⟨joinNl (headerLine s :: [] :: B), ?_, ?_⟩
  · unfold generateCompressedSchema
    rw [hgl]
    rfl
  obtain ⟨hnl, hshape⟩ := blocks_shape s.tables B hall hB
  unfold parseCompressedSchema
  cases hts : s.tables with
  | nil =>
    have hBnil : B = [] := by
      rw [hts] at hB
      have hB' : some ([] : List Str) = some B := hB
      injection hB' with hB'
      exact hB'.symm
    subst hBnil
    rw [show joinNl [headerLine s, ([] : Str)] = headerLine s ++ ['\n'] from rfl]
    obtain ⟨r, hr⟩ := headerLine_cons s
    have hstr : strip (headerLine s ++ ['\n']) = headerLine s := by
      unfold strip
      have hl : lstrip (headerLine s ++ ['\n']) = headerLine s ++ ['\n'] := by
        rw [hr, List.cons_append]
        exact lstrip_eq_self_head _ _ (by decide)
      rw [hl]
      unfold rstripWs
      rw [List.reverse_append, show (['\n'] : Str).reverse = ['\n'] from rfl,
          List.singleton_append, List.dropWhile_cons]
      rw [show isWs '\n' = true from rfl]
      simp only [if_true]
      have hdw : (headerLine s).reverse.dropWhile isWs =
          (headerLine s).reverse := by
        cases hrev : (headerLine s).reverse with
        | nil => rfl
        | cons c t =>
          have hc : (headerLine s).getLast? = some c := by
            rw [← List.head?_reverse, hrev]; rfl
          have h3 := (goodLine_facts hgh).2.2
          rw [List.getLastD_eq_getLast?, hc] at h3
          rw [List.dropWhile_cons]
          simp only [Option.getD_some] at h3
          rw [h3]
          simp
      rw [hdw, List.reverse_reverse]
    rw [hstr]
    rw [splitOn_no_sep '\n' (headerLine s) (goodLine_facts hgh).2.1]
    unfold parseCompactLines
    rw [List.foldl_cons, gstep_headerLine s emptyGState none hgh,
        List.foldl_nil]
    unfold gExpected
    rw [hts]
    rfl
  | cons p ts =>
    obtain ⟨C, w, hCw, hw⟩ := hshape (by rw [hts]; simp)
    subst hCw
    have hwne : w ≠ [] := (goodLine_facts hw).1
    have hjoin : joinNl (headerLine s :: [] :: (C ++ [w, []])) =
        joinNl (headerLine s :: [] :: (C ++ [w])) ++ ['\n'] := by
      rw [show (headerLine s :: [] :: (C ++ [w, []]) : List Str) =
          (headerLine s :: [] :: (C ++ [w])) ++ [[]] from by simp]
      rw [joinNl_append _ _ (by simp) (by simp)]
      rfl
    rw [hjoin]
    have hlastJ : (joinNl (headerLine s :: [] :: (C ++ [w]))).getLast? =
        w.getLast? := by
      rw [show (headerLine s :: [] :: (C ++ [w]) : List Str) =
          (headerLine s :: [] :: C) ++ [w] from by simp]
      rw [joinNl_append _ _ (by simp) (by simp)]
      rw [show ('\n' :: joinNl [w] : Str) = ['\n'] ++ w from rfl]
      rw [getLast?_append_ne (by simp), getLast?_append_ne hwne]
    obtain ⟨r, hr⟩ := headerLine_cons s
    have hstr : strip (joinNl (headerLine s :: [] :: (C ++ [w])) ++ ['\n']) =
        joinNl (headerLine s :: [] :: (C ++ [w])) := by
      unfold strip
      have hl : lstrip (joinNl (headerLine s :: [] :: (C ++ [w])) ++ ['\n']) =
          joinNl (headerLine s :: [] :: (C ++ [w])) ++ ['\n'] := by
        rw [show joinNl (headerLine s :: [] :: (C ++ [w])) =
            headerLine s ++ '\n' :: joinNl ([] :: (C ++ [w])) from rfl]
        rw [hr, List.cons_append, List.cons_append, List.cons_append]
        exact lstrip_eq_self_head _ _ (by decide)
      rw [hl]
      unfold rstripWs
      rw [List.reverse_append, show (['\n'] : Str).reverse = ['\n'] from rfl,
          List.singleton_append, List.dropWhile_cons]
      rw [show isWs '\n' = true from rfl]
      simp only [if_true]
      have hdw : (joinNl (headerLine s :: [] :: (C ++ [w]))).reverse.dropWhile
          isWs = (joinNl (headerLine s :: [] :: (C ++ [w]))).reverse := by
        cases hrev : (joinNl (headerLine s :: [] :: (C ++ [w]))).reverse with
        | nil => rfl
        | cons c t =>
          have hc : (joinNl (headerLine s :: [] :: (C ++ [w]))).getLast? =
              some c := by
            rw [← List.head?_reverse, hrev]; rfl
          rw [hlastJ] at hc
          have h3 := (goodLine_facts hw).2.2
          rw [List.getLastD_eq_getLast?, hc] at h3
          rw [List.dropWhile_cons]
          simp only [Option.getD_some] at h3
          rw [h3]
          simp
      rw [hdw, List.reverse_reverse]
    rw [hstr]
    rw [splitOn_joinNl _ (by simp) ?hnlys]
    case hnlys =>
      intro l hl
      rcases List.mem_cons.mp hl with rfl | hl2
      · exact (goodLine_facts hgh).2.1
      · rcases List.mem_cons.mp hl2 with rfl | hl3
        · simp
        · rcases List.mem_append.mp hl3 with hl4 | hl5
          · refine hnl l ?_
            exact List.mem_append.mpr (Or.inl hl4)
          · have hlw : l = w := by simpa using hl5
            subst hlw
            exact (goodLine_facts hw).2.1
    unfold parseCompactLines
    rw [List.foldl_cons, gstep_headerLine s emptyGState none hgh]
    rw [List.foldl_cons, gstep_blank]
    obtain ⟨ct', hfold⟩ := fold_blocks s.tables emptyGState none (C ++ [w, []])
      hall hB (by intro q hq; simp [emptyGState]) hkd
    have hfold2 : List.foldl gstep (emptyGState, none) (C ++ [w, []]) =
        List.foldl gstep (emptyGState, none) (C ++ [w]) := by
      rw [show (C ++ [w, []] : List Str) = (C ++ [w]) ++ [[]] from by simp,
          List.foldl_append]
      rw [List.foldl_cons, gstep_blank_pair, List.foldl_nil]
    rw [← hfold2, hfold]
    rfl

end Wtfk

namespace Wtfk

theorem compact_roundtrip_witness :
    hygienic (parseSchema
      ["CREATE TABLE users (".toList, "    id integer NOT NULL,".toList,
       "    name text NOT NULL,".toList, "    email text,".toList,
       "    created timestamp DEFAULT now()".toList, ");".toList,
       "CREATE SEQUENCE users_id_seq;".toList,
       "ALTER SEQUENCE users_id_seq OWNED BY users.id;".toList,
       "ALTER TABLE ONLY users ADD CONSTRAINT users_pkey PRIMARY KEY (id);".toList,
       "CREATE TABLE posts (".toList, "    id integer NOT NULL,".toList,
       "    author_id integer NOT NULL,".toList, "    slug text".toList,
       ");".toList,
       "ALTER TABLE ONLY posts ADD CONSTRAINT posts_author_fkey FOREIGN KEY (author_id) REFERENCES users(id);".toList,
       "ALTER TABLE ONLY posts ADD CONSTRAINT posts_slug_key UNIQUE (slug);".toList,
       "CREATE INDEX idx_posts_slug ON posts USING btree (slug);".toList]) =
      true ∧
    ∃ txt, generateCompressedSchema (parseSchema
      ["CREATE TABLE users (".toList, "    id integer NOT NULL,".toList,
       "    name text NOT NULL,".toList, "    email text,".toList,
       "    created timestamp DEFAULT now()".toList, ");".toList,
       "CREATE SEQUENCE users_id_seq;".toList,
       "ALTER SEQUENCE users_id_seq OWNED BY users.id;".toList,
       "ALTER TABLE ONLY users ADD CONSTRAINT users_pkey PRIMARY KEY (id);".toList,
       "CREATE TABLE posts (".toList, "    id integer NOT NULL,".toList,
       "    author_id integer NOT NULL,".toList, "    slug text".toList,
       ");".toList,
       "ALTER TABLE ONLY posts ADD CONSTRAINT posts_author_fkey FOREIGN KEY (author_id) REFERENCES users(id);".toList,
       "ALTER TABLE ONLY posts ADD CONSTRAINT posts_slug_key UNIQUE (slug);".toList,
       "CREATE INDEX idx_posts_slug ON posts USING btree (slug);".toList]) =
        some txt ∧
      parseCompressedSchema txt = gExpected (parseSchema
      ["CREATE TABLE users (".toList, "    id integer NOT NULL,".toList,
       "    name text NOT NULL,".toList, "    email text,".toList,
       "    created timestamp DEFAULT now()".toList, ");".toList,
       "CREATE SEQUENCE users_id_seq;".toList,
       "ALTER SEQUENCE users_id_seq OWNED BY users.id;".toList,
       "ALTER TABLE ONLY users ADD CONSTRAINT users_pkey PRIMARY KEY (id);".toList,
       "CREATE TABLE posts (".toList, "    id integer NOT NULL,".toList,
       "    author_id integer NOT NULL,".toList, "    slug text".toList,
       ");".toList,
       "ALTER TABLE ONLY posts ADD CONSTRAINT posts_author_fkey FOREIGN KEY (author_id) REFERENCES users(id);".toList,
       "ALTER TABLE ONLY posts ADD CONSTRAINT posts_slug_key UNIQUE (slug);".toList,
       "CREATE INDEX idx_posts_slug ON posts USING btree (slug);".toList]) :=
  ⟨by decide, compact_roundtrip _ (by decide)⟩

end Wtfk
